import Mathlib

/-!
# chunkymonkey: chunk storage, block indexing, chunk paths, the chunk cache and mobs

A shallow embedding of `src/lib/chunkymonkey/chunk.go` (`blockIndex`, `Chunk.SetBlock`,
`Chunk.GetBlock`, `loadChunk`, `base36Encode`, `ChunkManager.chunkPath`, `ChunkManager.Get`
and the loops of `ChunkManager.ChunksInRadius`), of `Mob.Init` and `Mob.SetBurning` of
`src/chunkymonkey/mob/mob.go`, and of `localShardShardClient.ReqTransferEntity` of
`pkg/chunkymonkey/shardserver/local_shard_shard_client.go`.

* Go's `int32` values are integers kept in the signed 32-bit range by `wrapInt32`;
  `byte` values are naturals reduced `% 256`; `uint64` values are naturals reduced `% 2^64`.
* Go strings are lists of characters.
* Code that can stop with a run-time panic (slice index out of range, failed type
  assertion, nil dereference, write to a nil map) returns `Go.panic`; loops run on a step
  budget and return `Go.outOfFuel` when the budget is used up; `log.Exit` in `Get` is the
  outcome `GetOutcome.exited`.
* Constants and types declared outside `chunk.go` (`ChunkSizeX`, `ChunkSizeY`, `ChunkSizeZ`,
  `ChunkRadius`, `BlockIDAir`) are fields of `Consts`.
* The unbuffered channel of `ChunksInRadius` is followed by `ChunksInRadius.runChan`: a send
  completes when a receiver takes the value and stays blocked otherwise. Goroutines calling
  `Get` at the same time run under an explicit schedule of their accesses to the shared map
  (`GetCallers`).
-/

namespace Chunkymonkey

/-! ## Results of running Go code -/

/-- Outcome of a Go computation: a returned value, a run-time panic, or an exhausted
step budget (the computation was still running when the model stopped following it). -/
inductive Go (α : Type) where
  | ok (v : α)
  | panic
  | outOfFuel
  deriving DecidableEq, Repr

/-- Sequencing of Go computations: the first panic or exhausted budget ends the run. -/
def Go.bind {α β : Type} (m : Go α) (f : α → Go β) : Go β :=
  match m with
  | .ok v => f v
  | .panic => .panic
  | .outOfFuel => .outOfFuel

instance : Monad Go where
  pure := Go.ok
  bind := Go.bind

/-! ## Machine integers -/

/-- Two's-complement reduction of an integer to Go's `int32` range `[-2^31, 2^31)`. -/
def wrapInt32 (n : Int) : Int := (n + 2147483648) % 4294967296 - 2147483648

/-- Predicate: the integer is a value of Go's `int32`. -/
def isInt32 (n : Int) : Prop := -2147483648 ≤ n ∧ n ≤ 2147483647

instance (n : Int) : Decidable (isInt32 n) := by unfold isInt32; infer_instance

/-- Conversion `uint32(n)` of a signed value: its residue modulo `2^32`. -/
def toUint32 (n : Int) : Nat := (n % 4294967296).toNat

/-- Conversion `uint64(n)` of a signed value (sign extension): its residue modulo `2^64`. -/
def toUint64 (n : Int) : Nat := (n % 18446744073709551616).toNat

/-- Go's `a & b` on `int32` operands: bitwise and of the two's-complement encodings. -/
def andInt32 (a b : Int) : Int := wrapInt32 (Int.ofNat (toUint32 a &&& toUint32 b))

/-! ## Types and constants declared outside `chunk.go` -/

/-- The package constants used by `chunk.go` whose declarations are not among the sources.
`ChunkSizeX`, `ChunkSizeY`, `ChunkSizeZ` are the chunk dimensions, `ChunkRadius` the radius
used by `ChunksInRadius`, `BlockIDAir` the block type of air. -/
structure Consts where
  ChunkSizeX : Int
  ChunkSizeY : Int
  ChunkSizeZ : Int
  ChunkRadius : Int
  BlockIDAir : Nat
  deriving DecidableEq, Repr

/-- Number of blocks of a chunk: `ChunkSizeX * ChunkSizeY * ChunkSizeZ`. -/
def Consts.volume (k : Consts) : Int := k.ChunkSizeX * k.ChunkSizeY * k.ChunkSizeZ

/-- The chunk dimensions are positive and the chunk volume is an `int32` value, so the
constant expressions of `blockIndex` are computed without overflow. -/
def Consts.wellFormed (k : Consts) : Prop :=
  0 < k.ChunkSizeX ∧ 0 < k.ChunkSizeY ∧ 0 < k.ChunkSizeZ ∧ k.volume ≤ 2147483647

instance (k : Consts) : Decidable k.wellFormed := by unfold Consts.wellFormed; infer_instance

/-- Chunk coordinate pair (`ChunkXZ`); both fields are `int32` values (`ChunkCoord`). -/
structure ChunkXZ where
  x : Int
  z : Int
  deriving DecidableEq, Repr

/-- Position of a block inside a chunk (`SubChunkXYZ`). -/
structure SubChunkXYZ where
  x : Int
  y : Int
  z : Int
  deriving DecidableEq, Repr

/-- Position of a block in the world (`BlockXYZ`). -/
structure BlockXYZ where
  x : Int
  y : Int
  z : Int
  deriving DecidableEq, Repr

/-- Modelled from the spec: `ChunkXZ.ToBlockXY` is declared outside `chunk.go`; the spec calls
its result the world block position of a sub-chunk location: the chunk origin plus the
offset inside the chunk. -/
def ChunkXZ.ToBlockXY (k : Consts) (c : ChunkXZ) (subLoc : SubChunkXYZ) : BlockXYZ :=
  { x := c.x * k.ChunkSizeX + subLoc.x, y := subLoc.y, z := c.z * k.ChunkSizeZ + subLoc.z }

/-- The content that `WriteBlockChange` serialises: a block position, a block type and a
metadata byte. The wire encoding itself is outside `chunk.go`. -/
structure BlockChange where
  pos : BlockXYZ
  blockType : Nat
  metadata : Nat
  deriving DecidableEq, Repr

/-- A multicast of a packet to the observers of a chunk (`MulticastChunkPacket`). -/
structure Multicast where
  packet : BlockChange
  chunk : ChunkXZ
  deriving DecidableEq, Repr

/-! ## Chunks -/

/-- A chunk: its coordinate and its byte slices. The back-reference `mgr` is only used to
reach the multicast function; every chunk is taken to belong to a manager, the field is left
out and the multicasts are returned by `SetBlock`. -/
structure Chunk where
  XZ : ChunkXZ
  Blocks : List Nat
  BlockData : List Nat
  BlockLight : List Nat
  SkyLight : List Nat
  HeightMap : List Nat
  deriving DecidableEq, Repr

/-- Reading `s[i]` from a byte slice with an `int32` index; out of range is a panic. -/
def sliceGet (s : List Nat) (i : Int) : Go Nat :=
  if h : 0 ≤ i ∧ i.toNat < s.length then .ok (s.get ⟨i.toNat, h.2⟩) else .panic

/-- Writing `s[i] = v` to a byte slice with an `int32` index; out of range is a panic. -/
def sliceSet (s : List Nat) (i : Int) (v : Nat) : Go (List Nat) :=
  if 0 ≤ i ∧ i.toNat < s.length then .ok (s.set i.toNat v) else .panic

/-- The function `blockIndex`: linear index, nibble shift and error flag of a location. The
declaration of the coordinate type `SubChunkCoord` is not among the sources; the sum is
formed in 32-bit arithmetic, the width of the index it is converted to, every operation
wrapping as in Go. `%` is Go's truncated remainder. -/
def blockIndex (k : Consts) (subLoc : SubChunkXYZ) : Int × Nat × Bool :=
  if subLoc.x < 0 ∨ subLoc.y < 0 ∨ subLoc.z < 0 ∨ subLoc.x ≥ k.ChunkSizeX ∨
      subLoc.y ≥ k.ChunkSizeY ∨ subLoc.z ≥ k.ChunkSizeZ then
    (0, 0, true)
  else
    let index := wrapInt32 (wrapInt32 (subLoc.y + wrapInt32 (subLoc.z * k.ChunkSizeY)) +
      wrapInt32 (wrapInt32 (subLoc.x * k.ChunkSizeY) * k.ChunkSizeZ))
    if Int.tmod index 2 = 0 then (index, 0, false) else (index, 4, false)

/-- The method `Chunk.SetBlock`: the updated chunk, the multicasts sent, and the error flag.
`byte(blockType)` is `blockType % 256`; the shifts are byte shifts (reduced `% 256`) and
`^mask` is the byte complement `mask ^^^ 255`. -/
def Chunk.SetBlock (k : Consts) (chunk : Chunk) (subLoc : SubChunkXYZ) (blockType : Nat)
    (blockMetadata : Nat) : Go (Chunk × List Multicast × Bool) :=
  match blockIndex k subLoc with
  | (_, _, true) => .ok (chunk, [], true)
  | (index, shift, false) => do
    let blocks ← sliceSet chunk.Blocks index (blockType % 256)
    let mask := (0x0f <<< shift) % 256
    let twoBlockData ← sliceGet chunk.BlockData (Int.tdiv index 2)
    let twoBlockData := (((blockMetadata <<< shift) % 256) &&& mask) |||
      (twoBlockData &&& (mask ^^^ 255))
    let blockData ← sliceSet chunk.BlockData (Int.tdiv index 2) twoBlockData
    let packet : BlockChange :=
      { pos := chunk.XZ.ToBlockXY k subLoc, blockType := k.BlockIDAir, metadata := 0 }
    .ok ({ chunk with Blocks := blocks, BlockData := blockData },
      [{ packet := packet, chunk := chunk.XZ }], false)

/-- The method `Chunk.GetBlock`: the block type at a location and the error flag. -/
def Chunk.GetBlock (k : Consts) (chunk : Chunk) (subLoc : SubChunkXYZ) : Go (Nat × Bool) :=
  match blockIndex k subLoc with
  | (_, _, true) => .ok (0, true)
  | (index, _, false) => do
    let blockType ← sliceGet chunk.Blocks index
    .ok (blockType, false)

/-- A sub-chunk location inside `[0,ChunkSizeX) × [0,ChunkSizeY) × [0,ChunkSizeZ)`. -/
def inBounds (k : Consts) (subLoc : SubChunkXYZ) : Prop :=
  0 ≤ subLoc.x ∧ subLoc.x < k.ChunkSizeX ∧ 0 ≤ subLoc.y ∧ subLoc.y < k.ChunkSizeY ∧
    0 ≤ subLoc.z ∧ subLoc.z < k.ChunkSizeZ

instance (k : Consts) (subLoc : SubChunkXYZ) : Decidable (inBounds k subLoc) := by
  unfold inBounds; infer_instance

/-- The chunk's `Blocks` has one byte per block of the chunk volume and `BlockData` half as
many bytes (two nibbles per byte). -/
def Chunk.sized (k : Consts) (chunk : Chunk) : Prop :=
  (chunk.Blocks.length : Int) = k.volume ∧ 2 * (chunk.BlockData.length : Int) = k.volume

instance (k : Consts) (chunk : Chunk) : Decidable (chunk.sized k) := by
  unfold Chunk.sized; infer_instance

/-- The linear index of a location written as in the spec: `y + z·SizeY + x·SizeY·SizeZ`. -/
def linearIndex (k : Consts) (subLoc : SubChunkXYZ) : Int :=
  subLoc.y + subLoc.z * k.ChunkSizeY + subLoc.x * k.ChunkSizeY * k.ChunkSizeZ

/-- The metadata nibble of the block with linear index `i` in a nibble-packed slice, as the
spec words the packing: the low nibble of byte `i / 2` for even `i`, the high nibble for odd
`i`. -/
def nibbleAt (data : List Nat) (i : Nat) : Nat :=
  (data.getD (i / 2) 0 >>> (4 * (i % 2))) &&& 15

/-- The constants of the game: 16 × 128 × 16 chunks, radius 10, air is block 0. -/
def sampleConsts : Consts :=
  { ChunkSizeX := 16, ChunkSizeY := 128, ChunkSizeZ := 16, ChunkRadius := 10, BlockIDAir := 0 }

/-- A small set of constants (2 × 2 × 2 chunks, radius 1) for evaluating examples. -/
def smallConsts : Consts :=
  { ChunkSizeX := 2, ChunkSizeY := 2, ChunkSizeZ := 2, ChunkRadius := 1, BlockIDAir := 0 }

/-- A chunk for `smallConsts` with distinguishable contents. -/
def smallChunk : Chunk :=
  { XZ := { x := 0, z := 0 }, Blocks := [1, 2, 3, 4, 5, 6, 7, 8],
    BlockData := [0x21, 0x43, 0x65, 0x87], BlockLight := [0, 0, 0, 0],
    SkyLight := [0, 0, 0, 0], HeightMap := [0, 0, 0, 0] }

/-! ## Base-36 names and chunk paths -/

/-- The digit alphabet of `base36Encode`. -/
def alphabet : List Char := "0123456789abcdefghijklmnopqrstuvwxyz".toList

/-- The slice expression `s[lo:hi]` on a string; it panics unless `0 ≤ lo ≤ hi ≤ len(s)`. -/
def substr (s : List Char) (lo hi : Int) : Go (List Char) :=
  if 0 ≤ lo ∧ lo ≤ hi ∧ hi ≤ s.length then .ok ((s.drop lo.toNat).take (hi - lo).toNat)
  else .panic

/-- The loop `for n != 0 { i := n % 36; n /= 36; s = alphabet[i:i+1] + s }` of
`base36Encode`, with a budget of iterations. `%` and `/` are Go's truncated operations. -/
def base36Loop : Nat → Int → List Char → Go (List Char)
  | 0, n, s => if n = 0 then .ok s else .outOfFuel
  | fuel + 1, n, s =>
    if n = 0 then .ok s
    else
      let i := Int.tmod n (wrapInt32 alphabet.length)
      let n2 := wrapInt32 (Int.tdiv n (wrapInt32 alphabet.length))
      match substr alphabet i (wrapInt32 (i + 1)) with
      | .ok d => base36Loop fuel n2 (d ++ s)
      | .panic => .panic
      | .outOfFuel => .outOfFuel

/-- The function `base36Encode` on an `int32` argument. The negation `n = -n` wraps at 32
bits. The loop budget is the magnitude of `n`, which the loop never uses up since every
iteration divides `n` by 36 (`base36Encode_ne_outOfFuel`). -/
def base36Encode (n : Int) : Go (List Char) :=
  let negative := decide (n < 0)
  let n := if n < 0 then wrapInt32 (-n) else n
  if n = 0 then .ok ['0']
  else
    match base36Loop n.natAbs n [] with
    | .ok s => if negative then .ok ('-' :: s) else .ok s
    | .panic => .panic
    | .outOfFuel => .outOfFuel

/-- One step of `path.Clean` on the next path element: empty and `.` elements are dropped,
`..` removes the last kept element when there is one past the protected prefix of length
`dd`, is dropped at the root of a rooted path, and is kept (and protected) otherwise. -/
def cleanStep (rooted : Bool) (st : List (List Char) × Nat) (e : List Char) :
    List (List Char) × Nat :=
  if e = [] ∨ e = ['.'] then st
  else if e = ['.', '.'] then
    if st.2 < st.1.length then (st.1.dropLast, st.2)
    else if rooted then st
    else (st.1 ++ [e], st.1.length + 1)
  else (st.1 ++ [e], st.2)

/-- Go's library function `path.Clean`, computed on the elements between slashes. -/
def pathClean (p : List Char) : List Char :=
  if p = [] then ['.']
  else
    let rooted := decide (p.head? = some '/')
    let out := ((p.splitOn '/').foldl (cleanStep rooted) ([], 0)).1
    let body := ['/'].intercalate out
    if rooted then '/' :: body else if body = [] then ['.'] else body

/-- Go's library function `path.Join`: leading empty elements are ignored, the rest are
joined with slashes and cleaned. -/
def pathJoin : List (List Char) → List Char
  | [] => []
  | e :: es => if e = [] then pathJoin es else pathClean (['/'].intercalate (e :: es))

/-- A path element that `path.Clean` keeps as it is: non-empty, without a slash, and neither
`.` nor `..`. -/
def plainElem (e : List Char) : Prop := e ≠ [] ∧ '/' ∉ e ∧ e ≠ ['.'] ∧ e ≠ ['.', '.']

instance (e : List Char) : Decidable (plainElem e) := by unfold plainElem; infer_instance

/-- ChunkManager: the world path and the map of loaded chunks, keyed by the packed
coordinate. The field `game` is only used to reach the multicast function. -/
structure ChunkManager where
  worldPath : List Char
  chunks : List (Nat × Chunk)
  deriving DecidableEq, Repr

/-- The method `ChunkManager.chunkPath`. The four calls of `base36Encode` are evaluated in
order; a panic in one of them ends the call. -/
def ChunkManager.chunkPath (mgr : ChunkManager) (loc : ChunkXZ) : Go (List Char) := do
  let dirX ← base36Encode (wrapInt32 (andInt32 loc.x 63))
  let dirZ ← base36Encode (wrapInt32 (andInt32 loc.z 63))
  let nameX ← base36Encode (wrapInt32 loc.x)
  let nameZ ← base36Encode (wrapInt32 loc.z)
  .ok (pathJoin [mgr.worldPath, dirX, dirZ,
    "c.".toList ++ nameX ++ ".".toList ++ nameZ ++ ".dat".toList])

/-- The map key computed by `ChunkManager.Get`:
`uint64(loc.x)<<32 | uint64(uint32(loc.z))`, the shift reduced to 64 bits. -/
def chunkKey (loc : ChunkXZ) : Nat :=
  ((toUint64 loc.x <<< 32) % 18446744073709551616) ||| (toUint32 loc.z % 18446744073709551616)

/-- Reading a 32-bit pattern as an `int32` (the conversion `int32(u)` of a `uint32`). -/
def ofUint32 (u : Nat) : Int := wrapInt32 (u : Int)

/-! ### The base-36 reader -/

/-- Value of a base-36 digit: `0`-`9` are 0..9 and `a`-`z` are 10..35. -/
def digitValue (c : Char) : Option Nat :=
  if 48 ≤ c.toNat ∧ c.toNat ≤ 57 then some (c.toNat - 48)
  else if 97 ≤ c.toNat ∧ c.toNat ≤ 122 then some (c.toNat - 97 + 10)
  else none

/-- Reading base-36 digits, most significant first, onto an accumulator. -/
def decodeDigits : List Char → Nat → Option Nat
  | [], acc => some acc
  | c :: cs, acc =>
    match digitValue c with
    | some d => decodeDigits cs (acc * 36 + d)
    | none => none

/-- The standard base-36 reader, written from the words of the spec and not from the code:
an optional leading `-`, then at least one digit `0-9a-z`, most significant first. -/
def base36Decode (s : List Char) : Option Int :=
  match s with
  | [] => none
  | c :: cs =>
    if c = '-' then
      if cs = [] then none else (decodeDigits cs 0).map fun v => -(v : Int)
    else (decodeDigits (c :: cs) 0).map fun v => (v : Int)

/-- The characters the reader accepts as digits: `0`-`9` and `a`-`z`. -/
def isBase36Digit (c : Char) : Prop :=
  (48 ≤ c.toNat ∧ c.toNat ≤ 57) ∨ (97 ≤ c.toNat ∧ c.toNat ≤ 122)

instance (c : Char) : Decidable (isBase36Digit c) := by unfold isBase36Digit; infer_instance

/-- The character of a digit value. -/
def digitChar (d : Nat) : Char := alphabet.getD d '0'

/-- The base-36 digits of a natural number, most significant first (empty for zero). -/
def base36Digits (m : Nat) : List Char := ((Nat.digits 36 m).reverse).map digitChar

/-! ## Iterating over the chunks around a chunk -/

/-- Control point of the goroutine started by `ChunksInRadius`: about to test the condition
of the outer loop with the current `z`, or of the inner loop with the current `z` and `x`. -/
inductive LoopPoint where
  | outer (z : Int)
  | inner (z x : Int)
  deriving DecidableEq, Repr

/-- What the goroutine has done so far: the manager state, the coordinates on which it has
called `Get` (in call order) and the chunks it has sent on the channel. -/
structure IterState (σ γ : Type) where
  mgr : σ
  calls : List ChunkXZ
  sent : List γ

/-- How a run of the goroutine ends: `closed` when both loops have finished and the channel
is closed; `getFailed` when a call of `Get` did not return (the last recorded call);
`running` when the step budget is used up and the loops are still going. -/
inductive IterResult (σ γ : Type) where
  | closed (st : IterState σ γ)
  | getFailed (st : IterState σ γ)
  | running (st : IterState σ γ)

/-- The two nested loops of `ChunksInRadius`, one loop-condition test per step. `get` is the
call `mgr.Get`: it returns a chunk and the new manager state, or `none` when the call does
not return (`Get` ends the process when a chunk cannot be loaded). The send `c <- chunk` is
taken to complete (a receiver keeps reading the channel). The loop counters are `int32`
values and `x++`, `z++` wrap. -/
def ChunksInRadius.run {σ γ : Type} (k : Consts) (get : ChunkXZ → σ → Option (γ × σ))
    (loc : ChunkXZ) : Nat → LoopPoint → IterState σ γ → IterResult σ γ
  | 0, _, st => .running st
  | fuel + 1, .outer z, st =>
    if z ≤ wrapInt32 (loc.z + k.ChunkRadius) then
      ChunksInRadius.run k get loc fuel (.inner z (wrapInt32 (loc.x - k.ChunkRadius))) st
    else .closed st
  | fuel + 1, .inner z x, st =>
    if x ≤ wrapInt32 (loc.x + k.ChunkRadius) then
      match get { x := x, z := z } st.mgr with
      | none => .getFailed { st with calls := st.calls ++ [{ x := x, z := z }] }
      | some (chunk, mgr) =>
        ChunksInRadius.run k get loc fuel (.inner z (wrapInt32 (x + 1)))
          { mgr := mgr, calls := st.calls ++ [{ x := x, z := z }], sent := st.sent ++ [chunk] }
    else ChunksInRadius.run k get loc fuel (.outer (wrapInt32 (z + 1))) st

/-- The coordinates on which `Get` has been called when the run ends or is left. -/
def IterResult.calls {σ γ : Type} : IterResult σ γ → List ChunkXZ
  | .closed st => st.calls
  | .getFailed st => st.calls
  | .running st => st.calls

/-- Whether the run reached `close(c)`. -/
def IterResult.isClosed {σ γ : Type} : IterResult σ γ → Bool
  | .closed _ => true
  | _ => false

/-- Whether the run ended inside a call of `Get` that did not return. -/
def IterResult.isGetFailed {σ γ : Type} : IterResult σ γ → Bool
  | .getFailed _ => true
  | _ => false

/-- A `Get` for a world in which every chunk can be loaded; the chunk is represented by its
coordinate and the manager state is not followed. -/
def getAlways (c : ChunkXZ) (s : Unit) : Option (ChunkXZ × Unit) := some (c, s)

/-- The goroutine of `ChunksInRadius` run for at most `fuel` steps from its start. -/
def ChunksInRadius {σ γ : Type} (k : Consts) (get : ChunkXZ → σ → Option (γ × σ))
    (fuel : Nat) (mgr : σ) (loc : ChunkXZ) : IterResult σ γ :=
  ChunksInRadius.run k get loc fuel (.outer (wrapInt32 (loc.z - k.ChunkRadius)))
    { mgr := mgr, calls := [], sent := [] }

/-- The coordinates of the square of side `2r+1` around `(cx, cz)` as the spec lists them,
row by row: `z` ascending and, within a row, `x` ascending. -/
def squareCoords (cx cz r : Int) : List ChunkXZ :=
  (List.range (2 * r + 1).toNat).flatMap fun (j : Nat) =>
    (List.range (2 * r + 1).toNat).map fun (i : Nat) =>
      { x := cx - r + (i : Int), z := cz - r + (j : Int) }

/-- Row-major order on chunk coordinates: `z` first, then `x`. -/
def rowMajorLt (a b : ChunkXZ) : Prop := a.z < b.z ∨ (a.z = b.z ∧ a.x < b.x)

instance (a b : ChunkXZ) : Decidable (rowMajorLt a b) := by unfold rowMajorLt; infer_instance

/-! ## Mobs (`chunkymonkey/mob/mob.go`) -/

/-- The type `Mob`, reduced to the fields `SetBurning` and `Init` give a value that can be
stated here: the entity id, the mob type and the metadata map. `metadata` is Go's
`map[byte]byte`: `none` is the nil map of a `Mob` that was never initialised, and in a map
`none` at a key means the key is absent (reading it gives the zero byte). The fields `look`
and `physObj` have types declared elsewhere, are not touched by `SetBurning`, and are left
out. -/
structure Mob where
  EntityId : Int
  mobType : Int
  metadata : Option (Nat → Option Nat)

/-- The method `Mob.Init`: sets the mob type and a fresh metadata map `{0: 0, 16: 0}`. -/
def Mob.Init (mob : Mob) (id : Int) : Mob :=
  { mob with
    mobType := id,
    metadata := some (fun key => if key = 0 ∨ key = 16 then some 0 else none) }

/-- Reading `m[key]` from a Go map: the zero byte when the key is absent or the map is nil. -/
def mapRead (m : Option (Nat → Option Nat)) (key : Nat) : Nat :=
  match m with
  | none => 0
  | some entries => (entries key).getD 0

/-- The method `Mob.SetBurning`: `metadata[0] |= 0x01` when `burn` is true and
`metadata[0] ^= 0x01` otherwise, on bytes. Writing to a nil map is a run-time panic. -/
def Mob.SetBurning (mob : Mob) (burn : Bool) : Go Mob :=
  match mob.metadata with
  | none => .panic
  | some entries =>
    let old := (entries 0).getD 0
    let new := if burn then (old ||| 0x01) % 256 else (old ^^^ 0x01) % 256
    .ok { mob with metadata := some (Function.update entries 0 (some new)) }

/-- A `Mob` value before `Init`: zero fields and a nil metadata map. -/
def zeroMob : Mob := { EntityId := 0, mobType := 0, metadata := none }

/-! ## Loading chunks -/

/-- Modelled from the spec: the package `nbt` is not among the sources. A tag of a decoded
hierarchical tagged record: an integer tag (`*nbt.Int`, an `int32` value), a byte-array tag
(`*nbt.ByteArray`), or a tag of any other type. -/
inductive NbtTag where
  | int (Value : Int)
  | byteArray (Value : List Nat)
  | other
  deriving DecidableEq, Repr

/-- Modelled from the spec: the package `nbt` is not among the sources. A decoded record,
given by the tags found at its paths (fields at fixed path names). -/
structure NbtLevel where
  tags : List (String × NbtTag)
  deriving DecidableEq, Repr

/-- Modelled from the spec: the package `nbt` is not among the sources. `level.Lookup(path)`
returns the tag at the path, or nil (`none`) when the record has no such field. -/
def NbtLevel.Lookup (level : NbtLevel) (path : String) : Option NbtTag :=
  level.tags.lookup path

/-- An `os.Error` value. -/
structure OsError where
  msg : String
  deriving DecidableEq, Repr

/-- Modelled from the spec: the package `nbt` is not among the sources. An `io.Reader` handed
to `loadChunk`, given by what `nbt.Read` returns on it: an error when the bytes are not a
tagged record, or the decoded record. -/
inductive Reader where
  | undecodable (err : OsError)
  | record (level : NbtLevel)
  deriving DecidableEq, Repr

/-- The type assertion `tag.(*nbt.Int).Value`: a run-time panic unless the tag is present
and is an integer tag. -/
def assertInt (tag : Option NbtTag) : Go Int :=
  match tag with
  | some (.int v) => .ok v
  | _ => .panic

/-- The type assertion `tag.(*nbt.ByteArray).Value`: a run-time panic unless the tag is
present and is a byte-array tag. -/
def assertByteArray (tag : Option NbtTag) : Go (List Nat) :=
  match tag with
  | some (.byteArray v) => .ok v
  | _ => .panic

/-- The chunk literal of `loadChunk`, its fields evaluated in source order. -/
def chunkOfLevel (level : NbtLevel) : Go Chunk := do
  let x ← assertInt (level.Lookup "/Level/xPos")
  let z ← assertInt (level.Lookup "/Level/zPos")
  let blocks ← assertByteArray (level.Lookup "/Level/Blocks")
  let blockData ← assertByteArray (level.Lookup "/Level/Data")
  let skyLight ← assertByteArray (level.Lookup "/Level/SkyLight")
  let blockLight ← assertByteArray (level.Lookup "/Level/BlockLight")
  let heightMap ← assertByteArray (level.Lookup "/Level/HeightMap")
  .ok { XZ := { x := x, z := z }, Blocks := blocks, BlockData := blockData,
        BlockLight := blockLight, SkyLight := skyLight, HeightMap := heightMap }

/-- The function `loadChunk`: the returned chunk pointer (`none` is nil) and error (`none` is
nil). When `nbt.Read` fails it returns `(nil, err)`; otherwise it builds the chunk from the
record with unchecked type assertions and returns `(chunk, nil)`. -/
def loadChunk (reader : Reader) : Go (Option Chunk × Option OsError) :=
  match reader with
  | .undecodable err => .ok (none, some err)
  | .record level =>
    match chunkOfLevel level with
    | .ok chunk => .ok (some chunk, none)
    | .panic => .panic
    | .outOfFuel => .outOfFuel

/-- The record has the required fields with the required types: `/Level/xPos`, `/Level/zPos`
integers and `/Level/Blocks`, `/Level/Data`, `/Level/SkyLight`, `/Level/BlockLight`,
`/Level/HeightMap` byte arrays. -/
def NbtLevel.wellTyped (level : NbtLevel) : Prop :=
  (∃ v, level.Lookup "/Level/xPos" = some (.int v)) ∧
  (∃ v, level.Lookup "/Level/zPos" = some (.int v)) ∧
  (∃ v, level.Lookup "/Level/Blocks" = some (.byteArray v)) ∧
  (∃ v, level.Lookup "/Level/Data" = some (.byteArray v)) ∧
  (∃ v, level.Lookup "/Level/SkyLight" = some (.byteArray v)) ∧
  (∃ v, level.Lookup "/Level/BlockLight" = some (.byteArray v)) ∧
  (∃ v, level.Lookup "/Level/HeightMap" = some (.byteArray v))

/-- The size invariant of the spec: `Blocks` has one byte per block of the chunk volume,
`BlockData`, `BlockLight` and `SkyLight` half as many, `HeightMap` one byte per column. -/
def Chunk.sizeInvariant (k : Consts) (chunk : Chunk) : Prop :=
  (chunk.Blocks.length : Int) = k.volume ∧
  2 * (chunk.BlockData.length : Int) = k.volume ∧
  2 * (chunk.BlockLight.length : Int) = k.volume ∧
  2 * (chunk.SkyLight.length : Int) = k.volume ∧
  (chunk.HeightMap.length : Int) = k.ChunkSizeX * k.ChunkSizeZ

instance (k : Consts) (chunk : Chunk) : Decidable (chunk.sizeInvariant k) := by
  unfold Chunk.sizeInvariant; infer_instance

/-- A record with all required fields, whose byte arrays have one byte each. -/
def tinyLevel : NbtLevel :=
  { tags := [("/Level/xPos", .int 3), ("/Level/zPos", .int (-4)),
             ("/Level/Blocks", .byteArray [1]), ("/Level/Data", .byteArray [2]),
             ("/Level/SkyLight", .byteArray [3]), ("/Level/BlockLight", .byteArray [4]),
             ("/Level/HeightMap", .byteArray [5])] }

/-- A record for `smallConsts` (8 blocks) with all required fields and arrays of the sizes
of the invariant. -/
def smallLevel : NbtLevel :=
  { tags := [("/Level/xPos", .int 0), ("/Level/zPos", .int 0),
             ("/Level/Blocks", .byteArray [1, 2, 3, 4, 5, 6, 7, 8]),
             ("/Level/Data", .byteArray [0x21, 0x43, 0x65, 0x87]),
             ("/Level/SkyLight", .byteArray [0, 0, 0, 0]),
             ("/Level/BlockLight", .byteArray [0, 0, 0, 0]),
             ("/Level/HeightMap", .byteArray [0, 0, 0, 0])] }

/-- A record without the field `/Level/HeightMap`. -/
def noHeightMapLevel : NbtLevel :=
  { tags := [("/Level/xPos", .int 0), ("/Level/zPos", .int 0),
             ("/Level/Blocks", .byteArray [1, 2, 3, 4, 5, 6, 7, 8]),
             ("/Level/Data", .byteArray [0x21, 0x43, 0x65, 0x87]),
             ("/Level/SkyLight", .byteArray [0, 0, 0, 0]),
             ("/Level/BlockLight", .byteArray [0, 0, 0, 0])] }

/-- A record whose `/Level/xPos` is a byte array instead of an integer. -/
def wrongTypeLevel : NbtLevel :=
  { tags := [("/Level/xPos", .byteArray [0]), ("/Level/zPos", .int 0),
             ("/Level/Blocks", .byteArray [1, 2, 3, 4, 5, 6, 7, 8]),
             ("/Level/Data", .byteArray [0x21, 0x43, 0x65, 0x87]),
             ("/Level/SkyLight", .byteArray [0, 0, 0, 0]),
             ("/Level/BlockLight", .byteArray [0, 0, 0, 0]),
             ("/Level/HeightMap", .byteArray [0, 0, 0, 0])] }

/-! ## The chunk cache: `ChunkManager.Get` -/

/-- Reading `m[key]` from the map of loaded chunks (`chunk, ok := mgr.chunks[key]`). -/
def mapLookup (m : List (Nat × Chunk)) (key : Nat) : Option Chunk :=
  match m with
  | [] => none
  | (k, chunk) :: rest => if k = key then some chunk else mapLookup rest key

/-- The assignment `m[key] = chunk`: the entry of the key is replaced or added. -/
def mapStore (m : List (Nat × Chunk)) (key : Nat) (chunk : Chunk) : List (Nat × Chunk) :=
  (key, chunk) :: m.filter (fun e => decide (e.1 ≠ key))

/-- The files of the world directory as `os.Open` sees them: the reader of the file at a
path, or `none` when the file cannot be opened. -/
structure World where
  openFile : List Char → Option Reader

/-- What a call of `Get` that comes back leaves: the returned chunk, the manager with its
map, and the paths of the files the call opened and loaded, in order. -/
structure GetReturn where
  chunk : Chunk
  mgr : ChunkManager
  opened : List (List Char)
  deriving DecidableEq, Repr

/-- How a call of `Get` ends when it does not panic: it returns, or `log.Exit` ends the
process. -/
inductive GetOutcome where
  | returned (r : GetReturn)
  | exited
  deriving DecidableEq, Repr

/-- The end of `Get` after `loadChunk` has returned `(chunk, err)`: `chunk.mgr = mgr` is a
nil dereference when the chunk is nil; then a non-nil error ends the process; otherwise the
chunk is stored under the key and returned. -/
def ChunkManager.Get.afterLoad (mgr : ChunkManager) (key : Nat) (path : List Char)
    (res : Option Chunk × Option OsError) : Go GetOutcome :=
  match res with
  | (none, _) => .panic
  | (some _, some _) => .ok .exited
  | (some chunk, none) =>
    .ok (.returned { chunk := chunk,
                     mgr := { mgr with chunks := mapStore mgr.chunks key chunk },
                     opened := [path] })

/-- The part of `Get` after `os.Open`: an open error ends the process, otherwise the file is
loaded. -/
def ChunkManager.Get.afterOpen (mgr : ChunkManager) (key : Nat) (path : List Char)
    (file : Option Reader) : Go GetOutcome :=
  match file with
  | none => .ok .exited
  | some reader => do
    let res ← loadChunk reader
    ChunkManager.Get.afterLoad mgr key path res

/-- The part of `Get` after the map lookup: a cached chunk is returned at once, otherwise
the chunk file is opened and loaded. -/
def ChunkManager.Get.afterLookup (world : World) (mgr : ChunkManager) (loc : ChunkXZ)
    (key : Nat) (cached : Option Chunk) : Go GetOutcome :=
  match cached with
  | some chunk => .ok (.returned { chunk := chunk, mgr := mgr, opened := [] })
  | none => do
    let path ← mgr.chunkPath loc
    ChunkManager.Get.afterOpen mgr key path (world.openFile path)

/-- The method `ChunkManager.Get`. -/
def ChunkManager.Get (world : World) (mgr : ChunkManager) (loc : ChunkXZ) : Go GetOutcome :=
  ChunkManager.Get.afterLookup world mgr loc (chunkKey loc)
    (mapLookup mgr.chunks (chunkKey loc))

/-- The map holds at most one entry for each key. -/
def ChunkManager.singleEntries (mgr : ChunkManager) : Prop :=
  (mgr.chunks.map Prod.fst).Nodup

/-- A world directory with no chunk file. -/
def emptyWorld : World := { openFile := fun _ => none }

/-- A world directory whose only chunk file is the one of chunk `(0, 0)` under the world
path `world`, holding the record `smallLevel`. -/
def smallWorld : World :=
  { openFile := fun path =>
      if path = "world/0/0/c.0.0.dat".toList then some (.record smallLevel) else none }

/-- A world directory in which every file opens and none is a tagged record. -/
def garbageWorld : World :=
  { openFile := fun _ => some (.undecodable { msg := "unexpected EOF" }) }

/-- A manager for the world path `world` with no chunk loaded. -/
def freshManager : ChunkManager := { worldPath := "world".toList, chunks := [] }

/-! ## Shards (`shardserver/local_shard_shard_client.go`) -/

/-- An operation queued on a shard (a Go closure): run on the shard state `σ`, it gives the
new state and the calls `chunk.transferEntity(entity)` it made, in order. -/
abbrev ShardOp (σ χ ε : Type) : Type := σ → σ × List (χ × ε)

/-- Modelled from the spec: the type `ChunkShard` is not among the sources. A shard owns its
state (the chunks of its region and their entities) and a strictly ordered queue of pending
operations. -/
structure ChunkShard (σ χ ε : Type) where
  state : σ
  queue : List (ShardOp σ χ ε)

/-- Modelled from the spec: `ChunkShard.Enqueue` is not among the sources. It appends the
operation to the tail of the queue and does not run it. -/
def ChunkShard.Enqueue {σ χ ε : Type} (shard : ChunkShard σ χ ε) (op : ShardOp σ χ ε) :
    ChunkShard σ χ ε :=
  { shard with queue := shard.queue ++ [op] }

/-- The closure that `ReqTransferEntity` hands to `Enqueue`. `get` is the shard's `Get`
(the chunk, or `none` for nil, and the shard state it leaves) and `transferEntity` is
`chunk.transferEntity`; both are declared outside the sources. -/
def transferEntityOp {σ χ ε : Type} (get : ChunkXZ → σ → Option χ × σ)
    (transferEntity : χ → ε → σ → σ) (loc : ChunkXZ) (entity : ε) : ShardOp σ χ ε :=
  fun st =>
    match get loc st with
    | (some chunk, st2) => (transferEntity chunk entity st2, [(chunk, entity)])
    | (none, st2) => (st2, [])

/-- The type `localShardShardClient`: a reference to the shard it serves. -/
structure localShardShardClient (σ χ ε : Type) where
  serverShard : ChunkShard σ χ ε

/-- The method `localShardShardClient.ReqTransferEntity`; the result is the client with
the shard as the call leaves it. -/
def localShardShardClient.ReqTransferEntity {σ χ ε : Type}
    (get : ChunkXZ → σ → Option χ × σ) (transferEntity : χ → ε → σ → σ)
    (client : localShardShardClient σ χ ε) (loc : ChunkXZ) (entity : ε) :
    localShardShardClient σ χ ε :=
  { serverShard := client.serverShard.Enqueue (transferEntityOp get transferEntity loc entity) }

/-! ## The calls of `Get` made by `ChunksInRadius` -/

/-- What the loops of `ChunksInRadius` get from a call of `Get`: the chunk and the manager
when the call returns, `none` when it panics or ends the process. -/
def getCallResult (res : Go GetOutcome) : Option (Chunk × ChunkManager) :=
  match res with
  | .ok (.returned r) => some (r.chunk, r.mgr)
  | _ => none

/-- The call `mgr.Get(loc)` in a world, as the loops of `ChunksInRadius` use it. -/
def ChunkManager.getCall (world : World) (loc : ChunkXZ) (mgr : ChunkManager) :
    Option (Chunk × ChunkManager) :=
  getCallResult (mgr.Get world loc)

/-! ## The channel of `ChunksInRadius` -/

/-- How a run of the goroutine ends when the receiving side of the channel is followed too:
`closed`, `getFailed` and `running` as in `IterResult`, and `sendBlocked` when no receiver
takes the chunk of the last recorded call, so that the send `c <- chunk` on the unbuffered
channel never completes. -/
inductive ChanResult (σ γ : Type) where
  | closed (st : IterState σ γ)
  | getFailed (st : IterState σ γ)
  | sendBlocked (st : IterState σ γ)
  | running (st : IterState σ γ)

/-- The two nested loops of `ChunksInRadius` with the send on the channel `c`, one
loop-condition test per step. `get` is the call `mgr.Get` as in `ChunksInRadius.run`. The
channel is made by `make(chan *Chunk)` and has no buffer: the send `c <- chunk` completes
only when a receiver takes the value. `recv i` tells whether a receiver takes the `i`-th
value sent (counted from 0); when none does the goroutine stays in that send. The loop
counters are `int32` values and `x++`, `z++` wrap. -/
def ChunksInRadius.runChan {σ γ : Type} (k : Consts) (get : ChunkXZ → σ → Option (γ × σ))
    (recv : Nat → Bool) (loc : ChunkXZ) :
    Nat → LoopPoint → IterState σ γ → ChanResult σ γ
  | 0, _, st => .running st
  | fuel + 1, .outer z, st =>
    if z ≤ wrapInt32 (loc.z + k.ChunkRadius) then
      ChunksInRadius.runChan k get recv loc fuel
        (.inner z (wrapInt32 (loc.x - k.ChunkRadius))) st
    else .closed st
  | fuel + 1, .inner z x, st =>
    if x ≤ wrapInt32 (loc.x + k.ChunkRadius) then
      match get { x := x, z := z } st.mgr with
      | none => .getFailed { st with calls := st.calls ++ [{ x := x, z := z }] }
      | some (chunk, mgr) =>
        if recv st.sent.length then
          ChunksInRadius.runChan k get recv loc fuel (.inner z (wrapInt32 (x + 1)))
            { mgr := mgr, calls := st.calls ++ [{ x := x, z := z }],
              sent := st.sent ++ [chunk] }
        else
          .sendBlocked { mgr := mgr, calls := st.calls ++ [{ x := x, z := z }],
                         sent := st.sent }
    else ChunksInRadius.runChan k get recv loc fuel (.outer (wrapInt32 (z + 1))) st

/-- The goroutine of `ChunksInRadius` with the receiving side of its channel, run for at
most `fuel` steps from its start. -/
def ChunksInRadius.withReceiver {σ γ : Type} (k : Consts)
    (get : ChunkXZ → σ → Option (γ × σ)) (recv : Nat → Bool) (fuel : Nat) (mgr : σ)
    (loc : ChunkXZ) : ChanResult σ γ :=
  ChunksInRadius.runChan k get recv loc fuel (.outer (wrapInt32 (loc.z - k.ChunkRadius)))
    { mgr := mgr, calls := [], sent := [] }

/-- The coordinates on which `Get` has been called when the run ends or is left. -/
def ChanResult.calls {σ γ : Type} : ChanResult σ γ → List ChunkXZ
  | .closed st => st.calls
  | .getFailed st => st.calls
  | .sendBlocked st => st.calls
  | .running st => st.calls

/-- Whether the run reached `close(c)`. -/
def ChanResult.isClosed {σ γ : Type} : ChanResult σ γ → Bool
  | .closed _ => true
  | _ => false

/-- Whether the run ended inside a call of `Get` that did not return. -/
def ChanResult.isGetFailed {σ γ : Type} : ChanResult σ γ → Bool
  | .getFailed _ => true
  | _ => false

/-- Whether the run stays in a send that no receiver takes. -/
def ChanResult.isSendBlocked {σ γ : Type} : ChanResult σ γ → Bool
  | .sendBlocked _ => true
  | _ => false

/-- Whether the step budget was used up with the loops still going. -/
def ChanResult.isRunning {σ γ : Type} : ChanResult σ γ → Bool
  | .running _ => true
  | _ => false

/-- The result of a run in which every send completes, as a result with the channel. -/
def ChanResult.ofIter {σ γ : Type} : IterResult σ γ → ChanResult σ γ
  | .closed st => .closed st
  | .getFailed st => .getFailed st
  | .running st => .running st

/-- A receiver that takes every value sent on the channel. -/
def recvAll (_ : Nat) : Bool := true

/-- No receiver: nothing ever reads the channel. -/
def recvNone (_ : Nat) : Bool := false

/-- A world directory in which every chunk file opens and holds the record `smallLevel`. -/
def openWorld : World := { openFile := fun _ => some (.record smallLevel) }

/-! ## Concurrent calls of `ChunkManager.Get` -/

/-- Where a goroutine that called `Get` stands: before the map read
`chunk, ok := mgr.chunks[key]`; between the map read (holding its result) and the rest of
the call; or back from the call with the chunk it returns and the paths of the files it
opened and loaded. -/
inductive GetCaller where
  | start
  | lookedUp (cached : Option Chunk)
  | returned (chunk : Chunk) (opened : List (List Char))
  deriving DecidableEq, Repr

/-- Goroutines calling `Get` on one manager for the same coordinate: the manager they share
(`mgr` is a pointer and `Get` takes no lock) and where each of them stands. -/
structure GetCallers where
  mgr : ChunkManager
  callers : List GetCaller
  deriving DecidableEq, Repr

/-- The end of a step in which caller `i` ran the part of `Get` after the map read: when
the call returns, the shared map is the one the call leaves; `log.Exit` ends the process
(`none`). -/
def GetCallers.finish (s : GetCallers) (i : Nat) (res : Go GetOutcome) :
    Go (Option GetCallers) :=
  match res with
  | .ok (.returned r) =>
    .ok (some { mgr := r.mgr, callers := s.callers.set i (.returned r.chunk r.opened) })
  | .ok .exited => .ok none
  | .panic => .panic
  | .outOfFuel => .outOfFuel

/-- One scheduling step given where caller `i` stands: a caller at the start does the map
read on the shared map as it is now; a caller that has done the map read runs the rest of
`Get` (`ChunkManager.Get.afterLookup`) with the result of its own read, on the shared map as
it is now; a caller that is back does nothing. -/
def GetCallers.stepAt (world : World) (loc : ChunkXZ) (s : GetCallers) (i : Nat)
    (caller : Option GetCaller) : Go (Option GetCallers) :=
  match caller with
  | some .start =>
    .ok (some { s with
      callers := s.callers.set i (.lookedUp (mapLookup s.mgr.chunks (chunkKey loc))) })
  | some (.lookedUp cached) =>
    s.finish i (ChunkManager.Get.afterLookup world s.mgr loc (chunkKey loc) cached)
  | _ => .ok (some s)

/-- One scheduling step: caller `i` runs until its next access to the shared map. -/
def GetCallers.step (world : World) (loc : ChunkXZ) (s : GetCallers) (i : Nat) :
    Go (Option GetCallers) :=
  s.stepAt world loc i (s.callers.get? i)

/-- The callers run under a schedule, the list of the callers that take the successive
steps. The run stops when a call panics or ends the process. -/
def GetCallers.runSchedule (world : World) (loc : ChunkXZ) :
    List Nat → GetCallers → Go (Option GetCallers)
  | [], s => .ok (some s)
  | i :: rest, s =>
    match s.step world loc i with
    | .ok (some s2) => GetCallers.runSchedule world loc rest s2
    | .ok none => .ok none
    | .panic => .panic
    | .outOfFuel => .outOfFuel

/-- The number of chunk files a caller opened and loaded. -/
def GetCaller.loads : GetCaller → Nat
  | .returned _ opened => opened.length
  | _ => 0

/-- The number of load/decode operations performed by all callers together. -/
def GetCallers.loads (s : GetCallers) : Nat := (s.callers.map GetCaller.loads).sum

/-- Callers of `Get` on a manager, none of which has started. -/
def GetCallers.fresh (mgr : ChunkManager) (n : Nat) : GetCallers :=
  { mgr := mgr, callers := List.replicate n .start }

/-! ## Theorems -/

theorem wrapInt32_of_isInt32 {n : Int} (h : isInt32 n) : wrapInt32 n = n := by
  unfold isInt32 at h
  unfold wrapInt32
  omega


theorem linearIndex_bounds {k : Consts} (hk : k.wellFormed) {subLoc : SubChunkXYZ}
    (hin : inBounds k subLoc) :
    0 ≤ subLoc.z * k.ChunkSizeY ∧ 0 ≤ subLoc.x * k.ChunkSizeY ∧
    0 ≤ subLoc.x * k.ChunkSizeY * k.ChunkSizeZ ∧
    subLoc.y + subLoc.z * k.ChunkSizeY < k.ChunkSizeY * k.ChunkSizeZ ∧
    subLoc.x * k.ChunkSizeY ≤ subLoc.x * k.ChunkSizeY * k.ChunkSizeZ ∧
    linearIndex k subLoc < k.volume := by
  obtain ⟨hX, hY, hZ, hV⟩ := hk
  obtain ⟨hx0, hx1, hy0, hy1, hz0, hz1⟩ := hin
  have h1 : 0 ≤ subLoc.z * k.ChunkSizeY := mul_nonneg hz0 hY.le
  have h2 : 0 ≤ subLoc.x * k.ChunkSizeY := mul_nonneg hx0 hY.le
  have h3 : 0 ≤ subLoc.x * k.ChunkSizeY * k.ChunkSizeZ := mul_nonneg h2 hZ.le
  have h4 : (subLoc.z + 1) * k.ChunkSizeY ≤ k.ChunkSizeZ * k.ChunkSizeY :=
    mul_le_mul_of_nonneg_right (by omega) hY.le
  have h5 : (subLoc.x + 1) * (k.ChunkSizeY * k.ChunkSizeZ) ≤
      k.ChunkSizeX * (k.ChunkSizeY * k.ChunkSizeZ) :=
    mul_le_mul_of_nonneg_right (by omega) (mul_nonneg hY.le hZ.le)
  have h6 : subLoc.x * k.ChunkSizeY * 1 ≤ subLoc.x * k.ChunkSizeY * k.ChunkSizeZ :=
    mul_le_mul_of_nonneg_left (by omega) h2
  refine ⟨h1, h2, h3, ?_, ?_, ?_⟩
  · nlinarith
  · linarith
  · unfold linearIndex Consts.volume
    nlinarith

theorem blockIndex_of_inBounds {k : Consts} (hk : k.wellFormed) {subLoc : SubChunkXYZ}
    (hin : inBounds k subLoc) :
    blockIndex k subLoc =
      (linearIndex k subLoc, if linearIndex k subLoc % 2 = 0 then 0 else 4, false) ∧
    0 ≤ linearIndex k subLoc ∧ linearIndex k subLoc < k.volume := by
  obtain ⟨h1, h2, h3, h4, h5, h6⟩ := linearIndex_bounds hk hin
  have hV : k.volume ≤ 2147483647 := hk.2.2.2
  have hin2 := hin
  obtain ⟨hx0, hx1, hy0, hy1, hz0, hz1⟩ := hin
  have hL : linearIndex k subLoc =
      subLoc.y + subLoc.z * k.ChunkSizeY + subLoc.x * k.ChunkSizeY * k.ChunkSizeZ := rfl
  have hnn : 0 ≤ linearIndex k subLoc := by rw [hL]; linarith
  have hvol : k.volume = k.ChunkSizeX * k.ChunkSizeY * k.ChunkSizeZ := rfl
  have w1 : wrapInt32 (subLoc.z * k.ChunkSizeY) = subLoc.z * k.ChunkSizeY :=
    wrapInt32_of_isInt32 ⟨by linarith, by linarith⟩
  have w2 : wrapInt32 (subLoc.y + subLoc.z * k.ChunkSizeY) = subLoc.y + subLoc.z * k.ChunkSizeY :=
    wrapInt32_of_isInt32 ⟨by linarith, by linarith⟩
  have w3 : wrapInt32 (subLoc.x * k.ChunkSizeY) = subLoc.x * k.ChunkSizeY :=
    wrapInt32_of_isInt32 ⟨by linarith, by linarith⟩
  have w4 : wrapInt32 (subLoc.x * k.ChunkSizeY * k.ChunkSizeZ) =
      subLoc.x * k.ChunkSizeY * k.ChunkSizeZ :=
    wrapInt32_of_isInt32 ⟨by linarith, by linarith⟩
  have w5 : wrapInt32 (subLoc.y + subLoc.z * k.ChunkSizeY +
      subLoc.x * k.ChunkSizeY * k.ChunkSizeZ) = linearIndex k subLoc :=
    wrapInt32_of_isInt32 ⟨by linarith, by linarith⟩
  refine ⟨?_, hnn, h6⟩
  have hguard : ¬ (subLoc.x < 0 ∨ subLoc.y < 0 ∨ subLoc.z < 0 ∨ subLoc.x ≥ k.ChunkSizeX ∨
      subLoc.y ≥ k.ChunkSizeY ∨ subLoc.z ≥ k.ChunkSizeZ) := by omega
  unfold blockIndex
  rw [if_neg hguard]
  simp only [w1, w2, w3, w4, w5]
  have htm : Int.tmod (linearIndex k subLoc) 2 = linearIndex k subLoc % 2 := by
    rw [Int.tmod_eq_emod hnn (by norm_num)]
  rw [htm]
  split <;> rfl


theorem testBit_fifteen (i : Nat) : Nat.testBit 15 i = decide (i < 4) :=
  Nat.testBit_two_pow_sub_one 4 i

theorem testBit_highMask (i : Nat) :
    Nat.testBit 240 i = (decide (4 ≤ i) && decide (i < 8)) := by
  have h : (240 : Nat) = 15 <<< 4 := by decide
  rw [h, Nat.testBit_shiftLeft, testBit_fifteen]
  by_cases h4 : 4 ≤ i
  · simp [h4]; omega
  · simp [h4]

theorem testBit_byte (x i : Nat) :
    Nat.testBit (x % 256) i = (decide (i < 8) && x.testBit i) :=
  Nat.testBit_mod_two_pow x 8 i

theorem packLow_selected (m old : Nat) :
    ((((m <<< 0) % 256) &&& 15) ||| (old &&& 240)) &&& 15 = m &&& 15 := by
  apply Nat.eq_of_testBit_eq; intro i
  simp only [Nat.testBit_and, Nat.testBit_or, testBit_fifteen, testBit_highMask, testBit_byte,
    Nat.shiftLeft_zero]
  by_cases h4 : i < 4
  · have : i < 8 := by omega
    have : ¬ 4 ≤ i := by omega
    simp [*]
  · simp [h4]

theorem packLow_other (m old : Nat) :
    (((((m <<< 0) % 256) &&& 15) ||| (old &&& 240)) >>> 4) &&& 15 = (old >>> 4) &&& 15 := by
  apply Nat.eq_of_testBit_eq; intro i
  simp only [Nat.testBit_and, Nat.testBit_or, Nat.testBit_shiftRight, testBit_fifteen,
    testBit_highMask, testBit_byte, Nat.shiftLeft_zero]
  by_cases h4 : i < 4
  · have : 4 + i < 8 := by omega
    have : ¬ 4 + i < 4 := by omega
    have : 4 ≤ 4 + i := by omega
    simp [*]
  · simp [h4]

theorem packHigh_selected (m old : Nat) :
    (((((m <<< 4) % 256) &&& 240) ||| (old &&& 15)) >>> 4) &&& 15 = m &&& 15 := by
  apply Nat.eq_of_testBit_eq; intro i
  simp only [Nat.testBit_and, Nat.testBit_or, Nat.testBit_shiftRight, Nat.testBit_shiftLeft,
    testBit_fifteen, testBit_highMask, testBit_byte]
  by_cases h4 : i < 4
  · have : 4 + i < 8 := by omega
    have : ¬ 4 + i < 4 := by omega
    have : 4 ≤ 4 + i := by omega
    simp [*]
  · simp [h4]

theorem packHigh_other (m old : Nat) :
    ((((m <<< 4) % 256) &&& 240) ||| (old &&& 15)) &&& 15 = old &&& 15 := by
  apply Nat.eq_of_testBit_eq; intro i
  simp only [Nat.testBit_and, Nat.testBit_or, Nat.testBit_shiftLeft, testBit_fifteen,
    testBit_highMask, testBit_byte]
  by_cases h4 : i < 4
  · have : i < 8 := by omega
    have : ¬ 4 ≤ i := by omega
    simp [*]
  · simp [h4]

/-- The byte that `SetBlock` stores into `BlockData[index/2]`. -/
theorem sliceGet_of_lt {s : List Nat} {i : Int} (h0 : 0 ≤ i) (h1 : i.toNat < s.length) :
    sliceGet s i = .ok (s.getD i.toNat 0) := by
  unfold sliceGet
  rw [dif_pos ⟨h0, h1⟩]
  congr 1
  exact (List.getD_eq_getElem s 0 h1).symm

theorem sliceSet_of_lt {s : List Nat} {i : Int} (v : Nat) (h0 : 0 ≤ i)
    (h1 : i.toNat < s.length) : sliceSet s i v = .ok (s.set i.toNat v) := by
  unfold sliceSet
  rw [if_pos ⟨h0, h1⟩]

theorem setBlock_of_inBounds {k : Consts} (hk : k.wellFormed) {chunk : Chunk}
    (hs : chunk.sized k) {subLoc : SubChunkXYZ} (hin : inBounds k subLoc) (t m : Nat) :
    chunk.SetBlock k subLoc t m =
      .ok ({ chunk with
              Blocks := chunk.Blocks.set (linearIndex k subLoc).toNat (t % 256),
              BlockData := chunk.BlockData.set ((linearIndex k subLoc).toNat / 2)
                (if linearIndex k subLoc % 2 = 0 then
                  ((((m <<< 0) % 256) &&& 15) |||
                    (chunk.BlockData.getD ((linearIndex k subLoc).toNat / 2) 0 &&& 240))
                else
                  ((((m <<< 4) % 256) &&& 240) |||
                    (chunk.BlockData.getD ((linearIndex k subLoc).toNat / 2) 0 &&& 15))) },
            [{ packet := { pos := chunk.XZ.ToBlockXY k subLoc, blockType := k.BlockIDAir,
                           metadata := 0 },
               chunk := chunk.XZ }], false) := by
  obtain ⟨hbi, hnn, hlt⟩ := blockIndex_of_inBounds hk hin
  obtain ⟨hB, hD⟩ := hs
  have hi1 : (linearIndex k subLoc).toNat < chunk.Blocks.length := by omega
  have htd : Int.tdiv (linearIndex k subLoc) 2 = ((linearIndex k subLoc).toNat / 2 : Nat) := by
    rw [Int.tdiv_eq_ediv hnn (by norm_num)]
    omega
  have hi2 : (linearIndex k subLoc).toNat / 2 < chunk.BlockData.length := by omega
  have hd0 : (0 : Int) ≤ ((linearIndex k subLoc).toNat / 2 : Nat) := by omega
  have hd1 : (((linearIndex k subLoc).toNat / 2 : Nat) : Int).toNat < chunk.BlockData.length := by
    rw [Int.toNat_ofNat]; exact hi2
  unfold Chunk.SetBlock
  rw [hbi]
  by_cases hpar : linearIndex k subLoc % 2 = 0
  · simp only [hpar, if_true]
    simp only [bind, Go.bind, sliceSet_of_lt _ hnn hi1, htd, sliceGet_of_lt hd0 hd1,
      sliceSet_of_lt _ hd0 hd1, Int.toNat_ofNat]
    rfl
  · simp only [hpar, if_false]
    simp only [bind, Go.bind, sliceSet_of_lt _ hnn hi1, htd, sliceGet_of_lt hd0 hd1,
      sliceSet_of_lt _ hd0 hd1, Int.toNat_ofNat]
    rfl


theorem blockIndex_of_not_inBounds {k : Consts} {subLoc : SubChunkXYZ}
    (hout : ¬ inBounds k subLoc) : blockIndex k subLoc = (0, 0, true) := by
  have hguard : subLoc.x < 0 ∨ subLoc.y < 0 ∨ subLoc.z < 0 ∨ subLoc.x ≥ k.ChunkSizeX ∨
      subLoc.y ≥ k.ChunkSizeY ∨ subLoc.z ≥ k.ChunkSizeZ := by
    unfold inBounds at hout
    omega
  unfold blockIndex
  rw [if_pos hguard]

theorem blockIndex_err_false {k : Consts} {subLoc : SubChunkXYZ} (hin : inBounds k subLoc) :
    ∃ index shift, blockIndex k subLoc = (index, shift, false) := by
  have hguard : ¬ (subLoc.x < 0 ∨ subLoc.y < 0 ∨ subLoc.z < 0 ∨ subLoc.x ≥ k.ChunkSizeX ∨
      subLoc.y ≥ k.ChunkSizeY ∨ subLoc.z ≥ k.ChunkSizeZ) := by
    unfold inBounds at hin
    omega
  unfold blockIndex
  rw [if_neg hguard]
  dsimp only
  split
  · exact ⟨_, _, rfl⟩
  · exact ⟨_, _, rfl⟩

theorem setBlock_err_false_or_panic {k : Consts} (chunk : Chunk) {subLoc : SubChunkXYZ}
    (hin : inBounds k subLoc) (t m : Nat) :
    chunk.SetBlock k subLoc t m = .panic ∨
      ∃ c ms, chunk.SetBlock k subLoc t m = .ok (c, ms, false) := by
  obtain ⟨index, shift, hbi⟩ := blockIndex_err_false (k := k) hin
  unfold Chunk.SetBlock
  rw [hbi]
  simp only [bind, Go.bind, sliceSet, sliceGet]
  split_ifs <;> simp

theorem getBlock_err_false_or_panic {k : Consts} (chunk : Chunk) {subLoc : SubChunkXYZ}
    (hin : inBounds k subLoc) :
    chunk.GetBlock k subLoc = .panic ∨ ∃ b, chunk.GetBlock k subLoc = .ok (b, false) := by
  obtain ⟨index, shift, hbi⟩ := blockIndex_err_false (k := k) hin
  unfold Chunk.GetBlock
  rw [hbi]
  simp only [bind, Go.bind, sliceGet]
  split_ifs <;> simp

/-- C4: for every in-bounds sub-chunk location `(x, y, z)`, `blockIndex` returns
`err = false`, `index = y + z*ChunkSizeY + x*ChunkSizeY*ChunkSizeZ`, and `shift = 0` when
that index is even and `shift = 4` when it is odd. -/
theorem blockIndex_inBounds_spec (k : Consts) (hk : k.wellFormed) (subLoc : SubChunkXYZ)
    (hin : inBounds k subLoc) :
    blockIndex k subLoc =
      (subLoc.y + subLoc.z * k.ChunkSizeY + subLoc.x * k.ChunkSizeY * k.ChunkSizeZ,
       (if (subLoc.y + subLoc.z * k.ChunkSizeY + subLoc.x * k.ChunkSizeY * k.ChunkSizeZ) % 2 = 0
         then 0 else 4),
       false) :=
  (blockIndex_of_inBounds hk hin).1

theorem blockIndex_inBounds_spec_witness :
    sampleConsts.wellFormed ∧ inBounds sampleConsts { x := 3, y := 101, z := 7 } ∧
    blockIndex sampleConsts { x := 3, y := 101, z := 7 } = (7141, 4, false) :=
  ⟨by decide, by decide,
   blockIndex_inBounds_spec sampleConsts (by decide) { x := 3, y := 101, z := 7 } (by decide)⟩

/-- C1: on a chunk whose `Blocks` and `BlockData` are sized for the chunk volume, for every
in-bounds location, block type `t` (a byte) and metadata `m`, `SetBlock(loc, t, m)` returns
`err = false` and `GetBlock(loc)` on the updated chunk returns `(t, err = false)`. -/
theorem setBlock_getBlock_roundtrip (k : Consts) (hk : k.wellFormed) (chunk : Chunk)
    (hs : chunk.sized k) (subLoc : SubChunkXYZ) (hin : inBounds k subLoc) (t m : Nat)
    (ht : t < 256) :
    ∃ c ms, chunk.SetBlock k subLoc t m = .ok (c, ms, false) ∧
      c.GetBlock k subLoc = .ok (t, false) := by
  refine ⟨_, _, setBlock_of_inBounds hk hs hin t m, ?_⟩
  obtain ⟨hbi, hnn, hlt⟩ := blockIndex_of_inBounds hk hin
  have hi1 : (linearIndex k subLoc).toNat < chunk.Blocks.length := by
    have := hs.1
    omega
  unfold Chunk.GetBlock
  rw [hbi]
  have hlen : (linearIndex k subLoc).toNat <
      (chunk.Blocks.set (linearIndex k subLoc).toNat (t % 256)).length := by
    rw [List.length_set]; exact hi1
  simp only [bind, Go.bind, sliceGet_of_lt hnn hlen]
  rw [List.getD_eq_getElem _ _ hlen, List.getElem_set_self, Nat.mod_eq_of_lt ht]

theorem setBlock_getBlock_roundtrip_witness :
    smallConsts.wellFormed ∧ smallChunk.sized smallConsts ∧
    inBounds smallConsts { x := 1, y := 0, z := 1 } ∧
    ∃ c ms, smallChunk.SetBlock smallConsts { x := 1, y := 0, z := 1 } 200 0xab =
        .ok (c, ms, false) ∧
      c.GetBlock smallConsts { x := 1, y := 0, z := 1 } = .ok (200, false) :=
  ⟨by decide, by decide, by decide,
   setBlock_getBlock_roundtrip smallConsts (by decide) smallChunk (by decide)
     { x := 1, y := 0, z := 1 } (by decide) 200 0xab (by decide)⟩

/-- C2: `SetBlock` and `GetBlock` return `err = true` exactly when the location lies outside
`[0,ChunkSizeX) × [0,ChunkSizeY) × [0,ChunkSizeZ)`; in that case `SetBlock` returns the chunk
unchanged and sends no packet, and `GetBlock` returns the zero block type. -/
theorem boundary_error_iff_outside (k : Consts) (chunk : Chunk) (subLoc : SubChunkXYZ)
    (t m : Nat) :
    ((∃ c ms, chunk.SetBlock k subLoc t m = .ok (c, ms, true)) ↔ ¬ inBounds k subLoc) ∧
    ((∃ b, chunk.GetBlock k subLoc = .ok (b, true)) ↔ ¬ inBounds k subLoc) ∧
    (¬ inBounds k subLoc →
      chunk.SetBlock k subLoc t m = .ok (chunk, [], true) ∧
      chunk.GetBlock k subLoc = .ok (0, true)) := by
  have hout : ¬ inBounds k subLoc →
      chunk.SetBlock k subLoc t m = .ok (chunk, [], true) ∧
      chunk.GetBlock k subLoc = .ok (0, true) := by
    intro h
    unfold Chunk.SetBlock Chunk.GetBlock
    rw [blockIndex_of_not_inBounds h]
    exact ⟨rfl, rfl⟩
  refine ⟨⟨?_, fun h => ⟨_, _, (hout h).1⟩⟩, ⟨?_, fun h => ⟨_, (hout h).2⟩⟩, hout⟩
  · rintro ⟨c, ms, hset⟩ hin
    rcases setBlock_err_false_or_panic chunk hin t m with hp | ⟨c2, ms2, h2⟩
    · rw [hp] at hset; cases hset
    · rw [h2] at hset; cases hset
  · rintro ⟨b, hget⟩ hin
    rcases getBlock_err_false_or_panic chunk hin with hp | ⟨b2, h2⟩
    · rw [hp] at hget; cases hget
    · rw [h2] at hget; cases hget


theorem getD_set_self (s : List Nat) (i v : Nat) (h : i < s.length) :
    (s.set i v).getD i 0 = v := by
  have hlen : i < (s.set i v).length := by rw [List.length_set]; exact h
  rw [List.getD_eq_getElem _ _ hlen, List.getElem_set_self]

/-- C3: for every in-bounds location with linear index `i` and every metadata value `m`,
`SetBlock` stores `m & 0x0f` in the nibble of `BlockData[i/2]` selected by the parity of `i`
(low nibble for even `i`, high nibble for odd `i`) and the other nibble of that byte, the
metadata of the adjacent index sharing the byte, keeps its value. -/
theorem setBlock_metadata_nibbles (k : Consts) (hk : k.wellFormed) (chunk : Chunk)
    (hs : chunk.sized k) (subLoc : SubChunkXYZ) (hin : inBounds k subLoc) (t m : Nat) :
    ∃ c ms, chunk.SetBlock k subLoc t m = .ok (c, ms, false) ∧
      nibbleAt c.BlockData (linearIndex k subLoc).toNat = m &&& 0x0f ∧
      (∀ j : Nat, j / 2 = (linearIndex k subLoc).toNat / 2 → j ≠ (linearIndex k subLoc).toNat →
        nibbleAt c.BlockData j = nibbleAt chunk.BlockData j) ∧
      ((linearIndex k subLoc).toNat % 2 = 0 →
        c.BlockData.getD ((linearIndex k subLoc).toNat / 2) 0 &&& 0x0f = m &&& 0x0f ∧
        (c.BlockData.getD ((linearIndex k subLoc).toNat / 2) 0 >>> 4) &&& 0x0f =
          (chunk.BlockData.getD ((linearIndex k subLoc).toNat / 2) 0 >>> 4) &&& 0x0f) ∧
      ((linearIndex k subLoc).toNat % 2 = 1 →
        (c.BlockData.getD ((linearIndex k subLoc).toNat / 2) 0 >>> 4) &&& 0x0f = m &&& 0x0f ∧
        c.BlockData.getD ((linearIndex k subLoc).toNat / 2) 0 &&& 0x0f =
          chunk.BlockData.getD ((linearIndex k subLoc).toNat / 2) 0 &&& 0x0f) := by
  refine ⟨_, _, setBlock_of_inBounds hk hs hin t m, ?_⟩
  obtain ⟨-, hnn, hlt⟩ := blockIndex_of_inBounds hk hin
  have hD := hs.2
  generalize hi : (linearIndex k subLoc).toNat = i
  have hi2 : i / 2 < chunk.BlockData.length := by omega
  have hpar : linearIndex k subLoc % 2 = 0 ↔ i % 2 = 0 := by omega
  dsimp only
  rcases Nat.mod_two_eq_zero_or_one i with h0 | h1
  · have hz : linearIndex k subLoc % 2 = 0 := hpar.mpr h0
    rw [if_pos hz]
    refine ⟨?_, ?_, ?_, ?_⟩
    · unfold nibbleAt
      rw [getD_set_self _ _ _ hi2, h0]
      exact packLow_selected m _
    · intro j hj hne
      have hj1 : j % 2 = 1 := by omega
      unfold nibbleAt
      rw [hj, getD_set_self _ _ _ hi2, hj1]
      exact packLow_other m _
    · intro _
      rw [getD_set_self _ _ _ hi2]
      exact ⟨packLow_selected m _, packLow_other m _⟩
    · intro h; omega
  · have hz : ¬ linearIndex k subLoc % 2 = 0 := by omega
    rw [if_neg hz]
    refine ⟨?_, ?_, ?_, ?_⟩
    · unfold nibbleAt
      rw [getD_set_self _ _ _ hi2, h1]
      exact packHigh_selected m _
    · intro j hj hne
      have hj1 : j % 2 = 0 := by omega
      unfold nibbleAt
      rw [hj, getD_set_self _ _ _ hi2, hj1]
      exact packHigh_other m _
    · intro h; omega
    · intro _
      rw [getD_set_self _ _ _ hi2]
      exact ⟨packHigh_selected m _, packHigh_other m _⟩

theorem setBlock_metadata_nibbles_witness :
    smallConsts.wellFormed ∧ smallChunk.sized smallConsts ∧
    inBounds smallConsts { x := 1, y := 0, z := 1 } ∧
    ∃ c ms, smallChunk.SetBlock smallConsts { x := 1, y := 0, z := 1 } 200 0xab =
        .ok (c, ms, false) ∧
      nibbleAt c.BlockData 6 = 0x0b ∧ nibbleAt c.BlockData 7 = 0x08 := by
  obtain ⟨c, ms, h, hsel, hoth, -, -⟩ :=
    setBlock_metadata_nibbles smallConsts (by decide) smallChunk (by decide)
      { x := 1, y := 0, z := 1 } (by decide) 200 0xab
  refine ⟨by decide, by decide, by decide, c, ms, h, hsel, ?_⟩
  have h7 := hoth 7 (by decide) (by decide)
  rw [h7]
  decide



/-! ### Base-36 encoding -/

theorem alphabet_length : alphabet.length = 36 := by decide

theorem wrapInt32_alphabet_length : wrapInt32 (alphabet.length : Int) = 36 := by decide

theorem substr_alphabet (d : Nat) (h : d < 36) :
    substr alphabet (d : Int) (wrapInt32 ((d : Int) + 1)) = .ok [digitChar d] := by
  interval_cases d <;> decide

theorem digitValue_digitChar (d : Nat) (h : d < 36) : digitValue (digitChar d) = some d := by
  interval_cases d <;> decide

theorem isBase36Digit_digitChar (d : Nat) (h : d < 36) : isBase36Digit (digitChar d) := by
  interval_cases d <;> decide

theorem digitChar_ne_minus (d : Nat) (h : d < 36) : digitChar d ≠ '-' := by
  interval_cases d <;> decide

theorem digitChar_ne_dot (d : Nat) (h : d < 36) : digitChar d ≠ '.' := by
  interval_cases d <;> decide

theorem digitChar_ne_slash (d : Nat) (h : d < 36) : digitChar d ≠ '/' := by
  interval_cases d <;> decide

theorem digitChar_eq_zero_iff (d : Nat) (h : d < 36) : digitChar d = '0' ↔ d = 0 := by
  interval_cases d <;> decide

theorem base36Digits_zero : base36Digits 0 = [] := by
  simp [base36Digits]

theorem base36Digits_step (m : Nat) (hm : 0 < m) :
    base36Digits m = base36Digits (m / 36) ++ [digitChar (m % 36)] := by
  unfold base36Digits
  rw [Nat.digits_def' (by norm_num) hm]
  simp

theorem base36Loop_zero (fuel : Nat) (s : List Char) : base36Loop fuel 0 s = .ok s := by
  cases fuel <;> simp [base36Loop]

theorem base36Loop_spec (fuel : Nat) : ∀ (m : Nat) (s : List Char), m ≤ 2147483647 →
    m ≤ fuel → base36Loop fuel (m : Int) s = .ok (base36Digits m ++ s) := by
  induction fuel with
  | zero =>
    intro m s _ hm
    have : m = 0 := by omega
    subst this
    simp [base36Loop, base36Digits_zero]
  | succ fuel ih =>
    intro m s hmax hm
    rcases Nat.eq_zero_or_pos m with h0 | hpos
    · subst h0
      simp [base36Loop, base36Digits_zero]
    · have hne : (m : Int) ≠ 0 := by omega
      have hi : Int.tmod (m : Int) 36 = ((m % 36 : Nat) : Int) := by
        rw [Int.tmod_eq_emod (by omega) (by norm_num)]
        omega
      have hq : wrapInt32 (Int.tdiv (m : Int) 36) = ((m / 36 : Nat) : Int) := by
        rw [Int.tdiv_eq_ediv (by omega) (by norm_num)]
        unfold wrapInt32
        omega
      have hsub := substr_alphabet (m % 36) (Nat.mod_lt _ (by norm_num))
      rw [base36Loop, if_neg hne]
      simp only [wrapInt32_alphabet_length, hi, hq, hsub]
      rw [ih (m / 36) _ (by omega) (by omega), base36Digits_step m hpos]
      simp

theorem base36Encode_zero : base36Encode 0 = .ok ['0'] := by decide

theorem base36Encode_pos (n : Int) (h0 : 0 < n) (h1 : n ≤ 2147483647) :
    base36Encode n = .ok (base36Digits n.toNat) := by
  have hn : n = (n.toNat : Int) := by omega
  unfold base36Encode
  have hlt : ¬ n < 0 := by omega
  simp only [hlt, if_false, decide_False]
  rw [if_neg (by omega)]
  have hloop := base36Loop_spec n.natAbs n.toNat [] (by omega) (by omega)
  rw [← hn] at hloop
  rw [hloop]
  simp

theorem base36Encode_neg (n : Int) (h0 : -2147483648 < n) (h1 : n < 0) :
    base36Encode n = .ok ('-' :: base36Digits (-n).toNat) := by
  have hw : wrapInt32 (-n) = -n := wrapInt32_of_isInt32 ⟨by omega, by omega⟩
  have hn : -n = ((-n).toNat : Int) := by omega
  unfold base36Encode
  simp only [h1, if_true, decide_True, hw]
  rw [if_neg (by omega)]
  have hloop := base36Loop_spec (-n).natAbs (-n).toNat [] (by omega) (by omega)
  rw [← hn] at hloop
  rw [hloop]
  simp


theorem natAbs_wrapInt32_tdiv_lt (n : Int) (hne : n ≠ 0) :
    (wrapInt32 (Int.tdiv n 36)).natAbs < n.natAbs := by
  rcases lt_or_gt_of_ne hne with hneg | hpos
  · have h1 : Int.tdiv n 36 = -((-n) / 36) := by
      have h2 : Int.tdiv (-(-n)) 36 = -(Int.tdiv (-n) 36) := Int.neg_tdiv _ _
      rw [neg_neg] at h2
      rw [h2, Int.tdiv_eq_ediv (by omega) (by norm_num)]
    rw [h1]
    unfold wrapInt32
    omega
  · rw [Int.tdiv_eq_ediv (by omega) (by norm_num)]
    unfold wrapInt32
    omega

theorem base36Loop_ne_outOfFuel (fuel : Nat) : ∀ (n : Int) (s : List Char),
    n.natAbs ≤ fuel → base36Loop fuel n s ≠ .outOfFuel := by
  induction fuel with
  | zero =>
    intro n s h
    have : n = 0 := by omega
    subst this
    simp [base36Loop]
  | succ fuel ih =>
    intro n s h
    by_cases hn : n = 0
    · subst hn
      simp [base36Loop]
    · rw [base36Loop, if_neg hn]
      simp only [wrapInt32_alphabet_length]
      have hlt := natAbs_wrapInt32_tdiv_lt n hn
      cases hsub : substr alphabet (Int.tmod n 36) (wrapInt32 (Int.tmod n 36 + 1)) with
      | ok d => exact ih _ _ (by omega)
      | panic => simp
      | outOfFuel =>
        unfold substr at hsub
        split_ifs at hsub

/-- The loop budget of `base36Encode` is never used up: on every argument the function
returns a string or panics. -/
theorem base36Encode_ne_outOfFuel (n : Int) : base36Encode n ≠ .outOfFuel := by
  unfold base36Encode
  dsimp only
  generalize (if n < 0 then wrapInt32 (-n) else n) = n2
  generalize decide (n < 0) = negative
  by_cases h0 : n2 = 0
  · rw [if_pos h0]
    simp
  · rw [if_neg h0]
    have := base36Loop_ne_outOfFuel n2.natAbs n2 [] le_rfl
    cases hl : base36Loop n2.natAbs n2 [] with
    | ok s => cases negative <;> simp
    | panic => simp
    | outOfFuel => exact absurd hl this

/-! ### The base-36 reader on encoder output -/

theorem decodeDigits_append (a b : List Char) : ∀ acc : Nat,
    decodeDigits (a ++ b) acc = (decodeDigits a acc).bind (decodeDigits b) := by
  induction a with
  | nil => intro acc; simp [decodeDigits]
  | cons c cs ih =>
    intro acc
    simp only [List.cons_append, decodeDigits]
    cases digitValue c with
    | none => simp
    | some d => simp [ih]

theorem decodeDigits_base36Digits (m : Nat) : decodeDigits (base36Digits m) 0 = some m := by
  induction m using Nat.strong_induction_on with
  | _ m ih =>
    rcases Nat.eq_zero_or_pos m with h0 | hpos
    · subst h0
      simp [base36Digits_zero, decodeDigits]
    · rw [base36Digits_step m hpos, decodeDigits_append, ih (m / 36) (by omega)]
      simp only [Option.some_bind, decodeDigits,
        digitValue_digitChar (m % 36) (Nat.mod_lt _ (by norm_num))]
      congr 1
      omega

theorem base36Digits_ne_nil (m : Nat) (hm : 0 < m) : base36Digits m ≠ [] := by
  rw [base36Digits_step m hm]
  simp

theorem base36Digits_all_digits (m : Nat) :
    ∀ c ∈ base36Digits m, ∃ d, d < 36 ∧ c = digitChar d := by
  intro c hc
  unfold base36Digits at hc
  simp only [List.mem_map, List.mem_reverse] at hc
  obtain ⟨d, hd, rfl⟩ := hc
  exact ⟨d, Nat.digits_lt_base (by norm_num) hd, rfl⟩

theorem base36Digits_head_ne_zero (m : Nat) :
    (base36Digits m).head? ≠ some '0' := by
  induction m using Nat.strong_induction_on with
  | _ m ih =>
    rcases Nat.eq_zero_or_pos m with h0 | hpos
    · subst h0
      simp [base36Digits_zero]
    · rw [base36Digits_step m hpos]
      rcases Nat.eq_zero_or_pos (m / 36) with hq | hq
      · rw [hq, base36Digits_zero]
        simp only [List.nil_append, List.head?_cons, ne_eq, Option.some.injEq]
        rw [digitChar_eq_zero_iff _ (Nat.mod_lt _ (by norm_num))]
        omega
      · have hne := base36Digits_ne_nil (m / 36) hq
        rw [List.head?_append_of_ne_nil _ hne]
        exact ih (m / 36) (by omega)


theorem base36Decode_digits (m : Nat) (hm : 0 < m) :
    base36Decode (base36Digits m) = some (m : Int) := by
  cases hd : base36Digits m with
  | nil => exact absurd hd (base36Digits_ne_nil m hm)
  | cons c cs =>
    obtain ⟨d, hd36, hc⟩ := base36Digits_all_digits m c (by rw [hd]; simp)
    have hne : c ≠ '-' := by rw [hc]; exact digitChar_ne_minus d hd36
    unfold base36Decode
    simp only [if_neg hne]
    rw [← hd, decodeDigits_base36Digits]
    rfl

theorem base36Decode_minus_digits (m : Nat) (hm : 0 < m) :
    base36Decode ('-' :: base36Digits m) = some (-(m : Int)) := by
  unfold base36Decode
  simp only [if_true, if_neg (base36Digits_ne_nil m hm)]
  rw [decodeDigits_base36Digits]
  rfl

theorem base36Digits_isBase36Digit (m : Nat) : ∀ c ∈ base36Digits m, isBase36Digit c := by
  intro c hc
  obtain ⟨d, hd, rfl⟩ := base36Digits_all_digits m c hc
  exact isBase36Digit_digitChar d hd

theorem base36Encode_decodes (n : Int) (hlo : -2147483648 < n) (hhi : n ≤ 2147483647) :
    ∃ s, base36Encode n = .ok s ∧ base36Decode s = some n ∧ s ≠ [] ∧
      ∃ ds, (s = ds ∨ s = '-' :: ds) ∧ ds ≠ [] ∧ (∀ c ∈ ds, isBase36Digit c) ∧
        (ds.head? = some '0' → s = ['0']) := by
  rcases lt_trichotomy n 0 with hneg | hzero | hpos
  · have hm : 0 < (-n).toNat := by omega
    refine ⟨_, base36Encode_neg n hlo hneg, ?_, by simp, base36Digits (-n).toNat, Or.inr rfl,
      base36Digits_ne_nil _ hm, base36Digits_isBase36Digit _, ?_⟩
    · rw [base36Decode_minus_digits _ hm]
      congr 1
      omega
    · intro h
      exact absurd h (base36Digits_head_ne_zero _)
  · subst hzero
    exact ⟨['0'], base36Encode_zero, by decide, by simp, ['0'], Or.inl rfl, by simp,
      by decide, fun _ => rfl⟩
  · have hm : 0 < n.toNat := by omega
    refine ⟨_, base36Encode_pos n hpos hhi, ?_, base36Digits_ne_nil _ hm, base36Digits n.toNat,
      Or.inl rfl, base36Digits_ne_nil _ hm, base36Digits_isBase36Digit _, ?_⟩
    · rw [base36Decode_digits _ hm]
      congr 1
      omega
    · intro h
      exact absurd h (base36Digits_head_ne_zero _)

/-- C6: for every 32-bit signed integer `n` greater than `-2^31`, `base36Encode n` returns a
string that the base-36 reader (optional leading `-`, then digits `0-9a-z`, most significant
first) decodes back to `n`; the string is non-empty, consists of an optional `-` followed by
digits `0-9a-z`, and its first digit is `0` only when the string is exactly `0`. -/
theorem base36_roundtrip (n : Int) (hlo : -2147483648 < n) (hhi : n ≤ 2147483647) :
    ∃ s, base36Encode n = .ok s ∧ base36Decode s = some n ∧ s ≠ [] ∧
      ∃ ds, (s = ds ∨ s = '-' :: ds) ∧ ds ≠ [] ∧ (∀ c ∈ ds, isBase36Digit c) ∧
        (ds.head? = some '0' → s = ['0']) :=
  base36Encode_decodes n hlo hhi

theorem base36_roundtrip_witness :
    (-2147483648 : Int) < -10000 ∧ (-10000 : Int) ≤ 2147483647 ∧
    ∃ s, base36Encode (-10000) = .ok s ∧ base36Decode s = some (-10000) ∧ s ≠ [] ∧
      ∃ ds, (s = ds ∨ s = '-' :: ds) ∧ ds ≠ [] ∧ (∀ c ∈ ds, isBase36Digit c) ∧
        (ds.head? = some '0' → s = ['0']) :=
  ⟨by decide, by decide, base36_roundtrip (-10000) (by decide) (by decide)⟩

/-- C7 (the code departs from the claim): at the minimum `int32` value `-2^31` the negation
`n = -n` wraps back to `-2^31`, the first remainder `n % 36` is `-20`, and the slice
`alphabet[i:i+1]` panics; `base36Encode` returns no string there. -/
theorem base36Encode_minInt32_panics : base36Encode (-2147483648) = .panic := by decide

/-- For every negative `int32` value above the minimum, `base36Encode` returns `-` followed
by the base-36 digits of the magnitude, and `0` is encoded as the single digit `0`. -/
theorem base36Encode_sign_magnitude (n : Int) (hlo : -2147483648 < n) (hneg : n < 0) :
    base36Encode n = .ok ('-' :: base36Digits n.natAbs) ∧ base36Encode 0 = .ok ['0'] := by
  have h : n.natAbs = (-n).toNat := by omega
  rw [h]
  exact ⟨base36Encode_neg n hlo hneg, base36Encode_zero⟩

/-! ### The map key of `ChunkManager.Get` -/

theorem chunkKey_eq (loc : ChunkXZ) :
    chunkKey loc = 2 ^ 32 * toUint32 loc.x + toUint32 loc.z := by
  have hz : toUint32 loc.z < 2 ^ 32 := by unfold toUint32; omega
  have hx : (toUint64 loc.x <<< 32) % 18446744073709551616 = 2 ^ 32 * toUint32 loc.x := by
    rw [Nat.shiftLeft_eq]
    unfold toUint64 toUint32
    omega
  unfold chunkKey
  rw [hx, Nat.mod_eq_of_lt (by omega), Nat.mul_add_lt_is_or hz]

theorem ofUint32_toUint32 {n : Int} (h : isInt32 n) : ofUint32 (toUint32 n) = n := by
  unfold isInt32 at h
  unfold ofUint32 toUint32 wrapInt32
  omega

/-- C8: for chunk coordinates over the full signed 32-bit range, the key
`uint64(x)<<32 | uint64(uint32(z))` computed by `ChunkManager.Get` is different for different
coordinates, and `x` and `z` are recovered from the high and the low 32 bits of the key. -/
theorem chunkKey_collision_free (a b : ChunkXZ) (hax : isInt32 a.x) (haz : isInt32 a.z)
    (hbx : isInt32 b.x) (hbz : isInt32 b.z) :
    (a ≠ b → chunkKey a ≠ chunkKey b) ∧
    ofUint32 (chunkKey a >>> 32) = a.x ∧ ofUint32 (chunkKey a &&& 0xffffffff) = a.z := by
  have hrec : ∀ c : ChunkXZ, isInt32 c.x → isInt32 c.z →
      ofUint32 (chunkKey c >>> 32) = c.x ∧ ofUint32 (chunkKey c &&& 0xffffffff) = c.z := by
    intro c hcx hcz
    have hz : toUint32 c.z < 2 ^ 32 := by unfold toUint32; omega
    have hhi : chunkKey c >>> 32 = toUint32 c.x := by
      rw [chunkKey_eq, Nat.shiftRight_eq_div_pow]
      omega
    have hlo : chunkKey c &&& 0xffffffff = toUint32 c.z := by
      have h := Nat.and_pow_two_sub_one_eq_mod (chunkKey c) 32
      norm_num at h
      rw [h, chunkKey_eq]
      omega
    rw [hhi, hlo]
    exact ⟨ofUint32_toUint32 hcx, ofUint32_toUint32 hcz⟩
  refine ⟨?_, hrec a hax haz⟩
  intro hne hkey
  apply hne
  obtain ⟨h1, h2⟩ := hrec a hax haz
  obtain ⟨h3, h4⟩ := hrec b hbx hbz
  rw [hkey] at h1 h2
  have hx : a.x = b.x := by rw [← h1, h3]
  have hz : a.z = b.z := by rw [← h2, h4]
  cases a; cases b
  simp_all

theorem chunkKey_collision_free_witness :
    isInt32 (-1) ∧ isInt32 (-2147483648) ∧ isInt32 2147483647 ∧ isInt32 0 ∧
    ((({ x := -1, z := -2147483648 } : ChunkXZ) ≠ { x := 2147483647, z := 0 } →
      chunkKey { x := -1, z := -2147483648 } ≠ chunkKey { x := 2147483647, z := 0 }) ∧
    ofUint32 (chunkKey { x := -1, z := -2147483648 } >>> 32) = -1 ∧
    ofUint32 (chunkKey { x := -1, z := -2147483648 } &&& 0xffffffff) = -2147483648) :=
  ⟨by decide, by decide, by decide, by decide,
   chunkKey_collision_free { x := -1, z := -2147483648 } { x := 2147483647, z := 0 }
     (by decide) (by decide) (by decide) (by decide)⟩


/-! ### Joining path elements -/

theorem splitOn_append_sep (sep : Char) (a b : List Char) :
    (a ++ sep :: b).splitOn sep = a.splitOn sep ++ b.splitOn sep := by
  simp only [List.splitOn]
  induction a with
  | nil => simp
  | cons h t ih =>
    simp only [List.cons_append, List.splitOnP_cons, ih]
    split_ifs
    · simp
    · cases hs : List.splitOnP (fun x => x == sep) t with
      | nil => exact absurd hs (List.splitOnP_ne_nil _ _)
      | cons u us => simp [List.modifyHead]

theorem splitOn_of_not_mem (sep : Char) (e : List Char) (h : sep ∉ e) :
    e.splitOn sep = [e] := by
  apply List.splitOnP_eq_single
  intro x hx hbeq
  rw [beq_iff_eq] at hbeq
  subst hbeq
  exact h hx

theorem intercalate_cons_cons (sep a b : List Char) (rest : List (List Char)) :
    sep.intercalate (a :: b :: rest) = a ++ sep ++ sep.intercalate (b :: rest) := by
  simp [List.intercalate, List.intersperse]

theorem intercalate_append_of_ne_nil (sep : List Char) (A B : List (List Char)) (hB : B ≠ []) :
    sep.intercalate (A ++ B) = (A.flatMap fun e => e ++ sep) ++ sep.intercalate B := by
  induction A with
  | nil => simp
  | cons a A ih =>
    cases hAB : A ++ B with
    | nil => simp [hB] at hAB
    | cons c cs =>
      rw [List.cons_append, hAB, intercalate_cons_cons, ← hAB, ih]
      simp

theorem cleanStep_plain (rooted : Bool) (st : List (List Char) × Nat) (e : List Char)
    (he : plainElem e) : cleanStep rooted st e = (st.1 ++ [e], st.2) := by
  obtain ⟨h1, -, h3, h4⟩ := he
  unfold cleanStep
  rw [if_neg (by tauto), if_neg h4]


theorem intercalate_three (d1 d2 f : List Char) :
    ['/'].intercalate [d1, d2, f] = d1 ++ '/' :: (d2 ++ '/' :: f) := by
  simp [List.intercalate, List.intersperse]

theorem splitOn_three (d1 d2 f : List Char) (h1 : '/' ∉ d1) (h2 : '/' ∉ d2) (h3 : '/' ∉ f) :
    (d1 ++ '/' :: (d2 ++ '/' :: f)).splitOn '/' = [d1, d2, f] := by
  rw [splitOn_append_sep, splitOn_append_sep, splitOn_of_not_mem _ _ h1,
    splitOn_of_not_mem _ _ h2, splitOn_of_not_mem _ _ h3]
  rfl

theorem foldl_cleanStep_three (rooted : Bool) (st : List (List Char) × Nat)
    (d1 d2 f : List Char) (h1 : plainElem d1) (h2 : plainElem d2) (h3 : plainElem f) :
    ([d1, d2, f].foldl (cleanStep rooted) st).1 = st.1 ++ [d1, d2, f] := by
  simp only [List.foldl_cons, List.foldl_nil, cleanStep_plain _ _ _ h1, cleanStep_plain _ _ _ h2,
    cleanStep_plain _ _ _ h3]
  simp

/-- Joining a fixed first element with three plain elements puts the three elements, separated
by slashes, after a prefix that depends on the first element only. -/
theorem pathJoin_plain (w : List Char) :
    ∃ P : List Char, ∀ d1 d2 f : List Char, plainElem d1 → plainElem d2 → plainElem f →
      pathJoin [w, d1, d2, f] = P ++ (d1 ++ '/' :: (d2 ++ '/' :: f)) := by
  by_cases hw : w = []
  · refine ⟨[], fun d1 d2 f h1 h2 h3 => ?_⟩
    subst hw
    have hne : d1 ≠ [] := h1.1
    have hp : d1 ++ '/' :: (d2 ++ '/' :: f) ≠ [] := by simp [hne]
    have hroot : ¬ (d1 ++ '/' :: (d2 ++ '/' :: f)).head? = some '/' := by
      cases d1 with
      | nil => exact absurd rfl hne
      | cons c cs =>
        have := h1.2.1
        simp only [List.mem_cons, not_or] at this
        simp only [List.cons_append, List.head?_cons, Option.some.injEq]
        exact fun h => this.1 h.symm
    simp only [pathJoin, if_true, if_neg hne, intercalate_three, pathClean, if_neg hp,
      splitOn_three d1 d2 f h1.2.1 h2.2.1 h3.2.1, foldl_cleanStep_three _ _ d1 d2 f h1 h2 h3,
      hroot, decide_False, List.nil_append]
    simp [hp]
  · let rooted : Bool := decide (w.head? = some '/')
    let st0 := (w.splitOn '/').foldl (cleanStep rooted) ([], 0)
    refine ⟨(if rooted then ['/'] else []) ++ st0.1.flatMap (fun e => e ++ ['/']),
      fun d1 d2 f h1 h2 h3 => ?_⟩
    have hp : w ++ '/' :: (d1 ++ '/' :: (d2 ++ '/' :: f)) ≠ [] := by simp
    have hhead : (w ++ '/' :: (d1 ++ '/' :: (d2 ++ '/' :: f))).head? = w.head? := by
      cases w with
      | nil => exact absurd rfl hw
      | cons c cs => rfl
    have hjoin : ['/'].intercalate [w, d1, d2, f] = w ++ '/' :: (d1 ++ '/' :: (d2 ++ '/' :: f)) := by
      simp [List.intercalate, List.intersperse]
    have hsplit : (w ++ '/' :: (d1 ++ '/' :: (d2 ++ '/' :: f))).splitOn '/' =
        w.splitOn '/' ++ [d1, d2, f] := by
      rw [splitOn_append_sep, splitOn_three d1 d2 f h1.2.1 h2.2.1 h3.2.1]
    have hfold : (((w.splitOn '/' ++ [d1, d2, f]).foldl (cleanStep rooted) ([], 0))).1 =
        st0.1 ++ [d1, d2, f] := by
      rw [List.foldl_append]
      exact foldl_cleanStep_three rooted st0 d1 d2 f h1 h2 h3
    have hbody : ['/'].intercalate (st0.1 ++ [d1, d2, f]) =
        (st0.1.flatMap fun e => e ++ ['/']) ++ (d1 ++ '/' :: (d2 ++ '/' :: f)) := by
      rw [intercalate_append_of_ne_nil _ _ _ (by simp), intercalate_three]
    have hbne : (st0.1.flatMap fun e => e ++ ['/']) ++ (d1 ++ '/' :: (d2 ++ '/' :: f)) ≠ [] := by
      simp
    show pathJoin [w, d1, d2, f] = _
    rw [pathJoin, if_neg hw, hjoin, pathClean, if_neg hp]
    simp only [hhead, hsplit]
    show (if rooted = true then '/' :: ['/'].intercalate
        (((w.splitOn '/' ++ [d1, d2, f]).foldl (cleanStep rooted) ([], 0))).1 else _) = _
    rw [hfold, hbody]
    cases hr : rooted with
    | true => simp
    | false => simp


/-! ### Chunk paths -/

theorem andInt32_lowBits (x : Int) : wrapInt32 (andInt32 x 63) = x % 64 := by
  have h63 : toUint32 63 = 2 ^ 6 - 1 := by decide
  have hand : toUint32 x &&& toUint32 63 = toUint32 x % 64 := by
    rw [h63, Nat.and_pow_two_sub_one_eq_mod]
  unfold andInt32
  rw [hand]
  unfold toUint32 wrapInt32
  simp only [Int.ofNat_eq_coe]
  omega

theorem isBase36Digit_ne_special (c : Char) (h : isBase36Digit c) :
    c ≠ '-' ∧ c ≠ '.' ∧ c ≠ '/' := by
  refine ⟨?_, ?_, ?_⟩ <;>
  · intro heq
    subst heq
    revert h
    decide

theorem base36Digits_length_le_two (m : Nat) (hm : m < 1296) : (base36Digits m).length ≤ 2 := by
  rcases Nat.eq_zero_or_pos m with h0 | hpos
  · subst h0
    simp [base36Digits_zero]
  · rw [base36Digits_step m hpos]
    rcases Nat.eq_zero_or_pos (m / 36) with hq | hq
    · rw [hq, base36Digits_zero]
      simp
    · rw [base36Digits_step (m / 36) hq]
      have : m / 36 / 36 = 0 := by omega
      rw [this, base36Digits_zero]
      simp

/-- What `base36Encode` returns on an `int32` value above the minimum: a non-empty string of
`-` and digits that decodes to the value. -/
theorem base36Encode_name (n : Int) (hlo : -2147483648 < n) (hhi : n ≤ 2147483647) :
    ∃ s, base36Encode n = .ok s ∧ base36Decode s = some n ∧ s ≠ [] ∧ '/' ∉ s ∧ '.' ∉ s := by
  obtain ⟨s, hs, hdec, hne, ds, hform, -, hdig, -⟩ := base36Encode_decodes n hlo hhi
  refine ⟨s, hs, hdec, hne, ?_, ?_⟩
  · intro hmem
    rcases hform with rfl | rfl
    · exact (isBase36Digit_ne_special _ (hdig _ hmem)).2.2 rfl
    · simp only [List.mem_cons] at hmem
      rcases hmem with h | h
      · exact absurd h (by decide)
      · exact (isBase36Digit_ne_special _ (hdig _ h)).2.2 rfl
  · intro hmem
    rcases hform with rfl | rfl
    · exact (isBase36Digit_ne_special _ (hdig _ hmem)).2.1 rfl
    · simp only [List.mem_cons] at hmem
      rcases hmem with h | h
      · exact absurd h (by decide)
      · exact (isBase36Digit_ne_special _ (hdig _ h)).2.1 rfl

/-- The directory component for a coordinate: `base36Encode(v & 63)` returns the digits of
the remainder `v mod 64`, one or two digits without a sign. -/
theorem dirComponent (v : Int) :
    ∃ d, base36Encode (wrapInt32 (andInt32 v 63)) = .ok d ∧
      base36Decode d = some (v % 64) ∧ 0 ≤ v % 64 ∧ v % 64 ≤ 63 ∧
      d.length ≤ 2 ∧ '-' ∉ d ∧ plainElem d := by
  rw [andInt32_lowBits]
  have h0 : 0 ≤ v % 64 := by omega
  have h1 : v % 64 ≤ 63 := by omega
  rcases eq_or_lt_of_le h0 with hz | hpos
  · rw [← hz]
    exact ⟨['0'], base36Encode_zero, by decide, le_refl _, by decide, by decide, by decide,
      by decide⟩
  · have hm : 0 < (v % 64).toNat := by omega
    have hdigit : ∀ c ∈ base36Digits (v % 64).toNat, isBase36Digit c :=
      base36Digits_isBase36Digit _
    refine ⟨_, base36Encode_pos _ hpos (by omega), ?_, h0, h1,
      base36Digits_length_le_two _ (by omega), ?_, base36Digits_ne_nil _ hm, ?_, ?_, ?_⟩
    · rw [base36Decode_digits _ hm]
      congr 1
      omega
    · exact fun h => (isBase36Digit_ne_special _ (hdigit _ h)).1 rfl
    · exact fun h => (isBase36Digit_ne_special _ (hdigit _ h)).2.2 rfl
    · intro h
      have := hdigit '.' (by rw [h]; simp)
      exact (isBase36Digit_ne_special _ this).2.1 rfl
    · intro h
      have := hdigit '.' (by rw [h]; simp)
      exact (isBase36Digit_ne_special _ this).2.1 rfl

theorem fileName_plain (nx nz : List Char) (hx : '/' ∉ nx) (hz : '/' ∉ nz) :
    plainElem ("c.".toList ++ nx ++ ".".toList ++ nz ++ ".dat".toList) := by
  refine ⟨by simp, ?_, by simp, by simp⟩
  simp only [List.mem_append, not_or]
  exact ⟨⟨⟨⟨by decide, hx⟩, by decide⟩, hz⟩, by decide⟩



theorem fileName_inj (nx nz mx mz : List Char) (hnx : '.' ∉ nx) (hnz : '.' ∉ nz)
    (hmx : '.' ∉ mx) (hmz : '.' ∉ mz)
    (h : "c.".toList ++ nx ++ ".".toList ++ nz ++ ".dat".toList =
      "c.".toList ++ mx ++ ".".toList ++ mz ++ ".dat".toList) : nx = mx ∧ nz = mz := by
  have hform : ∀ a b : List Char, "c.".toList ++ a ++ ".".toList ++ b ++ ".dat".toList =
      ['.'].intercalate [['c'], a, b, "dat".toList] := by
    intro a b
    simp [List.intercalate, List.intersperse]
  have hsplit : ∀ a b : List Char, '.' ∉ a → '.' ∉ b →
      (['.'].intercalate [['c'], a, b, "dat".toList]).splitOn '.' =
        [['c'], a, b, "dat".toList] := by
    intro a b ha hb
    apply List.splitOn_intercalate
    · intro l hl
      simp only [List.mem_cons, List.mem_singleton, List.not_mem_nil, or_false] at hl
      rcases hl with rfl | rfl | rfl | rfl
      · decide
      · exact ha
      · exact hb
      · decide
    · simp
  rw [hform, hform] at h
  have h2 := congrArg (List.splitOn '.') h
  rw [hsplit nx nz hnx hnz, hsplit mx mz hmx hmz] at h2
  simp only [List.cons.injEq, and_true, true_and] at h2
  exact ⟨h2.1, h2.2⟩

/-- On coordinates above the minimum `int32` value, `chunkPath` returns the world path joined
with the encodings of `x & 63` and `z & 63` and the file name `c.<x>.<z>.dat`; the two
directory components encode the remainders `x mod 64` and `z mod 64`, carry no minus sign and
have at most two characters. -/
theorem chunkPath_layout (mgr : ChunkManager) (loc : ChunkXZ)
    (hx0 : -2147483648 < loc.x) (hx1 : loc.x ≤ 2147483647)
    (hz0 : -2147483648 < loc.z) (hz1 : loc.z ≤ 2147483647) :
    ∃ dx dz nx nz : List Char,
      base36Encode (wrapInt32 (andInt32 loc.x 63)) = .ok dx ∧
      base36Encode (wrapInt32 (andInt32 loc.z 63)) = .ok dz ∧
      base36Encode (wrapInt32 loc.x) = .ok nx ∧
      base36Encode (wrapInt32 loc.z) = .ok nz ∧
      mgr.chunkPath loc = .ok (pathJoin [mgr.worldPath, dx, dz,
        "c.".toList ++ nx ++ ".".toList ++ nz ++ ".dat".toList]) ∧
      (base36Decode dx = some (loc.x % 64) ∧ 0 ≤ loc.x % 64 ∧ loc.x % 64 ≤ 63 ∧
        dx.length ≤ 2 ∧ '-' ∉ dx ∧ plainElem dx) ∧
      (base36Decode dz = some (loc.z % 64) ∧ 0 ≤ loc.z % 64 ∧ loc.z % 64 ≤ 63 ∧
        dz.length ≤ 2 ∧ '-' ∉ dz ∧ plainElem dz) ∧
      (base36Decode nx = some loc.x ∧ '/' ∉ nx ∧ '.' ∉ nx) ∧
      (base36Decode nz = some loc.z ∧ '/' ∉ nz ∧ '.' ∉ nz) := by
  obtain ⟨dx, hdx, pdx⟩ := dirComponent loc.x
  obtain ⟨dz, hdz, pdz⟩ := dirComponent loc.z
  have wx : wrapInt32 loc.x = loc.x := wrapInt32_of_isInt32 ⟨by omega, hx1⟩
  have wz : wrapInt32 loc.z = loc.z := wrapInt32_of_isInt32 ⟨by omega, hz1⟩
  obtain ⟨nx, hnx, hdecx, -, hsx, hpx⟩ := base36Encode_name loc.x hx0 hx1
  obtain ⟨nz, hnz, hdecz, -, hsz, hpz⟩ := base36Encode_name loc.z hz0 hz1
  rw [← wx] at hnx
  rw [← wz] at hnz
  have hpath : mgr.chunkPath loc = .ok (pathJoin [mgr.worldPath, dx, dz,
        "c.".toList ++ nx ++ ".".toList ++ nz ++ ".dat".toList]) := by
    unfold ChunkManager.chunkPath
    rw [hdx, hdz, hnx, hnz]
    rfl
  exact ⟨dx, dz, nx, nz, hdx, hdz, hnx, hnz, hpath, pdx, pdz,
    ⟨hdecx, hsx, hpx⟩, ⟨hdecz, hsz, hpz⟩⟩

theorem chunkPath_inj (mgr : ChunkManager) (a b : ChunkXZ)
    (hax0 : -2147483648 < a.x) (hax1 : a.x ≤ 2147483647)
    (haz0 : -2147483648 < a.z) (haz1 : a.z ≤ 2147483647)
    (hbx0 : -2147483648 < b.x) (hbx1 : b.x ≤ 2147483647)
    (hbz0 : -2147483648 < b.z) (hbz1 : b.z ≤ 2147483647)
    (h : mgr.chunkPath a = mgr.chunkPath b) : a = b := by
  obtain ⟨dx, dz, nx, nz, -, -, -, -, hpa, pdx, pdz, pnx, pnz⟩ :=
    chunkPath_layout mgr a hax0 hax1 haz0 haz1
  obtain ⟨ex, ez, mx, mz, -, -, -, -, hpb, pex, pez, pmx, pmz⟩ :=
    chunkPath_layout mgr b hbx0 hbx1 hbz0 hbz1
  obtain ⟨P, hP⟩ := pathJoin_plain mgr.worldPath
  have hfa := fileName_plain nx nz pnx.2.1 pnz.2.1
  have hfb := fileName_plain mx mz pmx.2.1 pmz.2.1
  rw [hpa, hpb, hP _ _ _ pdx.2.2.2.2.2 pdz.2.2.2.2.2 hfa,
    hP _ _ _ pex.2.2.2.2.2 pez.2.2.2.2.2 hfb] at h
  have h1 := List.append_cancel_left (Go.ok.inj h)
  have h2 := congrArg (List.splitOn '/') h1
  rw [splitOn_three _ _ _ pdx.2.2.2.2.2.2.1 pdz.2.2.2.2.2.2.1 hfa.2.1,
    splitOn_three _ _ _ pex.2.2.2.2.2.2.1 pez.2.2.2.2.2.2.1 hfb.2.1] at h2
  simp only [List.cons.injEq, and_true] at h2
  obtain ⟨hnx, hnz⟩ := fileName_inj nx nz mx mz pnx.2.2 pnz.2.2 pmx.2.2 pmz.2.2 h2.2.2
  have hx : a.x = b.x := by
    have := pnx.1
    rw [hnx, pmx.1] at this
    exact (Option.some.inj this).symm
  have hz : a.z = b.z := by
    have := pnz.1
    rw [hnz, pmz.1] at this
    exact (Option.some.inj this).symm
  cases a; cases b
  simp_all

/-- C5: for a fixed world path, `chunkPath` returns a path for every chunk coordinate with
`x` and `z` in `[-10000, 10000]`, and different coordinates in that range get different
paths. -/
theorem chunkPath_injective (mgr : ChunkManager) (a b : ChunkXZ)
    (hax : -10000 ≤ a.x ∧ a.x ≤ 10000) (haz : -10000 ≤ a.z ∧ a.z ≤ 10000)
    (hbx : -10000 ≤ b.x ∧ b.x ≤ 10000) (hbz : -10000 ≤ b.z ∧ b.z ≤ 10000)
    (hne : a ≠ b) :
    (∃ pa pb, mgr.chunkPath a = .ok pa ∧ mgr.chunkPath b = .ok pb ∧ pa ≠ pb) ∧
    mgr.chunkPath a ≠ mgr.chunkPath b := by
  have hinj : mgr.chunkPath a ≠ mgr.chunkPath b := fun h =>
    hne (chunkPath_inj mgr a b (by omega) (by omega) (by omega) (by omega) (by omega) (by omega)
      (by omega) (by omega) h)
  obtain ⟨_, _, _, _, -, -, -, -, hpa, -⟩ :=
    chunkPath_layout mgr a (by omega) (by omega) (by omega) (by omega)
  obtain ⟨_, _, _, _, -, -, -, -, hpb, -⟩ :=
    chunkPath_layout mgr b (by omega) (by omega) (by omega) (by omega)
  refine ⟨⟨_, _, hpa, hpb, ?_⟩, hinj⟩
  intro heq
  apply hinj
  rw [hpa, hpb, heq]

theorem chunkPath_injective_witness :
    (∃ pa pb,
      ChunkManager.chunkPath { worldPath := "world".toList, chunks := [] }
        { x := -10000, z := 36 } = .ok pa ∧
      ChunkManager.chunkPath { worldPath := "world".toList, chunks := [] }
        { x := 10000, z := 1 } = .ok pb ∧ pa ≠ pb) ∧
    ChunkManager.chunkPath { worldPath := "world".toList, chunks := [] }
        { x := -10000, z := 36 } ≠
      ChunkManager.chunkPath { worldPath := "world".toList, chunks := [] }
        { x := 10000, z := 1 } :=
  chunkPath_injective { worldPath := "world".toList, chunks := [] } { x := -10000, z := 36 }
    { x := 10000, z := 1 } (by decide) (by decide) (by decide) (by decide) (by decide)

/-- C9 (the code departs from the claim): for a chunk coordinate whose `x` is the minimum
`int32` value, `chunkPath` returns no path: the directory components are computed, then
`base36Encode(int32(loc.x))` panics. -/
theorem chunkPath_minInt32_panics (mgr : ChunkManager) (z : Int) :
    mgr.chunkPath { x := -2147483648, z := z } = .panic := by
  obtain ⟨dx, hdx, -⟩ := dirComponent (-2147483648)
  obtain ⟨dz, hdz, -⟩ := dirComponent z
  have hmin : base36Encode (wrapInt32 (-2147483648)) = .panic := by decide
  unfold ChunkManager.chunkPath
  rw [hdx, hdz, hmin]
  rfl


/-! ### Iterating over the square around a chunk -/

theorem squareCoords_eq (cx cz r : Int) :
    squareCoords cx cz r =
      (List.range' 0 (2 * r + 1).toNat).flatMap (fun (b : Nat) => (List.range' 0 (2 * r + 1).toNat).map
        (fun (a : Nat) => ({ x := cx - r + (a : Int), z := cz - r + (b : Int) } : ChunkXZ))) := by
  unfold squareCoords
  rw [List.range_eq_range']

theorem squareCoords_length (cx cz r : Int) (hr : 0 ≤ r) :
    ((squareCoords cx cz r).length : Int) = (2 * r + 1) ^ 2 := by
  unfold squareCoords
  rw [List.length_flatMap]
  simp only [Function.comp_def, List.length_map, List.length_range, List.map_const',
    List.sum_replicate, smul_eq_mul]
  push_cast
  rw [Int.toNat_of_nonneg (by omega)]
  ring

theorem mem_squareCoords (cx cz r : Int) (c : ChunkXZ) :
    c ∈ squareCoords cx cz r ↔
      cx - r ≤ c.x ∧ c.x ≤ cx + r ∧ cz - r ≤ c.z ∧ c.z ≤ cz + r := by
  unfold squareCoords
  simp only [List.mem_flatMap, List.mem_range, List.mem_map]
  constructor
  · rintro ⟨j, hj, i, hi, rfl⟩
    dsimp only
    omega
  · rintro ⟨h1, h2, h3, h4⟩
    refine ⟨(c.z - (cz - r)).toNat, by omega, (c.x - (cx - r)).toNat, by omega, ?_⟩
    cases c with
    | mk x z =>
      simp only [ChunkXZ.mk.injEq] at *
      omega

theorem squareCoords_pairwise (cx cz r : Int) :
    (squareCoords cx cz r).Pairwise rowMajorLt := by
  unfold squareCoords
  rw [List.pairwise_flatMap]
  constructor
  · intro j _
    rw [List.pairwise_map]
    refine (List.pairwise_lt_range _).imp ?_
    intro a b hab
    right
    exact ⟨rfl, by dsimp only; omega⟩
  · refine (List.pairwise_lt_range _).imp ?_
    intro a b hab p hp q hq
    simp only [List.mem_map, List.mem_range] at hp hq
    obtain ⟨_, _, rfl⟩ := hp
    obtain ⟨_, _, rfl⟩ := hq
    left
    dsimp only
    omega

theorem rowMajorLt_irrefl (a : ChunkXZ) : ¬ rowMajorLt a a := by
  unfold rowMajorLt
  omega

theorem squareCoords_nodup (cx cz r : Int) : (squareCoords cx cz r).Nodup := by
  have h := squareCoords_pairwise cx cz r
  unfold List.Nodup
  refine h.imp ?_
  intro a b hab heq
  subst heq
  exact rowMajorLt_irrefl a hab

theorem wrapInt32_le_max (n : Int) : wrapInt32 n ≤ 2147483647 := by
  unfold wrapInt32
  omega

theorem run_inner_not_closed {σ γ : Type} (k : Consts) (get : ChunkXZ → σ → Option (γ × σ))
    (loc : ChunkXZ) (hmax : wrapInt32 (loc.x + k.ChunkRadius) = 2147483647) :
    ∀ (fuel : Nat) (z x : Int) (st : IterState σ γ), x ≤ 2147483647 →
      (ChunksInRadius.run k get loc fuel (.inner z x) st).isClosed = false := by
  intro fuel
  induction fuel with
  | zero =>
    intro z x st _
    rfl
  | succ fuel ih =>
    intro z x st hx
    rw [ChunksInRadius.run, hmax, if_pos hx]
    cases hg : get { x := x, z := z } st.mgr with
    | none => rfl
    | some p => exact ih _ _ _ (wrapInt32_le_max _)

/-- When `loc.x + ChunkRadius` is the maximum `int32` value the inner loop condition
`x <= loc.x+ChunkRadius` is always true: once the outer loop is entered the channel is never
closed, whatever the budget. -/
theorem chunksInRadius_not_closed {σ γ : Type} (k : Consts)
    (get : ChunkXZ → σ → Option (γ × σ)) (mgr : σ) (loc : ChunkXZ)
    (hmax : wrapInt32 (loc.x + k.ChunkRadius) = 2147483647)
    (hz : wrapInt32 (loc.z - k.ChunkRadius) ≤ wrapInt32 (loc.z + k.ChunkRadius)) (fuel : Nat) :
    (ChunksInRadius k get fuel mgr loc).isClosed = false := by
  unfold ChunksInRadius
  cases fuel with
  | zero => rfl
  | succ fuel =>
    rw [ChunksInRadius.run, if_pos hz]
    exact run_inner_not_closed k get loc hmax fuel _ _ _ (wrapInt32_le_max _)

/-! ### `ChunksInRadius` with its channel -/

theorem runChan_inner_row {σ γ : Type} (k : Consts) (get : ChunkXZ → σ → Option (γ × σ))
    (recv : Nat → Bool) (loc : ChunkXZ) (n : Nat) (z : Int)
    (hlo : -2147483648 ≤ loc.x - k.ChunkRadius) (hhi : loc.x + k.ChunkRadius < 2147483647)
    (hn : (n : Int) = 2 * k.ChunkRadius + 1) :
    ∀ (m i : Nat), i + m = n → ∀ (st : IterState σ γ),
      (∀ fuel : Nat, (ChunksInRadius.runChan k get recv loc fuel
        (.inner z (loc.x - k.ChunkRadius + (i : Int))) st).isGetFailed = false) →
      (∀ fuel : Nat, (ChunksInRadius.runChan k get recv loc fuel
        (.inner z (loc.x - k.ChunkRadius + (i : Int))) st).isSendBlocked = false) →
      ∃ st2 : IterState σ γ,
        (∀ fuel : Nat, ChunksInRadius.runChan k get recv loc (fuel + m + 1)
            (.inner z (loc.x - k.ChunkRadius + (i : Int))) st =
          ChunksInRadius.runChan k get recv loc fuel (.outer (wrapInt32 (z + 1))) st2) ∧
        st2.calls = st.calls ++ (List.range' i m).map
          (fun (a : Nat) => ({ x := loc.x - k.ChunkRadius + (a : Int), z := z } : ChunkXZ)) ∧
        st2.sent.length = st.sent.length + m := by
  have whi : wrapInt32 (loc.x + k.ChunkRadius) = loc.x + k.ChunkRadius :=
    wrapInt32_of_isInt32 ⟨by omega, by omega⟩
  intro m
  induction m with
  | zero =>
    intro i hi st _ _
    refine ⟨st, fun fuel => ?_, by simp, by simp⟩
    have hgt : ¬ loc.x - k.ChunkRadius + (i : Int) ≤ loc.x + k.ChunkRadius := by omega
    show ChunksInRadius.runChan k get recv loc (fuel + 1) _ st = _
    rw [ChunksInRadius.runChan, whi, if_neg hgt]
  | succ m ih =>
    intro i hi st hret hblk
    have hle : loc.x - k.ChunkRadius + (i : Int) ≤ loc.x + k.ChunkRadius := by omega
    have hnext : wrapInt32 (loc.x - k.ChunkRadius + (i : Int) + 1) =
        loc.x - k.ChunkRadius + ((i + 1 : Nat) : Int) := by
      rw [wrapInt32_of_isInt32 ⟨by omega, by omega⟩]
      push_cast
      ring
    cases hg : get { x := loc.x - k.ChunkRadius + (i : Int), z := z } st.mgr with
    | none =>
      have h1 := hret 1
      rw [ChunksInRadius.runChan, whi, if_pos hle, hg] at h1
      cases h1
    | some p =>
      obtain ⟨chunk, mgr2⟩ := p
      cases hr : recv st.sent.length with
      | false =>
        have h1 := hblk 1
        rw [ChunksInRadius.runChan, whi, if_pos hle, hg] at h1
        simp only [hr] at h1
        cases h1
      | true =>
        have hstep : ∀ fuel : Nat, ChunksInRadius.runChan k get recv loc (fuel + 1)
            (.inner z (loc.x - k.ChunkRadius + (i : Int))) st =
          ChunksInRadius.runChan k get recv loc fuel
            (.inner z (loc.x - k.ChunkRadius + ((i + 1 : Nat) : Int)))
            { mgr := mgr2,
              calls := st.calls ++ [{ x := loc.x - k.ChunkRadius + (i : Int), z := z }],
              sent := st.sent ++ [chunk] } := by
          intro fuel
          rw [ChunksInRadius.runChan, whi, if_pos hle, hg]
          simp only [hr, hnext, if_true]
        obtain ⟨st2, hrun, hcalls, hsent⟩ := ih (i + 1) (by omega)
          { mgr := mgr2,
            calls := st.calls ++ [{ x := loc.x - k.ChunkRadius + (i : Int), z := z }],
            sent := st.sent ++ [chunk] }
          (fun fuel => by rw [← hstep]; exact hret (fuel + 1))
          (fun fuel => by rw [← hstep]; exact hblk (fuel + 1))
        refine ⟨st2, fun fuel => ?_, ?_, ?_⟩
        · have hfuel : fuel + (m + 1) + 1 = (fuel + m + 1) + 1 := by omega
          rw [hfuel, hstep]
          exact hrun fuel
        · rw [hcalls, List.range'_succ]
          simp
        · rw [hsent]
          simp
          omega

theorem runChan_outer_rows {σ γ : Type} (k : Consts) (get : ChunkXZ → σ → Option (γ × σ))
    (recv : Nat → Bool) (loc : ChunkXZ) (n : Nat)
    (hxlo : -2147483648 ≤ loc.x - k.ChunkRadius) (hxhi : loc.x + k.ChunkRadius < 2147483647)
    (hzlo : -2147483648 ≤ loc.z - k.ChunkRadius) (hzhi : loc.z + k.ChunkRadius < 2147483647)
    (hn : (n : Int) = 2 * k.ChunkRadius + 1) :
    ∀ (m j : Nat), j + m = n → ∀ (st : IterState σ γ),
      (∀ fuel : Nat, (ChunksInRadius.runChan k get recv loc fuel
        (.outer (loc.z - k.ChunkRadius + (j : Int))) st).isGetFailed = false) →
      (∀ fuel : Nat, (ChunksInRadius.runChan k get recv loc fuel
        (.outer (loc.z - k.ChunkRadius + (j : Int))) st).isSendBlocked = false) →
      ∃ st2 : IterState σ γ,
        (∀ fuel : Nat, ChunksInRadius.runChan k get recv loc (fuel + m * (n + 2) + 1)
            (.outer (loc.z - k.ChunkRadius + (j : Int))) st = .closed st2) ∧
        st2.calls = st.calls ++ (List.range' j m).flatMap (fun (b : Nat) => (List.range' 0 n).map
          (fun (a : Nat) =>
            ({ x := loc.x - k.ChunkRadius + (a : Int),
               z := loc.z - k.ChunkRadius + (b : Int) } : ChunkXZ))) ∧
        st2.sent.length = st.sent.length + m * n := by
  have whi : wrapInt32 (loc.z + k.ChunkRadius) = loc.z + k.ChunkRadius :=
    wrapInt32_of_isInt32 ⟨by omega, by omega⟩
  have wlo : wrapInt32 (loc.x - k.ChunkRadius) = loc.x - k.ChunkRadius + ((0 : Nat) : Int) := by
    rw [wrapInt32_of_isInt32 ⟨by omega, by omega⟩]
    simp
  intro m
  induction m with
  | zero =>
    intro j hj st _ _
    refine ⟨st, fun fuel => ?_, by simp, by simp⟩
    have hgt : ¬ loc.z - k.ChunkRadius + (j : Int) ≤ loc.z + k.ChunkRadius := by omega
    show ChunksInRadius.runChan k get recv loc (fuel + 0 * (n + 2) + 1) _ st = _
    rw [Nat.zero_mul, Nat.add_zero, ChunksInRadius.runChan, whi, if_neg hgt]
  | succ m ih =>
    intro j hj st hret hblk
    have hle : loc.z - k.ChunkRadius + (j : Int) ≤ loc.z + k.ChunkRadius := by omega
    have hnext : wrapInt32 (loc.z - k.ChunkRadius + (j : Int) + 1) =
        loc.z - k.ChunkRadius + ((j + 1 : Nat) : Int) := by
      rw [wrapInt32_of_isInt32 ⟨by omega, by omega⟩]
      push_cast
      ring
    have hstep : ∀ fuel : Nat, ChunksInRadius.runChan k get recv loc (fuel + 1)
        (.outer (loc.z - k.ChunkRadius + (j : Int))) st =
      ChunksInRadius.runChan k get recv loc fuel
        (.inner (loc.z - k.ChunkRadius + (j : Int))
          (loc.x - k.ChunkRadius + ((0 : Nat) : Int))) st := by
      intro fuel
      rw [ChunksInRadius.runChan, whi, if_pos hle, wlo]
    obtain ⟨st1, hrow, hcalls1, hsent1⟩ := runChan_inner_row k get recv loc n
      (loc.z - k.ChunkRadius + (j : Int)) hxlo hxhi hn n 0 (by omega) st
      (fun fuel => by rw [← hstep]; exact hret (fuel + 1))
      (fun fuel => by rw [← hstep]; exact hblk (fuel + 1))
    rw [hnext] at hrow
    have hrows : ∀ fuel : Nat, ChunksInRadius.runChan k get recv loc (fuel + n + 1 + 1)
        (.outer (loc.z - k.ChunkRadius + (j : Int))) st =
      ChunksInRadius.runChan k get recv loc fuel
        (.outer (loc.z - k.ChunkRadius + ((j + 1 : Nat) : Int))) st1 := by
      intro fuel
      rw [hstep, hrow]
    obtain ⟨st2, hrest, hcalls2, hsent2⟩ := ih (j + 1) (by omega) st1
      (fun fuel => by rw [← hrows]; exact hret (fuel + n + 1 + 1))
      (fun fuel => by rw [← hrows]; exact hblk (fuel + n + 1 + 1))
    refine ⟨st2, fun fuel => ?_, ?_, ?_⟩
    · have hfuel : fuel + (m + 1) * (n + 2) + 1 = (fuel + m * (n + 2) + 1) + n + 1 + 1 := by
        ring
      rw [hfuel, hrows]
      exact hrest fuel
    · rw [hcalls2, hcalls1, List.range'_succ]
      simp
    · rw [hsent2, hsent1]
      ring

theorem runChan_stable {σ γ : Type} (k : Consts) (get : ChunkXZ → σ → Option (γ × σ))
    (recv : Nat → Bool) (loc : ChunkXZ) (n : Nat) :
    ∀ (fuel : Nat) (pt : LoopPoint) (st : IterState σ γ),
      (ChunksInRadius.runChan k get recv loc fuel pt st).isRunning = false →
      ChunksInRadius.runChan k get recv loc (fuel + n) pt st =
        ChunksInRadius.runChan k get recv loc fuel pt st := by
  intro fuel
  induction fuel with
  | zero =>
    intro pt st h
    cases pt <;> cases h
  | succ fuel ih =>
    intro pt st h
    have hf : fuel + 1 + n = (fuel + n) + 1 := by omega
    rw [hf]
    cases pt with
    | outer z =>
      rw [ChunksInRadius.runChan] at h
      rw [ChunksInRadius.runChan, ChunksInRadius.runChan]
      by_cases hz : z ≤ wrapInt32 (loc.z + k.ChunkRadius)
      · rw [if_pos hz] at h
        rw [if_pos hz, if_pos hz]
        exact ih _ _ h
      · rw [if_neg hz, if_neg hz]
    | inner z x =>
      rw [ChunksInRadius.runChan] at h
      rw [ChunksInRadius.runChan, ChunksInRadius.runChan]
      by_cases hx : x ≤ wrapInt32 (loc.x + k.ChunkRadius)
      · rw [if_pos hx] at h
        rw [if_pos hx, if_pos hx]
        cases hg : get { x := x, z := z } st.mgr with
        | none => rfl
        | some p =>
          obtain ⟨chunk, mgr2⟩ := p
          rw [hg] at h
          cases hr : recv st.sent.length with
          | false => simp only [hr, Bool.false_eq_true, if_false]
          | true =>
            simp only [hr, if_true] at h ⊢
            exact ih _ _ h
      · rw [if_neg hx] at h
        rw [if_neg hx, if_neg hx]
        exact ih _ _ h

theorem withReceiver_of_closed {σ γ : Type} (k : Consts)
    (get : ChunkXZ → σ → Option (γ × σ)) (recv : Nat → Bool) (mgr : σ) (loc : ChunkXZ)
    (N : Nat) (hclosed : (ChunksInRadius.withReceiver k get recv N mgr loc).isClosed = true)
    (fuel : Nat) :
    (ChunksInRadius.withReceiver k get recv fuel mgr loc).isGetFailed = false ∧
    (ChunksInRadius.withReceiver k get recv fuel mgr loc).isSendBlocked = false := by
  unfold ChunksInRadius.withReceiver at hclosed ⊢
  rcases Nat.le_total fuel N with hle | hle
  · obtain ⟨d, rfl⟩ := Nat.exists_eq_add_of_le hle
    cases hres : ChunksInRadius.runChan k get recv loc fuel
        (.outer (wrapInt32 (loc.z - k.ChunkRadius))) { mgr := mgr, calls := [], sent := [] } with
    | closed st => exact ⟨rfl, rfl⟩
    | running st => exact ⟨rfl, rfl⟩
    | getFailed st =>
      rw [runChan_stable k get recv loc d fuel _ _ (by rw [hres]; rfl), hres] at hclosed
      cases hclosed
    | sendBlocked st =>
      rw [runChan_stable k get recv loc d fuel _ _ (by rw [hres]; rfl), hres] at hclosed
      cases hclosed
  · obtain ⟨d, rfl⟩ := Nat.exists_eq_add_of_le hle
    have hrun : (ChunksInRadius.runChan k get recv loc N
        (.outer (wrapInt32 (loc.z - k.ChunkRadius)))
        { mgr := mgr, calls := [], sent := [] }).isRunning = false := by
      cases hres : ChunksInRadius.runChan k get recv loc N
          (.outer (wrapInt32 (loc.z - k.ChunkRadius)))
          { mgr := mgr, calls := [], sent := [] } with
      | closed st => rfl
      | running st => rw [hres] at hclosed; cases hclosed
      | getFailed st => rfl
      | sendBlocked st => rfl
    rw [runChan_stable k get recv loc d N _ _ hrun]
    cases hres : ChunksInRadius.runChan k get recv loc N
        (.outer (wrapInt32 (loc.z - k.ChunkRadius)))
        { mgr := mgr, calls := [], sent := [] } with
    | closed st => exact ⟨rfl, rfl⟩
    | running st => exact ⟨rfl, rfl⟩
    | getFailed st => rw [hres] at hclosed; cases hclosed
    | sendBlocked st => rw [hres] at hclosed; cases hclosed

theorem runChan_recvAll {σ γ : Type} (k : Consts) (get : ChunkXZ → σ → Option (γ × σ))
    (loc : ChunkXZ) :
    ∀ (fuel : Nat) (pt : LoopPoint) (st : IterState σ γ),
      ChunksInRadius.runChan k get recvAll loc fuel pt st =
        ChanResult.ofIter (ChunksInRadius.run k get loc fuel pt st) := by
  intro fuel
  induction fuel with
  | zero =>
    intro pt st
    cases pt <;> rfl
  | succ fuel ih =>
    intro pt st
    cases pt with
    | outer z =>
      rw [ChunksInRadius.runChan, ChunksInRadius.run]
      by_cases hz : z ≤ wrapInt32 (loc.z + k.ChunkRadius)
      · rw [if_pos hz, if_pos hz]
        exact ih _ _
      · rw [if_neg hz, if_neg hz]
        rfl
    | inner z x =>
      rw [ChunksInRadius.runChan, ChunksInRadius.run]
      by_cases hx : x ≤ wrapInt32 (loc.x + k.ChunkRadius)
      · rw [if_pos hx, if_pos hx]
        cases hg : get { x := x, z := z } st.mgr with
        | none => rfl
        | some p =>
          obtain ⟨chunk, mgr2⟩ := p
          simp only [recvAll, if_true]
          exact ih _ _
      · rw [if_neg hx, if_neg hx]
        exact ih _ _

theorem withReceiver_recvAll {σ γ : Type} (k : Consts) (get : ChunkXZ → σ → Option (γ × σ))
    (fuel : Nat) (mgr : σ) (loc : ChunkXZ) :
    ChunksInRadius.withReceiver k get recvAll fuel mgr loc =
      ChanResult.ofIter (ChunksInRadius k get fuel mgr loc) :=
  runChan_recvAll k get loc fuel _ _

theorem runChan_inner_not_closed {σ γ : Type} (k : Consts)
    (get : ChunkXZ → σ → Option (γ × σ)) (recv : Nat → Bool) (loc : ChunkXZ)
    (hmax : wrapInt32 (loc.x + k.ChunkRadius) = 2147483647) :
    ∀ (fuel : Nat) (z x : Int) (st : IterState σ γ), x ≤ 2147483647 →
      (ChunksInRadius.runChan k get recv loc fuel (.inner z x) st).isClosed = false := by
  intro fuel
  induction fuel with
  | zero =>
    intro z x st _
    rfl
  | succ fuel ih =>
    intro z x st hx
    rw [ChunksInRadius.runChan, hmax, if_pos hx]
    cases hg : get { x := x, z := z } st.mgr with
    | none => rfl
    | some p =>
      obtain ⟨chunk, mgr2⟩ := p
      cases hr : recv st.sent.length with
      | false => simp only [hr]; rfl
      | true =>
        simp only [hr, if_true]
        exact ih _ _ _ (wrapInt32_le_max _)

theorem withReceiver_not_closed {σ γ : Type} (k : Consts)
    (get : ChunkXZ → σ → Option (γ × σ)) (recv : Nat → Bool) (mgr : σ) (loc : ChunkXZ)
    (hmax : wrapInt32 (loc.x + k.ChunkRadius) = 2147483647)
    (hz : wrapInt32 (loc.z - k.ChunkRadius) ≤ wrapInt32 (loc.z + k.ChunkRadius)) (fuel : Nat) :
    (ChunksInRadius.withReceiver k get recv fuel mgr loc).isClosed = false := by
  unfold ChunksInRadius.withReceiver
  cases fuel with
  | zero => rfl
  | succ fuel =>
    rw [ChunksInRadius.runChan, if_pos hz]
    exact runChan_inner_not_closed k get recv loc hmax fuel _ _ _ (wrapInt32_le_max _)

theorem withReceiver_closed {σ γ : Type} (k : Consts) (get : ChunkXZ → σ → Option (γ × σ))
    (recv : Nat → Bool) (mgr : σ) (loc : ChunkXZ) (hr : 0 ≤ k.ChunkRadius)
    (hxlo : -2147483648 ≤ loc.x - k.ChunkRadius) (hxhi : loc.x + k.ChunkRadius < 2147483647)
    (hzlo : -2147483648 ≤ loc.z - k.ChunkRadius) (hzhi : loc.z + k.ChunkRadius < 2147483647)
    (hreturns : ∀ fuel : Nat,
      (ChunksInRadius.withReceiver k get recv fuel mgr loc).isGetFailed = false)
    (hreceived : ∀ fuel : Nat,
      (ChunksInRadius.withReceiver k get recv fuel mgr loc).isSendBlocked = false)
    (fuel : Nat)
    (hfuel : (2 * k.ChunkRadius + 1).toNat * ((2 * k.ChunkRadius + 1).toNat + 2) + 1 ≤ fuel) :
    ∃ st : IterState σ γ, ChunksInRadius.withReceiver k get recv fuel mgr loc = .closed st ∧
      st.calls = squareCoords loc.x loc.z k.ChunkRadius ∧
      st.sent.length = st.calls.length := by
  have hn : (((2 * k.ChunkRadius + 1).toNat : Nat) : Int) = 2 * k.ChunkRadius + 1 :=
    Int.toNat_of_nonneg (by omega)
  have hstart : wrapInt32 (loc.z - k.ChunkRadius) = loc.z - k.ChunkRadius + ((0 : Nat) : Int) := by
    rw [wrapInt32_of_isInt32 ⟨by omega, by omega⟩]
    simp
  unfold ChunksInRadius.withReceiver at hreturns hreceived ⊢
  rw [hstart] at hreturns hreceived ⊢
  obtain ⟨st, hrun, hcalls, hsent⟩ := runChan_outer_rows k get recv loc
    (2 * k.ChunkRadius + 1).toNat hxlo hxhi hzlo hzhi hn (2 * k.ChunkRadius + 1).toNat 0
    (by omega) { mgr := mgr, calls := [], sent := [] } hreturns hreceived
  have hf : fuel - ((2 * k.ChunkRadius + 1).toNat * ((2 * k.ChunkRadius + 1).toNat + 2) + 1) +
      (2 * k.ChunkRadius + 1).toNat * ((2 * k.ChunkRadius + 1).toNat + 2) + 1 = fuel := by
    omega
  have hrun2 := hrun
    (fuel - ((2 * k.ChunkRadius + 1).toNat * ((2 * k.ChunkRadius + 1).toNat + 2) + 1))
  rw [hf] at hrun2
  have hc : st.calls = squareCoords loc.x loc.z k.ChunkRadius := by
    rw [hcalls, squareCoords_eq]
    simp
  refine ⟨st, hrun2, hc, ?_⟩
  have hlen := squareCoords_length loc.x loc.z k.ChunkRadius hr
  rw [← hc] at hlen
  have h2 : ((st.sent.length : Nat) : Int) = (2 * k.ChunkRadius + 1) ^ 2 := by
    rw [hsent]
    simp only [List.length_nil, Nat.zero_add]
    push_cast
    rw [hn]
    ring
  omega

/-- C10 (amended): for every center `(cx, cz)` and radius `r = ChunkRadius ≥ 0` such that
`cx - r`, `cz - r` do not underflow and `cx + r`, `cz + r` stay below the maximum `int32`
value, provided every call of `Get` that the goroutine makes returns (the run never ends
inside a call of `Get`) and a receiver takes every chunk sent on the channel (the run never
stays in a send), the goroutine of `ChunksInRadius` closes the channel (for every sufficient
step budget) after calling `Get` on exactly the `(2r+1)^2` coordinates `(x, z)` with
`cx-r ≤ x ≤ cx+r` and `cz-r ≤ z ≤ cz+r`, each once, ordered by `z` ascending and, within
equal `z`, by `x` ascending, sending one chunk per call. -/
theorem chunksInRadius_calls_square {σ γ : Type} (k : Consts)
    (get : ChunkXZ → σ → Option (γ × σ)) (recv : Nat → Bool) (mgr : σ) (loc : ChunkXZ)
    (hr : 0 ≤ k.ChunkRadius)
    (hxlo : -2147483648 ≤ loc.x - k.ChunkRadius) (hxhi : loc.x + k.ChunkRadius < 2147483647)
    (hzlo : -2147483648 ≤ loc.z - k.ChunkRadius) (hzhi : loc.z + k.ChunkRadius < 2147483647)
    (hreturns : ∀ fuel : Nat,
      (ChunksInRadius.withReceiver k get recv fuel mgr loc).isGetFailed = false)
    (hreceived : ∀ fuel : Nat,
      (ChunksInRadius.withReceiver k get recv fuel mgr loc).isSendBlocked = false) :
    ∃ N : Nat, ∀ fuel : Nat, N ≤ fuel →
      ∃ st : IterState σ γ,
        ChunksInRadius.withReceiver k get recv fuel mgr loc = .closed st ∧
        st.calls = squareCoords loc.x loc.z k.ChunkRadius ∧
        (st.calls.length : Int) = (2 * k.ChunkRadius + 1) ^ 2 ∧
        (∀ c : ChunkXZ, c ∈ st.calls ↔
          loc.x - k.ChunkRadius ≤ c.x ∧ c.x ≤ loc.x + k.ChunkRadius ∧
          loc.z - k.ChunkRadius ≤ c.z ∧ c.z ≤ loc.z + k.ChunkRadius) ∧
        st.calls.Nodup ∧ st.calls.Pairwise rowMajorLt ∧
        st.sent.length = st.calls.length := by
  refine ⟨(2 * k.ChunkRadius + 1).toNat * ((2 * k.ChunkRadius + 1).toNat + 2) + 1,
    fun fuel hfuel => ?_⟩
  obtain ⟨st, hrun, hcalls, hsent⟩ := withReceiver_closed k get recv mgr loc hr hxlo hxhi
    hzlo hzhi hreturns hreceived fuel hfuel
  refine ⟨st, hrun, hcalls, ?_, ?_, ?_, ?_, hsent⟩
  · rw [hcalls]
    exact squareCoords_length _ _ _ hr
  · intro c
    rw [hcalls]
    exact mem_squareCoords _ _ _ c
  · rw [hcalls]
    exact squareCoords_nodup _ _ _
  · rw [hcalls]
    exact squareCoords_pairwise _ _ _

theorem openWorld_run_closed :
    (ChunksInRadius.withReceiver smallConsts (ChunkManager.getCall openWorld) recvAll 16
      freshManager { x := 0, z := 0 }).isClosed = true := by
  decide

theorem chunksInRadius_calls_square_witness :
    0 ≤ smallConsts.ChunkRadius ∧
    (-2147483648 : Int) ≤ 0 - smallConsts.ChunkRadius ∧
    (0 : Int) + smallConsts.ChunkRadius < 2147483647 ∧
    (∀ fuel : Nat,
      (ChunksInRadius.withReceiver smallConsts (ChunkManager.getCall openWorld) recvAll fuel
        freshManager { x := 0, z := 0 }).isGetFailed = false) ∧
    (∀ fuel : Nat,
      (ChunksInRadius.withReceiver smallConsts (ChunkManager.getCall openWorld) recvAll fuel
        freshManager { x := 0, z := 0 }).isSendBlocked = false) ∧
    ∃ N : Nat, ∀ fuel : Nat, N ≤ fuel →
      ∃ st : IterState ChunkManager Chunk,
        ChunksInRadius.withReceiver smallConsts (ChunkManager.getCall openWorld) recvAll fuel
          freshManager { x := 0, z := 0 } = .closed st ∧
        st.calls = [{ x := -1, z := -1 }, { x := 0, z := -1 }, { x := 1, z := -1 },
                    { x := -1, z := 0 }, { x := 0, z := 0 }, { x := 1, z := 0 },
                    { x := -1, z := 1 }, { x := 0, z := 1 }, { x := 1, z := 1 }] ∧
        st.sent.length = 9 := by
  have hrun := withReceiver_of_closed smallConsts (ChunkManager.getCall openWorld) recvAll
    freshManager { x := 0, z := 0 } 16 openWorld_run_closed
  refine ⟨by decide, by decide, by decide, fun fuel => (hrun fuel).1,
    fun fuel => (hrun fuel).2, ?_⟩
  obtain ⟨N, hN⟩ := chunksInRadius_calls_square smallConsts (ChunkManager.getCall openWorld)
    recvAll freshManager { x := 0, z := 0 } (by decide) (by decide) (by decide) (by decide)
    (by decide) (fun fuel => (hrun fuel).1) (fun fuel => (hrun fuel).2)
  refine ⟨N, fun fuel hfuel => ?_⟩
  obtain ⟨st, hres, hcalls, -, -, -, -, hsent⟩ := hN fuel hfuel
  have hc : st.calls = [{ x := -1, z := -1 }, { x := 0, z := -1 }, { x := 1, z := -1 },
      { x := -1, z := 0 }, { x := 0, z := 0 }, { x := 1, z := 0 },
      { x := -1, z := 1 }, { x := 0, z := 1 }, { x := 1, z := 1 }] := by
    rw [hcalls]
    decide
  refine ⟨st, hres, hc, ?_⟩
  rw [hsent, hc]
  rfl

/-- C10 (counterexample to the claim as stated), with the calls of `Get` made by
`ChunkManager.Get` in a world where every chunk file opens and with a receiver that takes
every chunk. With radius 1 and center `x = 2^31 - 2` neither `cx + r` nor `cx - r`
overflows, yet the channel is never closed and the fourth call of `Get` is on the
coordinate `(-2^31, -1)` outside the square, where the run ends (`chunkPath` panics). With
center `(0, 0)` in a world without chunk files the run ends inside the first call of `Get`
(`log.Exit`), and when nothing reads the channel it stays in the first send: one call
instead of nine. -/
theorem chunksInRadius_square_counterexample :
    (isInt32 (2147483646 + smallConsts.ChunkRadius) ∧
      isInt32 (2147483646 - smallConsts.ChunkRadius)) ∧
    (¬ ∃ fuel : Nat,
      (ChunksInRadius.withReceiver smallConsts (ChunkManager.getCall openWorld) recvAll fuel
        freshManager { x := 2147483646, z := 0 }).isClosed = true) ∧
    ((ChunksInRadius.withReceiver smallConsts (ChunkManager.getCall openWorld) recvAll 6
        freshManager { x := 2147483646, z := 0 }).isGetFailed = true ∧
      (ChunksInRadius.withReceiver smallConsts (ChunkManager.getCall openWorld) recvAll 6
        freshManager { x := 2147483646, z := 0 }).calls =
        [{ x := 2147483645, z := -1 }, { x := 2147483646, z := -1 },
         { x := 2147483647, z := -1 }, { x := -2147483648, z := -1 }]) ∧
    ((ChunksInRadius.withReceiver smallConsts (ChunkManager.getCall emptyWorld) recvAll 100
        freshManager { x := 0, z := 0 }).isGetFailed = true ∧
      (ChunksInRadius.withReceiver smallConsts (ChunkManager.getCall emptyWorld) recvAll 100
        freshManager { x := 0, z := 0 }).calls = [{ x := -1, z := -1 }]) ∧
    ((ChunksInRadius.withReceiver smallConsts (ChunkManager.getCall openWorld) recvNone 100
        freshManager { x := 0, z := 0 }).isSendBlocked = true ∧
      (ChunksInRadius.withReceiver smallConsts (ChunkManager.getCall openWorld) recvNone 100
        freshManager { x := 0, z := 0 }).calls = [{ x := -1, z := -1 }]) := by
  refine ⟨by decide, ?_, ⟨by decide, by decide⟩, ⟨by decide, by decide⟩,
    ⟨by decide, by decide⟩⟩
  rintro ⟨fuel, h⟩
  have hnc := withReceiver_not_closed smallConsts (ChunkManager.getCall openWorld) recvAll
    freshManager { x := 2147483646, z := 0 } (by decide) (by decide) fuel
  rw [hnc] at h
  exact Bool.false_ne_true h

/-! ### Frame and safety of `SetBlock` -/

theorem linearIndex_injective {k : Consts} (hk : k.wellFormed) {a b : SubChunkXYZ}
    (ha : inBounds k a) (hb : inBounds k b) (h : linearIndex k a = linearIndex k b) : a = b := by
  obtain ⟨hX, hY, hZ, -⟩ := hk
  obtain ⟨hax0, hax1, hay0, hay1, haz0, haz1⟩ := ha
  obtain ⟨hbx0, hbx1, hby0, hby1, hbz0, hbz1⟩ := hb
  unfold linearIndex at h
  have ea : a.y + a.z * k.ChunkSizeY + a.x * k.ChunkSizeY * k.ChunkSizeZ =
      a.y + k.ChunkSizeY * (a.z + k.ChunkSizeZ * a.x) := by ring
  have eb : b.y + b.z * k.ChunkSizeY + b.x * k.ChunkSizeY * k.ChunkSizeZ =
      b.y + k.ChunkSizeY * (b.z + k.ChunkSizeZ * b.x) := by ring
  rw [ea, eb] at h
  have hy : a.y = b.y := by
    have h1 := congrArg (fun v => v % k.ChunkSizeY) h
    simp only [Int.add_mul_emod_self_left] at h1
    rwa [Int.emod_eq_of_lt hay0 hay1, Int.emod_eq_of_lt hby0 hby1] at h1
  have hq : a.z + k.ChunkSizeZ * a.x = b.z + k.ChunkSizeZ * b.x := by
    have h2 : k.ChunkSizeY * (a.z + k.ChunkSizeZ * a.x) =
        k.ChunkSizeY * (b.z + k.ChunkSizeZ * b.x) := by linarith
    exact Int.eq_of_mul_eq_mul_left (by omega) h2
  have hz : a.z = b.z := by
    have h1 := congrArg (fun v => v % k.ChunkSizeZ) hq
    simp only [Int.add_mul_emod_self_left] at h1
    rwa [Int.emod_eq_of_lt haz0 haz1, Int.emod_eq_of_lt hbz0 hbz1] at h1
  have hx : a.x = b.x := by
    have h2 : k.ChunkSizeZ * a.x = k.ChunkSizeZ * b.x := by linarith
    exact Int.eq_of_mul_eq_mul_left (by omega) h2
  cases a; cases b
  simp_all

theorem getD_set_of_ne (s : List Nat) (i j v : Nat) (h : i ≠ j) :
    (s.set i v).getD j 0 = s.getD j 0 := by
  simp [List.getD_eq_getElem?_getD, List.getElem?_set_ne h]

theorem nibbleAt_set_sameByte (data : List Nat) (i j m : Nat) (hi : i / 2 < data.length)
    (hj : j / 2 = i / 2) (hne : j ≠ i) :
    nibbleAt (data.set (i / 2)
      (if i % 2 = 0 then ((((m <<< 0) % 256) &&& 15) ||| (data.getD (i / 2) 0 &&& 240))
        else ((((m <<< 4) % 256) &&& 240) ||| (data.getD (i / 2) 0 &&& 15)))) j =
      nibbleAt data j := by
  unfold nibbleAt
  rw [hj, getD_set_self _ _ _ hi]
  rcases Nat.mod_two_eq_zero_or_one i with h0 | h1
  · have hj1 : j % 2 = 1 := by omega
    rw [if_pos h0, hj1]
    exact packLow_other m _
  · have hj0 : j % 2 = 0 := by omega
    have hn : ¬ i % 2 = 0 := by omega
    rw [if_neg hn, hj0]
    exact packHigh_other m _

theorem nibbleAt_set_otherByte (data : List Nat) (i j v : Nat) (hj : j / 2 ≠ i / 2) :
    nibbleAt (data.set (i / 2) v) j = nibbleAt data j := by
  unfold nibbleAt
  rw [getD_set_of_ne _ _ _ _ (Ne.symm hj)]

theorem setBlock_frame (k : Consts) (chunk c : Chunk) (subLoc : SubChunkXYZ) (t m : Nat)
    (ms : List Multicast) (e : Bool) (h : chunk.SetBlock k subLoc t m = .ok (c, ms, e)) :
    c.XZ = chunk.XZ ∧ c.BlockLight = chunk.BlockLight ∧ c.SkyLight = chunk.SkyLight ∧
    c.HeightMap = chunk.HeightMap ∧ c.Blocks.length = chunk.Blocks.length ∧
    c.BlockData.length = chunk.BlockData.length := by
  unfold Chunk.SetBlock at h
  rcases hbi : blockIndex k subLoc with ⟨index, shift, err⟩
  rw [hbi] at h
  cases err with
  | true =>
    simp only [Go.ok.injEq, Prod.mk.injEq] at h
    obtain ⟨rfl, -, -⟩ := h
    exact ⟨rfl, rfl, rfl, rfl, rfl, rfl⟩
  | false =>
    simp only [bind, Go.bind, sliceSet, sliceGet] at h
    split_ifs at h
    simp only [Go.ok.injEq, Prod.mk.injEq] at h
    obtain ⟨rfl, -, -⟩ := h
    simp

/-- C18: for two distinct in-bounds locations `a` and `b` (`blockIndex` is injective on
in-bounds locations), `SetBlock` at `a` leaves the block type that `GetBlock` reads at `b` and
the metadata nibble of `b` unchanged; and whenever `SetBlock` returns, `XZ`, `BlockLight`,
`SkyLight`, `HeightMap` and the lengths of `Blocks` and `BlockData` are as before. -/
theorem setBlock_leaves_other_blocks (k : Consts) (hk : k.wellFormed) (chunk : Chunk)
    (hs : chunk.sized k) (a b : SubChunkXYZ) (ha : inBounds k a) (hb : inBounds k b)
    (hne : a ≠ b) (t m : Nat) :
    (blockIndex k a).1 ≠ (blockIndex k b).1 ∧
    ∃ c ms, chunk.SetBlock k a t m = .ok (c, ms, false) ∧
      c.GetBlock k b = chunk.GetBlock k b ∧
      nibbleAt c.BlockData (linearIndex k b).toNat =
        nibbleAt chunk.BlockData (linearIndex k b).toNat ∧
      c.XZ = chunk.XZ ∧ c.BlockLight = chunk.BlockLight ∧ c.SkyLight = chunk.SkyLight ∧
      c.HeightMap = chunk.HeightMap ∧ c.Blocks.length = chunk.Blocks.length ∧
      c.BlockData.length = chunk.BlockData.length := by
  obtain ⟨hia, hna, hla⟩ := blockIndex_of_inBounds hk ha
  obtain ⟨hib, hnb, hlb⟩ := blockIndex_of_inBounds hk hb
  have hidx : linearIndex k a ≠ linearIndex k b := fun h => hne (linearIndex_injective hk ha hb h)
  have hnat : (linearIndex k a).toNat ≠ (linearIndex k b).toNat := by omega
  have hset := setBlock_of_inBounds hk hs ha t m
  have hD := hs.2
  have hi2 : (linearIndex k a).toNat / 2 < chunk.BlockData.length := by omega
  refine ⟨by rw [hia, hib]; exact hidx, _, _, hset, ?_, ?_, ?_⟩
  · unfold Chunk.GetBlock
    rw [hib]
    have hB := hs.1
    have hlen : (linearIndex k b).toNat < chunk.Blocks.length := by omega
    have hlen2 : (linearIndex k b).toNat <
        (chunk.Blocks.set (linearIndex k a).toNat (t % 256)).length := by
      rw [List.length_set]; exact hlen
    simp only [bind, Go.bind, sliceGet_of_lt hnb hlen, sliceGet_of_lt hnb hlen2,
      getD_set_of_ne _ _ _ _ hnat]
  · dsimp only
    by_cases hbyte : (linearIndex k b).toNat / 2 = (linearIndex k a).toNat / 2
    · have hpar : linearIndex k a % 2 = 0 ↔ (linearIndex k a).toNat % 2 = 0 := by omega
      have key := nibbleAt_set_sameByte chunk.BlockData (linearIndex k a).toNat
        (linearIndex k b).toNat m hi2 hbyte (Ne.symm hnat)
      simp only [hpar]
      exact key
    · exact nibbleAt_set_otherByte _ _ _ _ hbyte
  · exact setBlock_frame k chunk _ a t m _ _ hset

theorem setBlock_leaves_other_blocks_witness :
    smallConsts.wellFormed ∧ smallChunk.sized smallConsts ∧
    inBounds smallConsts { x := 1, y := 0, z := 1 } ∧
    inBounds smallConsts { x := 1, y := 1, z := 1 } ∧
    ∃ c ms, smallChunk.SetBlock smallConsts { x := 1, y := 0, z := 1 } 200 0xab =
        .ok (c, ms, false) ∧
      c.GetBlock smallConsts { x := 1, y := 1, z := 1 } = .ok (8, false) ∧
      nibbleAt c.BlockData 7 = 8 := by
  obtain ⟨-, c, ms, h, hget, hnib, -⟩ :=
    setBlock_leaves_other_blocks smallConsts (by decide) smallChunk (by decide)
      { x := 1, y := 0, z := 1 } { x := 1, y := 1, z := 1 } (by decide) (by decide)
      (by decide) 200 0xab
  refine ⟨by decide, by decide, by decide, by decide, c, ms, h, ?_, ?_⟩
  · rw [hget]
    decide
  · have h7 : (linearIndex smallConsts { x := 1, y := 1, z := 1 }).toNat = 7 := by decide
    rw [h7] at hnib
    rw [hnib]
    decide

/-- C19: for every in-bounds location the index returned by `blockIndex` satisfies
`0 ≤ index < ChunkSizeX*ChunkSizeY*ChunkSizeZ`, so on a chunk whose `Blocks` has that many
bytes and whose `BlockData` has half as many, `Blocks[index]` and `BlockData[index/2]` are
within the slices and `SetBlock` and `GetBlock` return without a panic. -/
theorem blockIndex_accesses_in_range (k : Consts) (hk : k.wellFormed) (chunk : Chunk)
    (hs : chunk.sized k) (subLoc : SubChunkXYZ) (hin : inBounds k subLoc) (t m : Nat) :
    ∃ index shift, blockIndex k subLoc = (index, shift, false) ∧
      0 ≤ index ∧ index < k.ChunkSizeX * k.ChunkSizeY * k.ChunkSizeZ ∧
      index.toNat < chunk.Blocks.length ∧
      0 ≤ Int.tdiv index 2 ∧ (Int.tdiv index 2).toNat < chunk.BlockData.length ∧
      (∃ v, sliceGet chunk.Blocks index = .ok v) ∧
      (∃ v, sliceGet chunk.BlockData (Int.tdiv index 2) = .ok v) ∧
      (∃ r, chunk.SetBlock k subLoc t m = .ok r) ∧
      (∃ r, chunk.GetBlock k subLoc = .ok r) := by
  obtain ⟨hbi, hnn, hlt⟩ := blockIndex_of_inBounds hk hin
  obtain ⟨hB, hD⟩ := hs
  have hi1 : (linearIndex k subLoc).toNat < chunk.Blocks.length := by omega
  have htd : Int.tdiv (linearIndex k subLoc) 2 = linearIndex k subLoc / 2 :=
    Int.tdiv_eq_ediv hnn (by norm_num)
  have hd0 : 0 ≤ Int.tdiv (linearIndex k subLoc) 2 := by rw [htd]; omega
  have hd1 : (Int.tdiv (linearIndex k subLoc) 2).toNat < chunk.BlockData.length := by
    rw [htd]; omega
  refine ⟨_, _, hbi, hnn, hlt, hi1, hd0, hd1, ⟨_, sliceGet_of_lt hnn hi1⟩,
    ⟨_, sliceGet_of_lt hd0 hd1⟩, ⟨_, setBlock_of_inBounds hk ⟨hB, hD⟩ hin t m⟩, ?_⟩
  unfold Chunk.GetBlock
  rw [hbi]
  simp only [bind, Go.bind, sliceGet_of_lt hnn hi1]
  exact ⟨_, rfl⟩

theorem blockIndex_accesses_in_range_witness :
    sampleConsts.wellFormed ∧ inBounds sampleConsts { x := 15, y := 127, z := 15 } ∧
    smallConsts.wellFormed ∧ smallChunk.sized smallConsts ∧
    inBounds smallConsts { x := 1, y := 1, z := 1 } ∧
    ∃ index shift, blockIndex smallConsts { x := 1, y := 1, z := 1 } = (index, shift, false) ∧
      0 ≤ index ∧ index < 2 * 2 * 2 ∧ index.toNat < smallChunk.Blocks.length ∧
      0 ≤ Int.tdiv index 2 ∧ (Int.tdiv index 2).toNat < smallChunk.BlockData.length ∧
      (∃ v, sliceGet smallChunk.Blocks index = .ok v) ∧
      (∃ v, sliceGet smallChunk.BlockData (Int.tdiv index 2) = .ok v) ∧
      (∃ r, smallChunk.SetBlock smallConsts { x := 1, y := 1, z := 1 } 9 3 = .ok r) ∧
      (∃ r, smallChunk.GetBlock smallConsts { x := 1, y := 1, z := 1 } = .ok r) :=
  ⟨by decide, by decide, by decide, by decide, by decide,
   blockIndex_accesses_in_range smallConsts (by decide) smallChunk (by decide)
     { x := 1, y := 1, z := 1 } (by decide) 9 3⟩

/-! ### The block-change packet of `SetBlock` -/

/-- The packet that `SetBlock` multicasts for an in-bounds location: it carries the world
block position of the location, and always the block type `BlockIDAir` and metadata 0. -/
theorem setBlock_multicast (k : Consts) (hk : k.wellFormed) (chunk : Chunk)
    (hs : chunk.sized k) (subLoc : SubChunkXYZ) (hin : inBounds k subLoc) (t m : Nat) :
    ∃ c, chunk.SetBlock k subLoc t m =
      .ok (c, [{ packet := { pos := chunk.XZ.ToBlockXY k subLoc, blockType := k.BlockIDAir,
                             metadata := 0 },
                 chunk := chunk.XZ }], false) :=
  ⟨_, setBlock_of_inBounds hk hs hin t m⟩

/-- C11 (the code departs from the claim): setting the in-bounds block `(1, 0, 1)` to block
type 200 with metadata `0xab` multicasts one packet with the position of the block, but with
block type 0 (`BlockIDAir`) and metadata 0 instead of 200 and `0xab`. -/
theorem setBlock_packet_reports_air :
    ∃ c, smallChunk.SetBlock smallConsts { x := 1, y := 0, z := 1 } 200 0xab =
      .ok (c, [{ packet := { pos := { x := 1, y := 0, z := 1 }, blockType := 0,
                             metadata := 0 },
                 chunk := { x := 0, z := 0 } }], false) :=
  ⟨_, setBlock_of_inBounds (by decide) (by decide) (by decide) 200 0xab⟩

/-! ### `Mob.SetBurning` -/

theorem testBit_one (i : Nat) : Nat.testBit 1 i = decide (i < 1) :=
  Nat.testBit_two_pow_sub_one 1 i

theorem or_one_bits (old : Nat) (hold : old < 256) :
    ((old ||| 1) % 256).testBit 0 = true ∧
    ∀ i, 0 < i → ((old ||| 1) % 256).testBit i = old.testBit i := by
  have hlt : ∀ i, 8 ≤ i → old.testBit i = false := fun i hi =>
    Nat.testBit_lt_two_pow (lt_of_lt_of_le hold
      (Nat.pow_le_pow_right (n := 2) (by norm_num) hi))
  refine ⟨by rw [testBit_byte, Nat.testBit_or, testBit_one]; simp, fun i hi => ?_⟩
  rw [testBit_byte, Nat.testBit_or, testBit_one]
  by_cases h8 : i < 8
  · have : ¬ i < 1 := by omega
    simp [h8, this]
  · simp [h8, hlt i (by omega)]

theorem xor_one_bits (old : Nat) (hold : old < 256) :
    ((old ^^^ 1) % 256).testBit 0 = !old.testBit 0 ∧
    ∀ i, 0 < i → ((old ^^^ 1) % 256).testBit i = old.testBit i := by
  have hlt : ∀ i, 8 ≤ i → old.testBit i = false := fun i hi =>
    Nat.testBit_lt_two_pow (lt_of_lt_of_le hold
      (Nat.pow_le_pow_right (n := 2) (by norm_num) hi))
  refine ⟨by rw [testBit_byte, Nat.testBit_xor, testBit_one]; simp, fun i hi => ?_⟩
  rw [testBit_byte, Nat.testBit_xor, testBit_one]
  by_cases h8 : i < 8
  · have : ¬ i < 1 := by omega
    simp [h8, this]
  · simp [h8, hlt i (by omega)]

/-- What `SetBurning` does on an initialised mob whose `metadata[0]` is a byte: it returns,
every entry other than key 0 and bits 1 to 7 of `metadata[0]` keep their value, and bit 0 of
`metadata[0]` becomes 1 for `burn = true` and is flipped for `burn = false`. -/
theorem setBurning_effect (mob : Mob) (entries : Nat → Option Nat)
    (hinit : mob.metadata = some entries) (hbyte : mapRead mob.metadata 0 < 256)
    (burn : Bool) :
    ∃ mob2, mob.SetBurning burn = .ok mob2 ∧
      (∃ entries2, mob2.metadata = some entries2 ∧ ∀ key, key ≠ 0 → entries2 key = entries key) ∧
      (∀ i, 0 < i → (mapRead mob2.metadata 0).testBit i = (mapRead mob.metadata 0).testBit i) ∧
      (mapRead mob2.metadata 0).testBit 0 =
        (if burn then true else !(mapRead mob.metadata 0).testBit 0) ∧
      mob2.EntityId = mob.EntityId ∧ mob2.mobType = mob.mobType := by
  unfold Mob.SetBurning
  rw [hinit] at hbyte ⊢
  simp only [mapRead] at hbyte
  refine ⟨_, rfl, ⟨_, rfl, fun key hkey => by simp [Function.update, hkey]⟩, ?_, ?_, rfl, rfl⟩
  · intro i hi
    simp only [mapRead, Function.update_same, Option.getD_some]
    cases burn with
    | true => exact (or_one_bits _ hbyte).2 i hi
    | false => exact (xor_one_bits _ hbyte).2 i hi
  · simp only [mapRead, Function.update_same, Option.getD_some]
    cases burn with
    | true => exact (or_one_bits _ hbyte).1
    | false => exact (xor_one_bits _ hbyte).1

/-- C20 (the code departs from the claim): on a freshly initialised mob, which is not
burning (`metadata[0] = 0`), `SetBurning(false)` returns a mob with `metadata[0] = 1`: bit 0
is set and the mob is burning. -/
theorem setBurning_false_sets_fresh_mob_burning :
    mapRead (zeroMob.Init 50).metadata 0 = 0 ∧
    ∃ mob2, (zeroMob.Init 50).SetBurning false = .ok mob2 ∧
      mapRead mob2.metadata 0 = 1 ∧ (mapRead mob2.metadata 0).testBit 0 = true :=
  ⟨rfl, _, rfl, rfl, rfl⟩

/-! ### `loadChunk` -/

theorem assertInt_eq_ok (tag : Option NbtTag) (v : Int) :
    assertInt tag = .ok v ↔ tag = some (.int v) := by
  unfold assertInt
  split <;> simp_all

theorem assertByteArray_eq_ok (tag : Option NbtTag) (v : List Nat) :
    assertByteArray tag = .ok v ↔ tag = some (.byteArray v) := by
  unfold assertByteArray
  split <;> simp_all

theorem assertInt_cases (tag : Option NbtTag) :
    (∃ v, tag = some (.int v) ∧ assertInt tag = .ok v) ∨
    ((¬ ∃ v, tag = some (.int v)) ∧ assertInt tag = .panic) := by
  unfold assertInt
  split <;> simp_all

theorem assertByteArray_cases (tag : Option NbtTag) :
    (∃ v, tag = some (.byteArray v) ∧ assertByteArray tag = .ok v) ∨
    ((¬ ∃ v, tag = some (.byteArray v)) ∧ assertByteArray tag = .panic) := by
  unfold assertByteArray
  split <;> simp_all

theorem chunkOfLevel_cases (level : NbtLevel) :
    (∃ x z blocks data sky light height,
      level.Lookup "/Level/xPos" = some (.int x) ∧
      level.Lookup "/Level/zPos" = some (.int z) ∧
      level.Lookup "/Level/Blocks" = some (.byteArray blocks) ∧
      level.Lookup "/Level/Data" = some (.byteArray data) ∧
      level.Lookup "/Level/SkyLight" = some (.byteArray sky) ∧
      level.Lookup "/Level/BlockLight" = some (.byteArray light) ∧
      level.Lookup "/Level/HeightMap" = some (.byteArray height) ∧
      chunkOfLevel level = .ok
        { XZ := { x := x, z := z }, Blocks := blocks, BlockData := data,
          BlockLight := light, SkyLight := sky, HeightMap := height }) ∨
    (¬ level.wellTyped ∧ chunkOfLevel level = .panic) := by
  unfold chunkOfLevel NbtLevel.wellTyped
  rcases assertInt_cases (level.Lookup "/Level/xPos") with ⟨x, hx, ax⟩ | ⟨hx, ax⟩
  swap
  · exact Or.inr ⟨fun h => hx h.1, by rw [ax]; rfl⟩
  rcases assertInt_cases (level.Lookup "/Level/zPos") with ⟨z, hz, az⟩ | ⟨hz, az⟩
  swap
  · exact Or.inr ⟨fun h => hz h.2.1, by rw [ax, az]; rfl⟩
  rcases assertByteArray_cases (level.Lookup "/Level/Blocks") with ⟨b, hb, ab⟩ | ⟨hb, ab⟩
  swap
  · exact Or.inr ⟨fun h => hb h.2.2.1, by rw [ax, az, ab]; rfl⟩
  rcases assertByteArray_cases (level.Lookup "/Level/Data") with ⟨d, hd, ad⟩ | ⟨hd, ad⟩
  swap
  · exact Or.inr ⟨fun h => hd h.2.2.2.1, by rw [ax, az, ab, ad]; rfl⟩
  rcases assertByteArray_cases (level.Lookup "/Level/SkyLight") with ⟨s, hs, as⟩ | ⟨hs, as⟩
  swap
  · exact Or.inr ⟨fun h => hs h.2.2.2.2.1, by rw [ax, az, ab, ad, as]; rfl⟩
  rcases assertByteArray_cases (level.Lookup "/Level/BlockLight") with ⟨l, hl, al⟩ | ⟨hl, al⟩
  swap
  · exact Or.inr ⟨fun h => hl h.2.2.2.2.2.1, by rw [ax, az, ab, ad, as, al]; rfl⟩
  rcases assertByteArray_cases (level.Lookup "/Level/HeightMap") with ⟨g, hg, ag⟩ | ⟨hg, ag⟩
  swap
  · exact Or.inr ⟨fun h => hg h.2.2.2.2.2.2, by rw [ax, az, ab, ad, as, al, ag]; rfl⟩
  exact Or.inl ⟨x, z, b, d, s, l, g, hx, hz, hb, hd, hs, hl, hg,
    by rw [ax, az, ab, ad, as, al, ag]; rfl⟩

theorem loadChunk_record_cases (level : NbtLevel) :
    (∃ x z blocks data sky light height,
      level.Lookup "/Level/xPos" = some (.int x) ∧
      level.Lookup "/Level/zPos" = some (.int z) ∧
      level.Lookup "/Level/Blocks" = some (.byteArray blocks) ∧
      level.Lookup "/Level/Data" = some (.byteArray data) ∧
      level.Lookup "/Level/SkyLight" = some (.byteArray sky) ∧
      level.Lookup "/Level/BlockLight" = some (.byteArray light) ∧
      level.Lookup "/Level/HeightMap" = some (.byteArray height) ∧
      loadChunk (.record level) = .ok (some
        { XZ := { x := x, z := z }, Blocks := blocks, BlockData := data,
          BlockLight := light, SkyLight := sky, HeightMap := height }, none)) ∨
    (¬ level.wellTyped ∧ loadChunk (.record level) = .panic) := by
  rcases chunkOfLevel_cases level with ⟨x, z, b, d, s, l, g, hx, hz, hb, hd, hs, hl, hg, h⟩ |
    ⟨hn, h⟩
  · exact Or.inl ⟨x, z, b, d, s, l, g, hx, hz, hb, hd, hs, hl, hg, by
      simp only [loadChunk, h]⟩
  · exact Or.inr ⟨hn, by simp only [loadChunk, h]⟩

/-- C13 (amended): for every record in which one of the required fields `/Level/xPos`,
`/Level/zPos` (integers), `/Level/Blocks`, `/Level/Data`, `/Level/SkyLight`,
`/Level/BlockLight`, `/Level/HeightMap` (byte arrays) is absent or has the wrong type,
`loadChunk` does not return: a type assertion panics. The only error `loadChunk` returns is
the error of `nbt.Read`, with a nil chunk. -/
theorem loadChunk_malformed_panics (level : NbtLevel) (hbad : ¬ level.wellTyped) :
    loadChunk (.record level) = .panic ∧
    ∀ (reader : Reader) (chunk : Option Chunk) (err : OsError),
      loadChunk reader = .ok (chunk, some err) ↔ (reader = .undecodable err ∧ chunk = none) := by
  constructor
  · rcases loadChunk_record_cases level with ⟨x, z, b, d, s, l, g, hx, hz, hb, hd, hs, hl, hg, -⟩ |
      ⟨-, h⟩
    · exact absurd ⟨⟨x, hx⟩, ⟨z, hz⟩, ⟨b, hb⟩, ⟨d, hd⟩, ⟨s, hs⟩, ⟨l, hl⟩, ⟨g, hg⟩⟩ hbad
    · exact h
  · intro reader chunk err
    cases reader with
    | undecodable e =>
      simp only [loadChunk, Go.ok.injEq, Prod.mk.injEq, Option.some.injEq,
        Reader.undecodable.injEq]
      constructor
      · rintro ⟨h1, h2⟩
        exact ⟨h2, h1.symm⟩
      · rintro ⟨h1, h2⟩
        exact ⟨h2.symm, h1⟩
    | record lvl =>
      constructor
      · intro h
        rcases loadChunk_record_cases lvl with ⟨_, _, _, _, _, _, _, -, -, -, -, -, -, -, h2⟩ |
          ⟨-, h2⟩
        · rw [h2] at h
          simp at h
        · rw [h2] at h
          simp at h
      · rintro ⟨h, -⟩
        cases h

theorem noHeightMapLevel_not_wellTyped : ¬ noHeightMapLevel.wellTyped := by
  intro h
  obtain ⟨v, hv⟩ := h.2.2.2.2.2.2
  have hnone : noHeightMapLevel.Lookup "/Level/HeightMap" = none := by decide
  rw [hnone] at hv
  cases hv

theorem loadChunk_malformed_panics_witness :
    ¬ noHeightMapLevel.wellTyped ∧ loadChunk (.record noHeightMapLevel) = .panic :=
  ⟨noHeightMapLevel_not_wellTyped,
   (loadChunk_malformed_panics noHeightMapLevel noHeightMapLevel_not_wellTyped).1⟩

/-- C13 (counterexample to the claim as stated): for a record without `/Level/HeightMap`,
and for a record whose `/Level/xPos` is a byte array, `loadChunk` panics and returns no
error value. -/
theorem loadChunk_missing_field_counterexample :
    loadChunk (.record noHeightMapLevel) = .panic ∧
    (¬ ∃ chunk err, loadChunk (.record noHeightMapLevel) = .ok (chunk, some err)) ∧
    loadChunk (.record wrongTypeLevel) = .panic ∧
    (¬ ∃ chunk err, loadChunk (.record wrongTypeLevel) = .ok (chunk, some err)) := by
  have h1 : loadChunk (.record noHeightMapLevel) = .panic := by decide
  have h2 : loadChunk (.record wrongTypeLevel) = .panic := by decide
  refine ⟨h1, ?_, h2, ?_⟩
  · rintro ⟨c, e, h⟩
    rw [h1] at h
    cases h
  · rintro ⟨c, e, h⟩
    rw [h2] at h
    cases h

/-- C16 (amended): every chunk that `loadChunk` returns without error holds exactly the
integers and byte arrays stored in the record at `/Level/xPos`, `/Level/zPos`,
`/Level/Blocks`, `/Level/Data`, `/Level/BlockLight`, `/Level/SkyLight` and
`/Level/HeightMap`, whatever their lengths; `loadChunk` checks no size, and every record with
the required fields is loaded without error. -/
theorem loadChunk_returns_stored_arrays (reader : Reader) (chunk : Chunk)
    (h : loadChunk reader = .ok (some chunk, none)) :
    (∃ level, reader = .record level ∧
      level.Lookup "/Level/xPos" = some (.int chunk.XZ.x) ∧
      level.Lookup "/Level/zPos" = some (.int chunk.XZ.z) ∧
      level.Lookup "/Level/Blocks" = some (.byteArray chunk.Blocks) ∧
      level.Lookup "/Level/Data" = some (.byteArray chunk.BlockData) ∧
      level.Lookup "/Level/BlockLight" = some (.byteArray chunk.BlockLight) ∧
      level.Lookup "/Level/SkyLight" = some (.byteArray chunk.SkyLight) ∧
      level.Lookup "/Level/HeightMap" = some (.byteArray chunk.HeightMap)) ∧
    (∀ level : NbtLevel, level.wellTyped →
      ∃ c, loadChunk (.record level) = .ok (some c, none)) := by
  constructor
  · cases reader with
    | undecodable e => simp [loadChunk] at h
    | record level =>
      refine ⟨level, rfl, ?_⟩
      rcases loadChunk_record_cases level with
        ⟨x, z, b, d, s, l, g, hx, hz, hb, hd, hs, hl, hg, h2⟩ | ⟨-, h2⟩
      · rw [h2] at h
        simp only [Go.ok.injEq, Prod.mk.injEq, Option.some.injEq, and_true] at h
        subst h
        exact ⟨hx, hz, hb, hd, hl, hs, hg⟩
      · rw [h2] at h
        cases h
  · intro level hw
    rcases loadChunk_record_cases level with
      ⟨x, z, b, d, s, l, g, -, -, -, -, -, -, -, h2⟩ | ⟨hn, -⟩
    · exact ⟨_, h2⟩
    · exact absurd hw hn

theorem loadChunk_returns_stored_arrays_witness :
    loadChunk (.record smallLevel) = .ok (some smallChunk, none) ∧
    smallChunk.sizeInvariant smallConsts ∧
    (∃ level, Reader.record smallLevel = .record level ∧
      level.Lookup "/Level/xPos" = some (.int smallChunk.XZ.x) ∧
      level.Lookup "/Level/zPos" = some (.int smallChunk.XZ.z) ∧
      level.Lookup "/Level/Blocks" = some (.byteArray smallChunk.Blocks) ∧
      level.Lookup "/Level/Data" = some (.byteArray smallChunk.BlockData) ∧
      level.Lookup "/Level/BlockLight" = some (.byteArray smallChunk.BlockLight) ∧
      level.Lookup "/Level/SkyLight" = some (.byteArray smallChunk.SkyLight) ∧
      level.Lookup "/Level/HeightMap" = some (.byteArray smallChunk.HeightMap)) :=
  ⟨by decide, by decide,
   (loadChunk_returns_stored_arrays (.record smallLevel) smallChunk (by decide)).1⟩

/-- C16 (counterexample to the claim as stated): the record `tinyLevel` has all required
fields, each byte array one byte long; `loadChunk` returns its chunk without error, and the
chunk satisfies the size invariant for no choice of chunk dimensions. -/
theorem loadChunk_size_counterexample :
    ∃ chunk, loadChunk (.record tinyLevel) = .ok (some chunk, none) ∧
      chunk.Blocks.length = 1 ∧ chunk.BlockData.length = 1 ∧
      (∀ k : Consts, ¬ chunk.sizeInvariant k) ∧ ¬ chunk.sizeInvariant sampleConsts := by
  refine ⟨{ XZ := { x := 3, z := -4 }, Blocks := [1], BlockData := [2], BlockLight := [4],
            SkyLight := [3], HeightMap := [5] }, by decide, rfl, rfl, ?_, by decide⟩
  intro k hk
  unfold Chunk.sizeInvariant at hk
  simp only [List.length_singleton] at hk
  omega

/-! ### `ChunkManager.Get` -/

theorem mapLookup_mapStore_self (m : List (Nat × Chunk)) (key : Nat) (chunk : Chunk) :
    mapLookup (mapStore m key chunk) key = some chunk := by
  simp [mapStore, mapLookup]

theorem mapStore_keys_nodup (m : List (Nat × Chunk)) (key : Nat) (chunk : Chunk)
    (h : (m.map Prod.fst).Nodup) : ((mapStore m key chunk).map Prod.fst).Nodup := by
  unfold mapStore
  rw [List.map_cons, List.nodup_cons]
  constructor
  · simp only [List.mem_map, List.mem_filter, decide_eq_true_eq, not_exists, not_and]
    rintro ⟨k, c⟩ ⟨-, hne⟩ heq
    exact hne heq
  · exact (List.Nodup.sublist ((List.filter_sublist _).map Prod.fst) h)

theorem go_ok_bind {α β : Type} (v : α) (f : α → Go β) : (Go.ok v >>= f) = f v := rfl

theorem go_panic_bind {α β : Type} (f : α → Go β) : ((Go.panic : Go α) >>= f) = .panic := rfl

theorem go_outOfFuel_bind {α β : Type} (f : α → Go β) :
    ((Go.outOfFuel : Go α) >>= f) = .outOfFuel := rfl

theorem get_of_cached (world : World) (mgr : ChunkManager) (loc : ChunkXZ) (chunk : Chunk)
    (hhit : mapLookup mgr.chunks (chunkKey loc) = some chunk) :
    mgr.Get world loc = .ok (.returned { chunk := chunk, mgr := mgr, opened := [] }) := by
  unfold ChunkManager.Get
  rw [hhit, ChunkManager.Get.afterLookup]

theorem get_of_loaded (world : World) (mgr : ChunkManager) (loc : ChunkXZ) (path : List Char)
    (reader : Reader) (chunk : Chunk)
    (hmiss : mapLookup mgr.chunks (chunkKey loc) = none)
    (hpath : mgr.chunkPath loc = .ok path) (hopen : world.openFile path = some reader)
    (hload : loadChunk reader = .ok (some chunk, none)) :
    mgr.Get world loc = .ok (.returned
      { chunk := chunk,
        mgr := { mgr with chunks := mapStore mgr.chunks (chunkKey loc) chunk },
        opened := [path] }) := by
  unfold ChunkManager.Get
  rw [hmiss, ChunkManager.Get.afterLookup, hpath, go_ok_bind, hopen,
    ChunkManager.Get.afterOpen, hload, go_ok_bind, ChunkManager.Get.afterLoad]

theorem get_of_unopened (world : World) (mgr : ChunkManager) (loc : ChunkXZ)
    (path : List Char) (hmiss : mapLookup mgr.chunks (chunkKey loc) = none)
    (hpath : mgr.chunkPath loc = .ok path) (hopen : world.openFile path = none) :
    mgr.Get world loc = .ok .exited := by
  unfold ChunkManager.Get
  rw [hmiss, ChunkManager.Get.afterLookup, hpath, go_ok_bind, hopen,
    ChunkManager.Get.afterOpen]

theorem get_of_undecodable (world : World) (mgr : ChunkManager) (loc : ChunkXZ)
    (path : List Char) (err : OsError) (hmiss : mapLookup mgr.chunks (chunkKey loc) = none)
    (hpath : mgr.chunkPath loc = .ok path)
    (hopen : world.openFile path = some (.undecodable err)) :
    mgr.Get world loc = .panic := by
  unfold ChunkManager.Get
  rw [hmiss, ChunkManager.Get.afterLookup, hpath, go_ok_bind, hopen,
    ChunkManager.Get.afterOpen, loadChunk, go_ok_bind, ChunkManager.Get.afterLoad]

theorem get_returned_cases (world : World) (mgr : ChunkManager) (loc : ChunkXZ)
    (r : GetReturn) (h : mgr.Get world loc = .ok (.returned r)) :
    (mapLookup mgr.chunks (chunkKey loc) = some r.chunk ∧ r.mgr = mgr ∧ r.opened = []) ∨
    (mapLookup mgr.chunks (chunkKey loc) = none ∧
      r.mgr = { mgr with chunks := mapStore mgr.chunks (chunkKey loc) r.chunk } ∧
      ∃ path reader, mgr.chunkPath loc = .ok path ∧ world.openFile path = some reader ∧
        loadChunk reader = .ok (some r.chunk, none) ∧ r.opened = [path]) := by
  unfold ChunkManager.Get at h
  cases hl : mapLookup mgr.chunks (chunkKey loc) with
  | some c =>
    rw [hl, ChunkManager.Get.afterLookup] at h
    simp only [Go.ok.injEq, GetOutcome.returned.injEq] at h
    subst h
    exact Or.inl ⟨rfl, rfl, rfl⟩
  | none =>
    rw [hl, ChunkManager.Get.afterLookup] at h
    right
    cases hp : mgr.chunkPath loc with
    | panic => rw [hp, go_panic_bind] at h; cases h
    | outOfFuel => rw [hp, go_outOfFuel_bind] at h; cases h
    | ok path =>
      rw [hp, go_ok_bind] at h
      cases ho : world.openFile path with
      | none => rw [ho, ChunkManager.Get.afterOpen] at h; cases h
      | some reader =>
        rw [ho, ChunkManager.Get.afterOpen] at h
        cases hld : loadChunk reader with
        | panic => rw [hld, go_panic_bind] at h; cases h
        | outOfFuel => rw [hld, go_outOfFuel_bind] at h; cases h
        | ok res =>
          rw [hld, go_ok_bind] at h
          obtain ⟨c, e⟩ := res
          cases c with
          | none => rw [ChunkManager.Get.afterLoad] at h; cases h
          | some chunk =>
            cases e with
            | some err => rw [ChunkManager.Get.afterLoad] at h; cases h
            | none =>
              rw [ChunkManager.Get.afterLoad] at h
              simp only [Go.ok.injEq, GetOutcome.returned.injEq] at h
              subst h
              exact ⟨rfl, rfl, path, reader, rfl, ho, hld, rfl⟩

/-- C12 (amended): `Get(loc)` returns the cached chunk without loading and without changing
the map when the key of `loc` is present. When the key is absent and the chunk file opens
and decodes without error, it performs one load, stores the chunk under the key of `loc` and
returns it, and a second `Get(loc)` then returns the same chunk with no load and the map
unchanged; when the file cannot be opened `Get` ends the process. Whenever `Get` returns,
a map with at most one entry per key still has at most one entry per key. -/
theorem get_cache_behaviour (world : World) (mgr : ChunkManager) (loc : ChunkXZ) :
    (∀ chunk, mapLookup mgr.chunks (chunkKey loc) = some chunk →
      mgr.Get world loc = .ok (.returned { chunk := chunk, mgr := mgr, opened := [] })) ∧
    (mapLookup mgr.chunks (chunkKey loc) = none →
      ∀ path reader chunk, mgr.chunkPath loc = .ok path →
        world.openFile path = some reader → loadChunk reader = .ok (some chunk, none) →
        ∃ mgr2 : ChunkManager,
          mgr.Get world loc =
            .ok (.returned { chunk := chunk, mgr := mgr2, opened := [path] }) ∧
          mgr2.chunks = mapStore mgr.chunks (chunkKey loc) chunk ∧
          mgr2.worldPath = mgr.worldPath ∧
          mapLookup mgr2.chunks (chunkKey loc) = some chunk ∧
          mgr2.Get world loc =
            .ok (.returned { chunk := chunk, mgr := mgr2, opened := [] })) ∧
    (mapLookup mgr.chunks (chunkKey loc) = none →
      ∀ path, mgr.chunkPath loc = .ok path → world.openFile path = none →
        mgr.Get world loc = .ok .exited) ∧
    (∀ r, mgr.Get world loc = .ok (.returned r) →
      r.opened.length ≤ 1 ∧
      mapLookup r.mgr.chunks (chunkKey loc) = some r.chunk ∧
      r.mgr.Get world loc = .ok (.returned { chunk := r.chunk, mgr := r.mgr, opened := [] }) ∧
      (mgr.singleEntries → r.mgr.singleEntries)) := by
  refine ⟨fun chunk h => get_of_cached world mgr loc chunk h, ?_,
    fun hmiss path hpath hopen => get_of_unopened world mgr loc path hmiss hpath hopen, ?_⟩
  · intro hmiss path reader chunk hpath hopen hload
    have hl : mapLookup (mapStore mgr.chunks (chunkKey loc) chunk) (chunkKey loc) =
        some chunk := mapLookup_mapStore_self _ _ _
    exact ⟨_, get_of_loaded world mgr loc path reader chunk hmiss hpath hopen hload, rfl, rfl,
      hl, get_of_cached world _ loc chunk hl⟩
  · intro r h
    rcases get_returned_cases world mgr loc r h with ⟨hhit, hm, ho⟩ |
      ⟨hmiss, hm, path, reader, hpath, hopen, hload, ho⟩
    · rw [hm, ho]
      exact ⟨by simp, hhit, get_of_cached world mgr loc r.chunk hhit, fun hs => hs⟩
    · have hl : mapLookup (mapStore mgr.chunks (chunkKey loc) r.chunk) (chunkKey loc) =
          some r.chunk := mapLookup_mapStore_self _ _ _
      rw [hm, ho]
      exact ⟨by simp, hl, get_of_cached world _ loc r.chunk hl,
        fun hs => mapStore_keys_nodup _ _ _ hs⟩

theorem get_cache_behaviour_witness :
    mapLookup freshManager.chunks (chunkKey { x := 0, z := 0 }) = none ∧
    ∃ mgr2 : ChunkManager,
      freshManager.Get smallWorld { x := 0, z := 0 } =
        .ok (.returned { chunk := smallChunk, mgr := mgr2,
                         opened := ["world/0/0/c.0.0.dat".toList] }) ∧
      mgr2.chunks = mapStore freshManager.chunks (chunkKey { x := 0, z := 0 }) smallChunk ∧
      mgr2.worldPath = freshManager.worldPath ∧
      mapLookup mgr2.chunks (chunkKey { x := 0, z := 0 }) = some smallChunk ∧
      mgr2.Get smallWorld { x := 0, z := 0 } =
        .ok (.returned { chunk := smallChunk, mgr := mgr2, opened := [] }) :=
  ⟨by decide,
   (get_cache_behaviour smallWorld freshManager { x := 0, z := 0 }).2.1 (by decide)
     "world/0/0/c.0.0.dat".toList (.record smallLevel) smallChunk (by decide) (by decide)
     (by decide)⟩

/-- C12 (counterexample to the claim as stated): with no chunk loaded and no chunk file in
the world directory, `Get` on chunk `(0, 0)` performs no load, stores nothing and does not
return: `log.Exit` ends the process. When the file opens but is not a tagged record, `Get`
panics on the nil chunk. -/
theorem get_counterexample :
    mapLookup freshManager.chunks (chunkKey { x := 0, z := 0 }) = none ∧
    freshManager.Get emptyWorld { x := 0, z := 0 } = .ok .exited ∧
    (¬ ∃ r, freshManager.Get emptyWorld { x := 0, z := 0 } = .ok (.returned r)) ∧
    freshManager.Get garbageWorld { x := 0, z := 0 } = .panic := by
  have h1 : freshManager.Get emptyWorld { x := 0, z := 0 } = .ok .exited := by decide
  refine ⟨by decide, h1, ?_, by decide⟩
  rintro ⟨r, h⟩
  rw [h1] at h
  cases h

/-! ### Concurrent calls of `Get` -/

theorem getCallers_single (world : World) (mgr : ChunkManager) (loc : ChunkXZ) :
    (GetCallers.fresh mgr 1).step world loc 0 =
      .ok (some { mgr := mgr,
                  callers := [.lookedUp (mapLookup mgr.chunks (chunkKey loc))] }) ∧
    GetCallers.step world loc
        { mgr := mgr, callers := [.lookedUp (mapLookup mgr.chunks (chunkKey loc))] } 0 =
      GetCallers.finish
        { mgr := mgr, callers := [.lookedUp (mapLookup mgr.chunks (chunkKey loc))] } 0
        (mgr.Get world loc) :=
  ⟨rfl, rfl⟩

theorem afterLookup_of_loaded (world : World) (mgr : ChunkManager) (loc : ChunkXZ)
    (path : List Char) (reader : Reader) (chunk : Chunk)
    (hpath : mgr.chunkPath loc = .ok path) (hopen : world.openFile path = some reader)
    (hload : loadChunk reader = .ok (some chunk, none)) :
    ChunkManager.Get.afterLookup world mgr loc (chunkKey loc) none = .ok (.returned
      { chunk := chunk,
        mgr := { mgr with chunks := mapStore mgr.chunks (chunkKey loc) chunk },
        opened := [path] }) := by
  rw [ChunkManager.Get.afterLookup, hpath, go_ok_bind, hopen, ChunkManager.Get.afterOpen,
    hload, go_ok_bind, ChunkManager.Get.afterLoad]

theorem chunkPath_with_chunks (mgr : ChunkManager) (chunks : List (Nat × Chunk))
    (loc : ChunkXZ) :
    ChunkManager.chunkPath { mgr with chunks := chunks } loc = mgr.chunkPath loc := by
  unfold ChunkManager.chunkPath
  rfl

theorem runSchedule_cons (world : World) (loc : ChunkXZ) (i : Nat) (rest : List Nat)
    (s s2 : GetCallers) (h : s.step world loc i = .ok (some s2)) :
    GetCallers.runSchedule world loc (i :: rest) s =
      GetCallers.runSchedule world loc rest s2 := by
  rw [GetCallers.runSchedule, h]

theorem step_of_start (world : World) (loc : ChunkXZ) (s : GetCallers) (i : Nat)
    (h : s.callers.get? i = some .start) :
    s.step world loc i = .ok (some { s with
      callers := s.callers.set i (.lookedUp (mapLookup s.mgr.chunks (chunkKey loc))) }) := by
  rw [GetCallers.step, h, GetCallers.stepAt]

theorem step_of_lookedUp (world : World) (loc : ChunkXZ) (s : GetCallers) (i : Nat)
    (cached : Option Chunk) (r : GetReturn) (h : s.callers.get? i = some (.lookedUp cached))
    (hrest : ChunkManager.Get.afterLookup world s.mgr loc (chunkKey loc) cached =
      .ok (.returned r)) :
    s.step world loc i =
      .ok (some { mgr := r.mgr, callers := s.callers.set i (.returned r.chunk r.opened) }) := by
  rw [GetCallers.step, h, GetCallers.stepAt, hrest, GetCallers.finish]

theorem getCallers_interleaved (world : World) (mgr : ChunkManager) (loc : ChunkXZ)
    (path : List Char) (reader : Reader) (chunk : Chunk)
    (hmiss : mapLookup mgr.chunks (chunkKey loc) = none)
    (hpath : mgr.chunkPath loc = .ok path) (hopen : world.openFile path = some reader)
    (hload : loadChunk reader = .ok (some chunk, none)) :
    GetCallers.runSchedule world loc [0, 1, 0, 1] (GetCallers.fresh mgr 2) =
      .ok (some
        { mgr := { mgr with chunks := mapStore (mapStore mgr.chunks (chunkKey loc) chunk)
                                        (chunkKey loc) chunk },
          callers := [.returned chunk [path], .returned chunk [path]] }) := by
  have hl := afterLookup_of_loaded world mgr loc path reader chunk hpath hopen hload
  have hl2 := afterLookup_of_loaded world
    { mgr with chunks := mapStore mgr.chunks (chunkKey loc) chunk } loc path reader chunk
    (by rw [chunkPath_with_chunks]; exact hpath) hopen hload
  have h1 : (GetCallers.fresh mgr 2).step world loc 0 =
      .ok (some { mgr := mgr, callers := [.lookedUp none, .start] }) := by
    rw [step_of_start world loc (GetCallers.fresh mgr 2) 0 rfl]
    simp only [GetCallers.fresh, List.replicate, List.set, hmiss]
  have h2 : GetCallers.step world loc { mgr := mgr, callers := [.lookedUp none, .start] } 1 =
      .ok (some { mgr := mgr, callers := [.lookedUp none, .lookedUp none] }) := by
    rw [step_of_start world loc { mgr := mgr, callers := [.lookedUp none, .start] } 1 rfl]
    simp only [List.set, hmiss]
  have h3 : GetCallers.step world loc
      { mgr := mgr, callers := [.lookedUp none, .lookedUp none] } 0 =
      .ok (some { mgr := { mgr with chunks := mapStore mgr.chunks (chunkKey loc) chunk },
                  callers := [.returned chunk [path], .lookedUp none] }) :=
    step_of_lookedUp world loc { mgr := mgr, callers := [.lookedUp none, .lookedUp none] } 0
      none _ rfl hl
  have h4 : GetCallers.step world loc
      { mgr := { mgr with chunks := mapStore mgr.chunks (chunkKey loc) chunk },
        callers := [.returned chunk [path], .lookedUp none] } 1 =
      .ok (some
        { mgr := { mgr with chunks := mapStore (mapStore mgr.chunks (chunkKey loc) chunk)
                                        (chunkKey loc) chunk },
          callers := [.returned chunk [path], .returned chunk [path]] }) :=
    step_of_lookedUp world loc
      { mgr := { mgr with chunks := mapStore mgr.chunks (chunkKey loc) chunk },
        callers := [.returned chunk [path], .lookedUp none] } 1 none _ rfl hl2
  rw [runSchedule_cons world loc 0 _ _ _ h1, runSchedule_cons world loc 1 _ _ _ h2,
    runSchedule_cons world loc 0 _ _ _ h3, runSchedule_cons world loc 1 _ _ _ h4,
    GetCallers.runSchedule]

/-- C15 (the code departs from the claim): two goroutines call `Get` for the uncached chunk
`(0, 0)`, whose file is in the world directory. `Get` takes no lock. When both do the map
read before either stores its chunk (schedule `0, 1, 0, 1`), both find the key absent and
each opens and decodes the file: two loads instead of one, each caller returning the chunk
of its own load, and the second store replacing the first in the map. The same holds for
three callers (three loads). When the calls follow one another (schedule `0, 0, 1, 1`) there
is one load and the second caller gets the chunk from the map. -/
theorem get_concurrent_loads_twice :
    mapLookup freshManager.chunks (chunkKey { x := 0, z := 0 }) = none ∧
    (GetCallers.runSchedule smallWorld { x := 0, z := 0 } [0, 1, 0, 1]
        (GetCallers.fresh freshManager 2) =
      .ok (some
        { mgr := { freshManager with chunks := [(chunkKey { x := 0, z := 0 }, smallChunk)] },
          callers := [.returned smallChunk ["world/0/0/c.0.0.dat".toList],
                      .returned smallChunk ["world/0/0/c.0.0.dat".toList]] }) ∧
      GetCallers.loads
        { mgr := { freshManager with chunks := [(chunkKey { x := 0, z := 0 }, smallChunk)] },
          callers := [.returned smallChunk ["world/0/0/c.0.0.dat".toList],
                      .returned smallChunk ["world/0/0/c.0.0.dat".toList]] } = 2) ∧
    (GetCallers.runSchedule smallWorld { x := 0, z := 0 } [0, 1, 2, 0, 1, 2]
        (GetCallers.fresh freshManager 3) =
      .ok (some
        { mgr := { freshManager with chunks := [(chunkKey { x := 0, z := 0 }, smallChunk)] },
          callers := [.returned smallChunk ["world/0/0/c.0.0.dat".toList],
                      .returned smallChunk ["world/0/0/c.0.0.dat".toList],
                      .returned smallChunk ["world/0/0/c.0.0.dat".toList]] }) ∧
      GetCallers.loads
        { mgr := { freshManager with chunks := [(chunkKey { x := 0, z := 0 }, smallChunk)] },
          callers := [.returned smallChunk ["world/0/0/c.0.0.dat".toList],
                      .returned smallChunk ["world/0/0/c.0.0.dat".toList],
                      .returned smallChunk ["world/0/0/c.0.0.dat".toList]] } = 3) ∧
    (GetCallers.runSchedule smallWorld { x := 0, z := 0 } [0, 0, 1, 1]
        (GetCallers.fresh freshManager 2) =
      .ok (some
        { mgr := { freshManager with chunks := [(chunkKey { x := 0, z := 0 }, smallChunk)] },
          callers := [.returned smallChunk ["world/0/0/c.0.0.dat".toList],
                      .returned smallChunk []] }) ∧
      GetCallers.loads
        { mgr := { freshManager with chunks := [(chunkKey { x := 0, z := 0 }, smallChunk)] },
          callers := [.returned smallChunk ["world/0/0/c.0.0.dat".toList],
                      .returned smallChunk []] } = 1) := by
  refine ⟨by decide, ⟨by decide, by decide⟩, ⟨by decide, by decide⟩, ⟨by decide, by decide⟩⟩

/-! ### `ReqTransferEntity` -/

/-- C14: `ReqTransferEntity(loc, entity)` leaves the shard state as it is and appends exactly
one operation to the shard's queue; run on a shard state, that operation calls
`chunk.transferEntity(entity)` exactly once when the shard's `Get(loc)` returns a chunk, and
when `Get(loc)` returns nil it makes no transfer call and leaves the state as `Get` left
it. -/
theorem reqTransferEntity_enqueues_guarded_transfer {σ χ ε : Type}
    (get : ChunkXZ → σ → Option χ × σ) (transferEntity : χ → ε → σ → σ)
    (client : localShardShardClient σ χ ε) (loc : ChunkXZ) (entity : ε) :
    ∃ op : ShardOp σ χ ε,
      (client.ReqTransferEntity get transferEntity loc entity).serverShard.queue =
        client.serverShard.queue ++ [op] ∧
      (client.ReqTransferEntity get transferEntity loc entity).serverShard.state =
        client.serverShard.state ∧
      (∀ st chunk st2, get loc st = (some chunk, st2) →
        op st = (transferEntity chunk entity st2, [(chunk, entity)])) ∧
      (∀ st st2, get loc st = (none, st2) → op st = (st2, [])) ∧
      (∀ st, get loc st = (none, st) → op st = (st, [])) := by
  refine ⟨transferEntityOp get transferEntity loc entity, rfl, rfl, ?_, ?_, ?_⟩
  · intro st chunk st2 h
    simp only [transferEntityOp, h]
  · intro st st2 h
    simp only [transferEntityOp, h]
  · intro st h
    simp only [transferEntityOp, h]

/-! ### Termination of `ChunksInRadius` -/

theorem run_inner_calls_length {σ γ : Type} (k : Consts) (get : ChunkXZ → σ → Option (γ × σ))
    (loc : ChunkXZ) (hget : ∀ c s, (get c s).isSome = true)
    (hmax : wrapInt32 (loc.x + k.ChunkRadius) = 2147483647) :
    ∀ (fuel : Nat) (z x : Int) (st : IterState σ γ), x ≤ 2147483647 →
      (ChunksInRadius.run k get loc fuel (.inner z x) st).calls.length =
        st.calls.length + fuel := by
  intro fuel
  induction fuel with
  | zero =>
    intro z x st _
    rfl
  | succ fuel ih =>
    intro z x st hx
    rw [ChunksInRadius.run, hmax, if_pos hx]
    obtain ⟨⟨chunk, mgr2⟩, hg⟩ := Option.isSome_iff_exists.mp (hget { x := x, z := z } st.mgr)
    rw [hg]
    simp only
    rw [ih _ _ _ (wrapInt32_le_max _)]
    simp only [List.length_append, List.length_singleton]
    omega

theorem chunksInRadius_calls_unbounded {σ γ : Type} (k : Consts)
    (get : ChunkXZ → σ → Option (γ × σ)) (mgr : σ) (loc : ChunkXZ)
    (hget : ∀ c s, (get c s).isSome = true)
    (hmax : wrapInt32 (loc.x + k.ChunkRadius) = 2147483647)
    (hz : wrapInt32 (loc.z - k.ChunkRadius) ≤ wrapInt32 (loc.z + k.ChunkRadius)) (fuel : Nat) :
    (ChunksInRadius k get (fuel + 1) mgr loc).calls.length = fuel := by
  unfold ChunksInRadius
  rw [ChunksInRadius.run, if_pos hz,
    run_inner_calls_length k get loc hget hmax fuel _ _ _ (wrapInt32_le_max _)]
  simp

/-- C17 (the code departs from the claim): with `ChunkRadius = 10` and center
`(2147483637, 0)`, so that `loc.x + ChunkRadius` is the maximum `int32` value, the iteration
never closes the channel, whatever the step budget, and the number of `Get` calls grows
without bound. -/
theorem chunksInRadius_diverges_at_max :
    isInt32 2147483637 ∧
    (¬ ∃ fuel : Nat,
      (ChunksInRadius sampleConsts getAlways fuel () { x := 2147483637, z := 0 }).isClosed
        = true) ∧
    (∀ n : Nat, ∃ fuel : Nat,
      n ≤ (ChunksInRadius sampleConsts getAlways fuel ()
        { x := 2147483637, z := 0 }).calls.length) := by
  refine ⟨by decide, ?_, fun n => ⟨n + 1, ?_⟩⟩
  · rintro ⟨fuel, h⟩
    have hnc := chunksInRadius_not_closed sampleConsts getAlways ()
      { x := 2147483637, z := 0 } (by decide) (by decide) fuel
    rw [hnc] at h
    exact Bool.false_ne_true h
  · rw [chunksInRadius_calls_unbounded sampleConsts getAlways () { x := 2147483637, z := 0 }
      (fun _ _ => rfl) (by decide) (by decide) n]

theorem wrapInt32_ge_min (n : Int) : -2147483648 ≤ wrapInt32 n := by
  unfold wrapInt32
  omega

theorem run_inner_terminates {σ γ : Type} (k : Consts) (get : ChunkXZ → σ → Option (γ × σ))
    (loc : ChunkXZ) (hget : ∀ c s, (get c s).isSome = true)
    (hx : wrapInt32 (loc.x + k.ChunkRadius) ≠ 2147483647) (z : Int) :
    ∀ (d : Nat) (x : Int) (st : IterState σ γ), -2147483648 ≤ x →
      (wrapInt32 (loc.x + k.ChunkRadius) - x + 1).toNat = d →
      ∃ st2 : IterState σ γ, ∀ fuel : Nat,
        ChunksInRadius.run k get loc (fuel + d + 1) (.inner z x) st =
          ChunksInRadius.run k get loc fuel (.outer (wrapInt32 (z + 1))) st2 := by
  have hle := wrapInt32_le_max (loc.x + k.ChunkRadius)
  intro d
  induction d with
  | zero =>
    intro x st _ hd
    refine ⟨st, fun fuel => ?_⟩
    have hgt : ¬ x ≤ wrapInt32 (loc.x + k.ChunkRadius) := by omega
    show ChunksInRadius.run k get loc (fuel + 1) _ st = _
    rw [ChunksInRadius.run, if_neg hgt]
  | succ d ih =>
    intro x st hlo hd
    have hxle : x ≤ wrapInt32 (loc.x + k.ChunkRadius) := by omega
    have hnext : wrapInt32 (x + 1) = x + 1 := wrapInt32_of_isInt32 ⟨by omega, by omega⟩
    obtain ⟨⟨chunk, mgr2⟩, hg⟩ := Option.isSome_iff_exists.mp (hget { x := x, z := z } st.mgr)
    obtain ⟨st2, hrun⟩ := ih (x + 1)
      { mgr := mgr2, calls := st.calls ++ [{ x := x, z := z }], sent := st.sent ++ [chunk] }
      (by omega) (by omega)
    refine ⟨st2, fun fuel => ?_⟩
    have hfuel : fuel + (d + 1) + 1 = (fuel + d + 1) + 1 := by omega
    rw [hfuel, ChunksInRadius.run, if_pos hxle, hg]
    simp only [hnext]
    exact hrun fuel

theorem run_outer_terminates {σ γ : Type} (k : Consts) (get : ChunkXZ → σ → Option (γ × σ))
    (loc : ChunkXZ) (hget : ∀ c s, (get c s).isSome = true)
    (hx : wrapInt32 (loc.x + k.ChunkRadius) ≠ 2147483647)
    (hz : wrapInt32 (loc.z + k.ChunkRadius) ≠ 2147483647) :
    ∀ (d : Nat) (z : Int) (st : IterState σ γ), -2147483648 ≤ z →
      (wrapInt32 (loc.z + k.ChunkRadius) - z + 1).toNat = d →
      ∃ (n : Nat) (st2 : IterState σ γ), ∀ fuel : Nat,
        ChunksInRadius.run k get loc (fuel + n) (.outer z) st = .closed st2 := by
  have hle := wrapInt32_le_max (loc.z + k.ChunkRadius)
  intro d
  induction d with
  | zero =>
    intro z st _ hd
    refine ⟨1, st, fun fuel => ?_⟩
    have hgt : ¬ z ≤ wrapInt32 (loc.z + k.ChunkRadius) := by omega
    rw [ChunksInRadius.run, if_neg hgt]
  | succ d ih =>
    intro z st hlo hd
    have hzle : z ≤ wrapInt32 (loc.z + k.ChunkRadius) := by omega
    have hnext : wrapInt32 (z + 1) = z + 1 := wrapInt32_of_isInt32 ⟨by omega, by omega⟩
    obtain ⟨st1, hrow⟩ := run_inner_terminates k get loc hget hx z
      (wrapInt32 (loc.x + k.ChunkRadius) - wrapInt32 (loc.x - k.ChunkRadius) + 1).toNat
      (wrapInt32 (loc.x - k.ChunkRadius)) st (wrapInt32_ge_min _) rfl
    obtain ⟨n, st2, hrest⟩ := ih (z + 1) st1 (by omega) (by omega)
    refine ⟨n + (wrapInt32 (loc.x + k.ChunkRadius) - wrapInt32 (loc.x - k.ChunkRadius)
      + 1).toNat + 1 + 1, st2, fun fuel => ?_⟩
    have hfuel : fuel + (n + (wrapInt32 (loc.x + k.ChunkRadius) -
        wrapInt32 (loc.x - k.ChunkRadius) + 1).toNat + 1 + 1) =
        ((fuel + n) + (wrapInt32 (loc.x + k.ChunkRadius) -
          wrapInt32 (loc.x - k.ChunkRadius) + 1).toNat + 1) + 1 := by omega
    rw [hfuel, ChunksInRadius.run, if_pos hzle, hrow (fuel + n), hnext]
    exact hrest fuel

theorem run_not_closed_of_outer_max {σ γ : Type} (k : Consts)
    (get : ChunkXZ → σ → Option (γ × σ)) (loc : ChunkXZ)
    (hmax : wrapInt32 (loc.z + k.ChunkRadius) = 2147483647) :
    ∀ (fuel : Nat) (z : Int) (st : IterState σ γ), z ≤ 2147483647 →
      (ChunksInRadius.run k get loc fuel (.outer z) st).isClosed = false ∧
      ∀ x, (ChunksInRadius.run k get loc fuel (.inner z x) st).isClosed = false := by
  intro fuel
  induction fuel with
  | zero =>
    intro z st _
    exact ⟨rfl, fun _ => rfl⟩
  | succ fuel ih =>
    intro z st hz
    constructor
    · rw [ChunksInRadius.run, hmax, if_pos hz]
      exact (ih z st hz).2 _
    · intro x
      rw [ChunksInRadius.run]
      split_ifs
      · cases hg : get { x := x, z := z } st.mgr with
        | none => rfl
        | some p => exact (ih z _ hz).2 _
      · exact (ih _ st (wrapInt32_le_max _)).1

/-- When every call of `Get` returns, the iteration of `ChunksInRadius` closes the channel
(for every sufficient step budget) exactly when `loc.z + ChunkRadius` is not the maximum
`int32` value after wrapping and either `loc.x + ChunkRadius` is not the maximum either or
the outer loop is not entered at all. -/
theorem chunksInRadius_closes_iff {σ γ : Type} (k : Consts)
    (get : ChunkXZ → σ → Option (γ × σ)) (mgr : σ) (loc : ChunkXZ)
    (hget : ∀ c s, (get c s).isSome = true) :
    (∃ (N : Nat) (st : IterState σ γ), ∀ fuel : Nat, N ≤ fuel →
        ChunksInRadius k get fuel mgr loc = .closed st) ↔
      (wrapInt32 (loc.z + k.ChunkRadius) ≠ 2147483647 ∧
        (wrapInt32 (loc.x + k.ChunkRadius) ≠ 2147483647 ∨
          wrapInt32 (loc.z + k.ChunkRadius) < wrapInt32 (loc.z - k.ChunkRadius))) := by
  constructor
  · rintro ⟨N, st, h⟩
    have hclosed : (ChunksInRadius k get N mgr loc).isClosed = true := by
      rw [h N le_rfl]
      rfl
    refine ⟨fun hz => ?_, ?_⟩
    · have := (run_not_closed_of_outer_max k get loc hz N (wrapInt32 (loc.z - k.ChunkRadius))
        { mgr := mgr, calls := [], sent := [] } (wrapInt32_le_max _)).1
      unfold ChunksInRadius at hclosed
      rw [this] at hclosed
      exact Bool.false_ne_true hclosed
    · by_contra hcon
      push_neg at hcon
      have := chunksInRadius_not_closed k get mgr loc hcon.1 hcon.2 N
      rw [this] at hclosed
      exact Bool.false_ne_true hclosed
  · rintro ⟨hz, hx | hskip⟩
    · obtain ⟨n, st, h⟩ := run_outer_terminates k get loc hget hx hz _
        (wrapInt32 (loc.z - k.ChunkRadius)) { mgr := mgr, calls := [], sent := [] }
        (wrapInt32_ge_min _) rfl
      refine ⟨n, st, fun fuel hfuel => ?_⟩
      have hf : fuel = (fuel - n) + n := by omega
      unfold ChunksInRadius
      rw [hf]
      exact h (fuel - n)
    · refine ⟨1, { mgr := mgr, calls := [], sent := [] }, fun fuel hfuel => ?_⟩
      have hf : fuel = (fuel - 1) + 1 := by omega
      unfold ChunksInRadius
      rw [hf, ChunksInRadius.run, if_neg (by omega)]

/-! ### `ChunksInRadius` with the calls of `Get` -/

/-- With the calls of `Get` made in a world directory without chunk files, the iteration
around chunk `(0, 0)` ends inside its first call of `Get`, for chunk `(-1, -1)`; in the world
with the file of chunk `(0, 0)` only, a radius-0 iteration loads that chunk and closes the
channel. -/
theorem chunksInRadius_with_get :
    (ChunksInRadius smallConsts (ChunkManager.getCall emptyWorld) 5 freshManager
        { x := 0, z := 0 }).isGetFailed = true ∧
    (ChunksInRadius smallConsts (ChunkManager.getCall emptyWorld) 5 freshManager
        { x := 0, z := 0 }).calls = [{ x := -1, z := -1 }] ∧
    (ChunksInRadius { smallConsts with ChunkRadius := 0 } (ChunkManager.getCall smallWorld) 5
        freshManager { x := 0, z := 0 }).isClosed = true ∧
    (ChunksInRadius { smallConsts with ChunkRadius := 0 } (ChunkManager.getCall smallWorld) 5
        freshManager { x := 0, z := 0 }).calls = [{ x := 0, z := 0 }] := by
  refine ⟨by decide, by decide, by decide, by decide⟩

end Chunkymonkey
